import Mathlib

/-!
# ARRAY_AGG aggregate states (be/src/exprs/agg/array_agg.h)

A shallow embedding of the two aggregate functions of `array_agg.h`:

* `ArrayAggAggregateState` / `ArrayAggAggregateFunction`: the simple variant
  (one value column, optional distinct through a hash set);
* `ArrayAggAggregateStateV2` / `ArrayAggAggregateFunctionV2`: the ordered variant
  (a value column plus order-by key columns, sorted and optionally
  de-duplicated when finalized).

Conventions.  `size_t` counters are natural numbers: a counter counts rows
that were materialised in memory, so it stays far below `2^64`.  Columns are
lists of rows; a read outside a column (undefined behaviour in the source) is
given a default here and every theorem that depends on such a read carries the
corresponding range hypothesis.
-/

namespace starrocks

/-! ## Columns -/

/-- Modelled from the spec: one row of a `NullableColumn` (column/nullable_column.h is
not among the sources): the value held by the data column and the flag held by
the null column. -/
structure Row (V : Type) where
  value : V
  is_null : Bool
deriving DecidableEq, Repr

instance {V : Type} [Inhabited V] : Inhabited (Row V) := ⟨⟨default, true⟩⟩

/-- Modelled from the spec: a `NullableColumn`, the data column and the null column
kept row by row (the two always have the same size). -/
abbrev NullableColumn (V : Type) := List (Row V)

namespace NullableColumn

variable {V : Type}

/-- Modelled from the spec: `ColumnHelper::get_data_column` of a nullable column, the
values of the data column, also under the null rows. -/
def get_data_column (c : NullableColumn V) : List V := c.map Row.value

/-- Modelled from the spec: `NullableColumn::null_count(offset, count)`, the number of
null flags set in `[offset, offset + count)`. -/
def null_count (c : NullableColumn V) (offset count : Nat) : Nat :=
  (((c.drop offset).take count).filter Row.is_null).length

/-- Modelled from the spec: `append_nulls(count)`, which appends `count` null markers
(default value in the data column, flag set in the null column). -/
def append_nulls [Inhabited V] (c : NullableColumn V) (count : Nat) : NullableColumn V :=
  c ++ List.replicate count ⟨default, true⟩

/-- Modelled from the spec: `Column::only_null()`, false for a `NullableColumn`
(only a constant null column answers true). -/
def only_null (_c : NullableColumn V) : Bool := false

/-- Modelled from the spec: append of the rows `[offset, offset + count)` of a
non-nullable data column: the values, none of them null. -/
def append_data (c : NullableColumn V) (src : List V) (offset count : Nat) : NullableColumn V :=
  c ++ ((src.drop offset).take count).map (fun v => ⟨v, false⟩)

/-- Modelled from the spec: append of the rows `[offset, offset + count)` of another
nullable column: values and null flags are both copied. -/
def append_rows (c : NullableColumn V) (src : NullableColumn V) (offset count : Nat) :
    NullableColumn V :=
  c ++ (src.drop offset).take count

end NullableColumn

/-- Modelled from the spec: the source columns an aggregate receives (column/column.h,
const_column.h, nullable_column.h are not among the sources): a plain data
column, a nullable column, or a constant column of `size` rows whose single
value is either a value or the constant null. -/
inductive Column (V : Type) where
  | data (values : List V)
  | nullable (rows : NullableColumn V)
  | const (value : Option V) (size : Nat)
deriving DecidableEq, Repr

namespace Column

variable {V : Type}

/-- Modelled from the spec: `Column::size()`. -/
def size : Column V → Nat
  | data vs => vs.length
  | nullable rs => rs.length
  | const _ n => n

/-- Modelled from the spec: `Column::is_nullable()`; a constant is nullable exactly when
it is the constant null. -/
def is_nullable : Column V → Bool
  | data _ => false
  | nullable _ => true
  | const v _ => v.isNone

/-- Modelled from the spec: `Column::is_null(row)`. -/
def is_null [Inhabited V] : Column V → Nat → Bool
  | data _, _ => false
  | nullable rs, row => (rs.getD row default).is_null
  | const v _, _ => v.isNone

/-- Modelled from the spec: `Column::only_null()`, true for the constant null column. -/
def only_null : Column V → Bool
  | const none _ => true
  | _ => false

/-- Modelled from the spec: `Column::is_constant()`. -/
def is_constant : Column V → Bool
  | const _ _ => true
  | _ => false

/-- Modelled from the spec: `ConstColumn::data_column()`, the one-row column that holds
the constant (a column is its own data column otherwise). -/
def data_column [Inhabited V] : Column V → Column V
  | const (some v) _ => data [v]
  | const none _ => nullable [⟨default, true⟩]
  | c => c

/-- Modelled from the spec: `NullableColumn::append(src, offset, count)`.  A nullable
source gives its rows, a plain source gives values that are not null; a
constant source (never passed by this file: `update` unwraps constants first)
gives copies of its value. -/
def append_to [Inhabited V] (dst : NullableColumn V) (src : Column V) (offset count : Nat) :
    NullableColumn V :=
  match src with
  | data vs => dst.append_data vs offset count
  | nullable rs => dst.append_rows rs offset count
  | const (some v) n => dst.append_data (List.replicate n v) offset count
  | const none n => dst.append_rows (List.replicate n ⟨default, true⟩) offset count

end Column

/-- Modelled from the spec: an `ArrayColumn` (column/array_column.h is not among the
sources): a nullable elements column and the offsets column; cell `i` is the
run `[offsets[i], offsets[i+1])` of the elements.  A column starts with the
single offset `0`. -/
structure ArrayColumn (V : Type) where
  elements : NullableColumn V
  offsets : List Nat
deriving DecidableEq, Repr

namespace ArrayColumn

variable {V : Type}

/-- An array column without cells. -/
def empty : ArrayColumn V := ⟨[], [0]⟩

/-- Modelled from the spec: `offsets.back()`. -/
def offsets_back (a : ArrayColumn V) : Nat := a.offsets.getLastD 0

/-- Modelled from the spec: `ArrayColumn::size()`, the number of cells. -/
def size (a : ArrayColumn V) : Nat := a.offsets.length - 1

/-- Modelled from the spec: `get_element_offset_size(row)`: offset and length of cell `row`. -/
def get_element_offset_size (a : ArrayColumn V) (row : Nat) : Nat × Nat :=
  (a.offsets.getD row 0, a.offsets.getD (row + 1) 0 - a.offsets.getD row 0)

/-- The rows of cell `row`. -/
def cell (a : ArrayColumn V) (row : Nat) : NullableColumn V :=
  (a.elements.drop (a.get_element_offset_size row).1).take (a.get_element_offset_size row).2

/-- Modelled from the spec: `append_array_element(elem, null_elem)`: one more cell
holding the values of `elem` followed by `null_elem` null markers. -/
def append_array_element [Inhabited V] (a : ArrayColumn V) (elem : List V) (null_elem : Nat) :
    ArrayColumn V :=
  { elements := (a.elements.append_data elem 0 elem.length).append_nulls null_elem
    offsets := a.offsets ++ [a.offsets_back + elem.length + null_elem] }

/-- Modelled from the spec: `append_default()` on an array column: one empty cell. -/
def append_default (a : ArrayColumn V) : ArrayColumn V :=
  { a with offsets := a.offsets ++ [a.offsets_back] }

/-- The invariant of an array column: the offsets start at `0`, never decrease
and end at the size of the elements column. -/
def well_formed (a : ArrayColumn V) : Prop :=
  a.offsets.head? = some 0 ∧ a.offsets.Pairwise (· ≤ ·) ∧ a.offsets_back = a.elements.length

instance (a : ArrayColumn V) : Decidable a.well_formed := by
  unfold well_formed; infer_instance

end ArrayColumn

/-! ## Hash set -/

/-- Modelled from the spec: the presence-only hash set (`phmap::flat_hash_set`,
column/hash_set.h is not among the sources).  The set is represented by the
keys it holds, listed in the order in which they were inserted; the order in
which the real table iterates is a function of that history and is not
fixed here (see `IterationOrder`). -/
structure FlatHashSet (K : Type) where
  keys : List K
deriving DecidableEq, Repr

namespace FlatHashSet

variable {K : Type}

/-- The set without keys. -/
def empty : FlatHashSet K := ⟨[]⟩

/-- Modelled from the spec: `contains(key)`. -/
def contains [DecidableEq K] (s : FlatHashSet K) (k : K) : Bool := decide (k ∈ s.keys)

/-- Modelled from the spec: `emplace(key)`: the key is inserted unless an equal key is
present (duplicates are rejected silently). -/
def emplace [DecidableEq K] (s : FlatHashSet K) (k : K) : FlatHashSet K :=
  if k ∈ s.keys then s else ⟨s.keys ++ [k]⟩

/-- Modelled from the spec: `size()`. -/
def size (s : FlatHashSet K) : Nat := s.keys.length

end FlatHashSet

/-- Modelled from the spec: the iteration order of a hash set is unspecified: it is some
rearrangement of the keys held, determined by the table. -/
structure IterationOrder (K : Type) where
  iterate : List K → List K
  perm : ∀ l, (iterate l).Perm l

/-- The order in which the keys were inserted. -/
def IterationOrder.insertion (K : Type) : IterationOrder K := ⟨id, fun _ => List.Perm.refl _⟩

/-- The reverse of the order in which the keys were inserted. -/
def IterationOrder.reversed (K : Type) : IterationOrder K :=
  ⟨List.reverse, fun l => List.reverse_perm l⟩

/-! ## Function context and sort utility -/

/-- Modelled from the spec: the part of `FunctionContext` (exprs/function_context.h is not
among the sources) that `array_agg.h` reads: the number of arguments, the
sort directives, the distinct flag, the cancellation flag of the runtime state
as it is read after the sort, and the error channel. -/
structure FunctionContext where
  num_args : Nat
  is_asc_order : List Bool
  nulls_first : List Bool
  is_distinct : Bool
  cancelled : Bool
  error_msg : Option String
deriving DecidableEq, Repr

namespace FunctionContext

/-- Modelled from the spec: `has_error()`. -/
def has_error (ctx : FunctionContext) : Bool := ctx.error_msg.isSome

/-- Modelled from the spec: `set_error(msg, is_udf)`: the message is recorded unless an
earlier error is already held. -/
def set_error (ctx : FunctionContext) (msg : String) : FunctionContext :=
  if ctx.error_msg.isSome then ctx else { ctx with error_msg := some msg }

end FunctionContext

/-- Modelled from the spec: `Status` of the sort utility. -/
structure Status where
  ok : Bool
  to_string : String
deriving DecidableEq, Repr

/-- Modelled from the spec: `SortDescs(is_asc_order, nulls_first)`. -/
structure SortDescs where
  is_asc_order : List Bool
  nulls_first : List Bool
deriving DecidableEq, Repr

/-- Modelled from the spec: a `Permutation`, the row indices in output order. -/
abbrev Permutation := List Nat

/-- Modelled from the spec: the sort utility `sort_and_tie_columns(cancel, columns,
sort_desc, &perm)` (exec/sorting/sorting.h is not among the sources), consumed
as a black box from the cancellation flag, the key columns and the directives
to a status and a permutation. -/
abbrev SortUtility (V : Type) := Bool → List (NullableColumn V) → SortDescs → Status × Permutation

/-- Modelled from the spec: `materialize_column_by_permutation(dst, {src}, perm)`: the
rows of `src` are appended to `dst` in the order of `perm`. -/
def materialize_column_by_permutation {V : Type} [Inhabited V] (dst src : NullableColumn V)
    (perm : Permutation) : NullableColumn V :=
  dst ++ perm.map (fun i => src.getD i default)

/-- Modelled from the spec: `Column::filter(filter)`: the rows whose filter byte is set
are kept, in order. -/
def NullableColumn.filter_by {V : Type} (c : NullableColumn V) (filter : List Bool) :
    NullableColumn V :=
  ((c.zip filter).filter (fun p => p.2)).map (fun p => p.1)

/-- Modelled from the spec: the destination column of `finalize_to_column`: an array
column, a nullable column over an array column, or a column of another shape
(of which only the name and the number of rows matter). -/
inductive OutColumn (V : Type) where
  | array (col : ArrayColumn V)
  | nullable_array (col : ArrayColumn V) (null_column : List Bool)
  | other (name : String) (size : Nat)
deriving DecidableEq, Repr

namespace OutColumn

variable {V : Type}

/-- Modelled from the spec: `ColumnHelper::get_data_column(to)->is_array()`. -/
def is_array : OutColumn V → Bool
  | array _ => true
  | nullable_array _ _ => true
  | other _ _ => false

/-- Modelled from the spec: `to->is_nullable()`. -/
def is_nullable : OutColumn V → Bool
  | nullable_array _ _ => true
  | _ => false

/-- Modelled from the spec: `to->get_name()`. -/
def get_name : OutColumn V → String
  | array _ => "array"
  | nullable_array _ _ => "nullable"
  | other name _ => name

/-- Modelled from the spec: `to->size()`, the number of rows. -/
def size : OutColumn V → Nat
  | array col => col.size
  | nullable_array _ null_column => null_column.length
  | other _ n => n

/-- Modelled from the spec: `to->append_default()`: one default row (an empty array, a
null for a nullable column). -/
def append_default : OutColumn V → OutColumn V
  | array col => array col.append_default
  | nullable_array col null_column => nullable_array col.append_default (null_column ++ [true])
  | other name n => other name (n + 1)

/-- The array column behind the destination, when it has one. -/
def array_col : OutColumn V → Option (ArrayColumn V)
  | array col => some col
  | nullable_array col _ => some col
  | other _ _ => none

end OutColumn

/-! ## The ordered variant: `ArrayAggAggregateStateV2` -/

/-- The state `ArrayAggAggregateStateV2` after `create`: `data_columns`, the value
column followed by the order-by columns, each created nullable. -/
structure ArrayAggAggregateStateV2 (V : Type) where
  data_columns : List (NullableColumn V)
deriving DecidableEq, Repr

namespace ArrayAggAggregateStateV2

variable {V : Type}

/-- `update(ctx, column, index, offset, count)`:
`(*data_columns)[index]->append(column, offset, count)`. -/
def update [Inhabited V] (s : ArrayAggAggregateStateV2 V) (column : Column V)
    (index offset count : Nat) : ArrayAggAggregateStateV2 V :=
  ⟨s.data_columns.modify (fun c => Column.append_to c column offset count) index⟩

/-- `update_nulls(ctx, index, count)`: `(*data_columns)[index]->append_nulls(count)`. -/
def update_nulls [Inhabited V] (s : ArrayAggAggregateStateV2 V) (index count : Nat) :
    ArrayAggAggregateStateV2 V :=
  ⟨s.data_columns.modify (fun c => c.append_nulls count) index⟩

/-- `release_order_by_columns()`: the columns `1 ..` are reset and the vector is
resized to one column. -/
def release_order_by_columns (s : ArrayAggAggregateStateV2 V) : ArrayAggAggregateStateV2 V :=
  ⟨s.data_columns.take 1⟩

end ArrayAggAggregateStateV2

namespace ArrayAggAggregateFunctionV2

variable {V : Type}

/-- `get_name()`. -/
def get_name : String := "array_agg2"

/-- `create`: one empty nullable column per argument. -/
def create (ctx : FunctionContext) : ArrayAggAggregateStateV2 V :=
  ⟨(List.range ctx.num_args).map (fun _ => [])⟩

/-- `reset`: every column is resized to `0`. -/
def reset (state : ArrayAggAggregateStateV2 V) : ArrayAggAggregateStateV2 V :=
  ⟨state.data_columns.map (fun _ => [])⟩

/-- The body of the loop of `update` from argument `i` on; the loop returns at
the first source column that has no row `row_num`. -/
def update_from [Inhabited V] (columns : List (Column V)) (row_num : Nat) :
    List Nat → FunctionContext → ArrayAggAggregateStateV2 V →
      FunctionContext × ArrayAggAggregateStateV2 V
  | [], ctx, state => (ctx, state)
  | i :: rest, ctx, state =>
    let column := columns.getD i (Column.data [])
    if column.size ≤ row_num then
      (ctx.set_error (get_name ++ "'s update row number overflow"), state)
    else if (column.is_nullable && column.is_null row_num) || column.only_null then
      update_from columns row_num rest ctx (state.update_nulls i 1)
    else if column.is_constant then
      update_from columns row_num rest ctx (state.update column.data_column i 0 1)
    else
      update_from columns row_num rest ctx (state.update column i row_num 1)

/-- `update(ctx, columns, state, row_num)`: the loop over the arguments
`0 .. ctx->get_num_args()`. -/
def update [Inhabited V] (ctx : FunctionContext) (columns : List (Column V))
    (state : ArrayAggAggregateStateV2 V) (row_num : Nat) :
    FunctionContext × ArrayAggAggregateStateV2 V :=
  update_from columns row_num (List.range ctx.num_args) ctx state

/-- `merge(ctx, column, state, row_num)`: `input_columns` are the fields of the
struct column, each an array column; the run of row `row_num` of field `i` is
appended to internal column `i`. -/
def merge [Inhabited V] (input_columns : List (ArrayColumn V))
    (state : ArrayAggAggregateStateV2 V) (row_num : Nat) : ArrayAggAggregateStateV2 V :=
  (List.range input_columns.length).foldl
    (fun st i =>
      let array_column := input_columns.getD i ArrayColumn.empty
      let offsets := array_column.offsets
      st.update (Column.nullable array_column.elements) i (offsets.getD row_num 0)
        (offsets.getD (row_num + 1) 0 - offsets.getD row_num 0))
    state

/-- One round of the outer loop of the distinct filter of `finalize_to_column`
(`sets`, `filter`, `is_duplicated` are the accumulator): a row whose hash is
new is recorded; otherwise the earlier rows are scanned for one with the same
hash that `equals` the row, and the row is marked when one is found. -/
def mark_duplicated (hash : List Nat) (res : NullableColumn V) [Inhabited V]
    (equals : Row V → Row V → Bool) (acc : FlatHashSet Nat × List Bool × Bool) (row_id : Nat) :
    FlatHashSet Nat × List Bool × Bool :=
  if !acc.1.contains (hash.getD row_id 0) then
    (acc.1.emplace (hash.getD row_id 0), acc.2.1, acc.2.2)
  else if (List.range row_id).any (fun next_id =>
      hash.getD row_id 0 == hash.getD next_id 0 &&
        equals (res.getD next_id default) (res.getD row_id default)) then
    (acc.1, acc.2.1.set row_id false, true)
  else acc

/-- The distinct filter of `finalize_to_column` (the block under
`ctx->get_is_distinct()`): `fnv_hash row seed` is the row hash, `equals` the
row equality of the column.  The result is the filtered column and its size. -/
def remove_duplicated [Inhabited V] (fnv_hash : Row V → Nat → Nat)
    (equals : Row V → Row V → Bool) (res : NullableColumn V) (elem_size : Nat) :
    NullableColumn V × Nat :=
  let filter := List.replicate elem_size true
  let hash := (List.range elem_size).map (fun i => fnv_hash (res.getD i default) 0)
  let acc := (List.range elem_size).foldl (mark_duplicated hash res equals)
    (FlatHashSet.empty, filter, false)
  if acc.2.2 then (res.filter_by acc.2.1, (res.filter_by acc.2.1).length) else (res, elem_size)

/-- The last block of `finalize_to_column`: the cell is appended to the array
column behind the destination `to`. -/
def append_result [Inhabited V] (dst : OutColumn V) (res : NullableColumn V) (elem_size : Nat) :
    OutColumn V :=
  let append_cell (col : ArrayColumn V) : ArrayColumn V :=
    { elements :=
        if res.only_null then col.elements.append_nulls elem_size
        else col.elements.append_rows res 0 elem_size
      offsets := col.offsets ++ [col.offsets_back + elem_size] }
  match dst with
  | OutColumn.array col => OutColumn.array (append_cell col)
  | OutColumn.nullable_array col null_column =>
    OutColumn.nullable_array (append_cell col) (null_column ++ [false])
  | OutColumn.other name n => OutColumn.other name n

/-- The result of `finalize_to_column`: the context, the state and the
destination after the call. -/
structure Finalized (V : Type) where
  ctx : FunctionContext
  state : ArrayAggAggregateStateV2 V
  dst : OutColumn V
deriving DecidableEq, Repr

/-- The deferred block of `finalize_to_column`, run when the function is left:
a default row is appended when the context holds an error. -/
def defer (r : Finalized V) : Finalized V :=
  if r.ctx.has_error then { r with dst := r.dst.append_default } else r

/-- The value sequence after the ordering step of `finalize_to_column`, with
the state left by that step: `none` when the step returned with an error.
With one column `res` is the state column itself; otherwise the order-by
columns are sorted and released and `res` is the fresh column `tmp`. -/
def order_values [Inhabited V] (sort : SortUtility V) (ctx : FunctionContext)
    (state : ArrayAggAggregateStateV2 V) :
    FunctionContext × ArrayAggAggregateStateV2 V × Option (NullableColumn V) :=
  let res := state.data_columns.getD 0 []
  let tmp : NullableColumn V := []
  if state.data_columns.length > 1 then
    let order_by_columns := state.data_columns.drop 1
    let sorted := sort ctx.cancelled order_by_columns ⟨ctx.is_asc_order, ctx.nulls_first⟩
    let state1 := state.release_order_by_columns
    if ctx.cancelled then
      (ctx.set_error "array_agg detects cancelled.", state1, none)
    else if !sorted.1.ok then
      (ctx.set_error sorted.1.to_string, state1, none)
    else
      (ctx, state1, some (materialize_column_by_permutation tmp (state1.data_columns.getD 0 [])
        sorted.2))
  else (ctx, state, some res)

/-- `finalize_to_column(ctx, state, to)`; the destination `to` is `dst` here.
`sort`, `fnv_hash` and `equals` are the sort utility and the hash and equality
of the value column.  With a single column `res` is the state column itself
(the same shared column), so the distinct filter acts on the state column; with
order-by columns `res` is the fresh column `tmp`. -/
def finalize_to_column [Inhabited V] (sort : SortUtility V) (fnv_hash : Row V → Nat → Nat)
    (equals : Row V → Row V → Bool) (ctx : FunctionContext)
    (state : ArrayAggAggregateStateV2 V) (dst : OutColumn V) : Finalized V :=
  defer <|
    if !dst.is_array then
      ⟨ctx.set_error ("The output column of " ++ get_name ++
        " finalize_to_column() is not array, but is " ++ dst.get_name), state, dst⟩
    else
      let elem_size := (state.data_columns.getD 0 []).length
      match order_values sort ctx state with
      | (ctx1, state1, none) => ⟨ctx1, state1, dst⟩
      | (ctx1, state1, some res) =>
        if ctx1.is_distinct then
          let filtered := remove_duplicated fnv_hash equals res elem_size
          let state2 : ArrayAggAggregateStateV2 V :=
            if state.data_columns.length > 1 then state1
            else ⟨state1.data_columns.set 0 filtered.1⟩
          ⟨ctx1, state2, append_result dst filtered.1 filtered.2⟩
        else ⟨ctx1, state1, append_result dst res elem_size⟩

end ArrayAggAggregateFunctionV2

/-! ## The simple variant: `ArrayAggAggregateState` -/

/-- Modelled from the spec: a `Slice`, a span of bytes. -/
abbrev Slice := List Nat

/-- Modelled from the spec: `SliceWithHash`, the key of `SliceHashSet` (column/hash_set.h
is not among the sources): the bytes and their precomputed hash; two keys are
equal when the hashes and the bytes are. -/
structure SliceWithHash where
  data : Slice
  hash : Nat
deriving DecidableEq, Repr

/-- Modelled from the spec: the memory pool that owns the bytes of the string keys: the
chunks allocated so far. -/
structure MemPool where
  chunks : List Slice
deriving DecidableEq, Repr

/-- Modelled from the spec: `mem_pool->allocate(size)` followed by the `memcpy` of the key
bytes: the pool owns one more chunk, a copy of `bytes`, which is returned. -/
def MemPool.allocate_copy (pool : MemPool) (bytes : Slice) : Slice × MemPool :=
  (bytes, ⟨pool.chunks ++ [bytes]⟩)

/-- The template parameter `PT`: a fixed-width type with its C++ value type, or
a string type (`lt_is_string<PT>`).  The value type has a decidable equality
(floating point types, whose equality is not reflexive, are left out). -/
inductive LogicalType : Type 1 where
  | fixed (CppType : Type) (eq : DecidableEq CppType) (dflt : Inhabited CppType)
  | string

/-- `lt_is_string<PT>`. -/
def lt_is_string : LogicalType → Bool
  | LogicalType.fixed _ _ _ => false
  | LogicalType.string => true

/-- `RunTimeCppType<PT>`: the value type of the column. -/
def RunTimeCppType : LogicalType → Type
  | LogicalType.fixed V _ _ => V
  | LogicalType.string => Slice

/-- The key type of the hash set `MyHashSet` instantiated for `PT`: the value
itself for a fixed-width type, `SliceWithHash` for a string type. -/
def KeyType : LogicalType → Type
  | LogicalType.fixed V _ _ => V
  | LogicalType.string => SliceWithHash

instance instDecidableEqCppType : (PT : LogicalType) → DecidableEq (RunTimeCppType PT)
  | LogicalType.fixed _ eq _ => eq
  | LogicalType.string => inferInstanceAs (DecidableEq (List Nat))

instance instInhabitedCppType : (PT : LogicalType) → Inhabited (RunTimeCppType PT)
  | LogicalType.fixed _ _ dflt => dflt
  | LogicalType.string => ⟨([] : List Nat)⟩

instance instDecidableEqKeyType : (PT : LogicalType) → DecidableEq (KeyType PT)
  | LogicalType.fixed _ eq _ => eq
  | LogicalType.string => inferInstanceAs (DecidableEq SliceWithHash)

/-- The state `ArrayAggAggregateState<PT, is_distinct, MyHashSet>`. -/
structure ArrayAggAggregateState (PT : LogicalType) where
  data_column : List (RunTimeCppType PT)
  null_count : Nat
  set : FlatHashSet (KeyType PT)

namespace ArrayAggAggregateState

/-- The state as it is constructed: no element, no null, an empty set. -/
def init (PT : LogicalType) : ArrayAggAggregateState PT := ⟨[], 0, FlatHashSet.empty⟩

/-- One round of the loop of the string branch of `update`: the key is built
from the slice at `offset + i` (`slice_hash` is the hash `SliceWithHash`
computes) and `lazy_emplace` inserts, when no equal key is present, the key
whose bytes were copied into the pool. -/
def update_string_step (slice_hash : Slice → Nat) (column : List Slice) (offset : Nat)
    (acc : FlatHashSet SliceWithHash × MemPool) (i : Nat) : FlatHashSet SliceWithHash × MemPool :=
  let raw_key := column.getD (offset + i) []
  let key : SliceWithHash := ⟨raw_key, slice_hash raw_key⟩
  if acc.1.contains key then acc
  else
    let pos := acc.2.allocate_copy key.data
    (⟨acc.1.keys ++ [⟨pos.1, key.hash⟩]⟩, pos.2)

/-- `update(mem_pool, column, offset, count)`: the three branches selected by
`is_distinct` and `lt_is_string<PT>`. -/
def update (slice_hash : Slice → Nat) : (PT : LogicalType) → (is_distinct : Bool) → MemPool →
    ArrayAggAggregateState PT → List (RunTimeCppType PT) → Nat → Nat →
    ArrayAggAggregateState PT × MemPool
  | LogicalType.string, true, mem_pool, s, column, offset, count =>
    let r := (List.range count).foldl (update_string_step slice_hash column offset)
      (s.set, mem_pool)
    ({ s with set := r.1 }, r.2)
  | LogicalType.fixed _ _ dflt, true, mem_pool, s, column, offset, count =>
    let r := (List.range count).foldl
      (fun acc i => acc.emplace (column.getD (offset + i) dflt.default)) s.set
    ({ s with set := r }, mem_pool)
  | _, false, mem_pool, s, column, offset, count =>
    ({ s with data_column := s.data_column ++ (column.drop offset).take count }, mem_pool)

/-- `append_null()`. -/
def append_null {PT : LogicalType} (is_distinct : Bool) (s : ArrayAggAggregateState PT) :
    ArrayAggAggregateState PT :=
  if is_distinct then { s with null_count := 1 } else { s with null_count := s.null_count + 1 }

/-- `append_null(count)`. -/
def append_null_count {PT : LogicalType} (is_distinct : Bool) (s : ArrayAggAggregateState PT)
    (count : Nat) : ArrayAggAggregateState PT :=
  if is_distinct then
    if count > 0 then { s with null_count := 1 } else s
  else { s with null_count := s.null_count + count }

/-- The values appended by the loops of `get_data_column`: the keys of the set
in iteration order, a string key giving back its slice. -/
def set_values : (PT : LogicalType) → List (KeyType PT) → List (RunTimeCppType PT)
  | LogicalType.string, keys => keys.map (fun key => key.data)
  | LogicalType.fixed _ _ _, keys => keys

/-- `get_data_column()`: the state after the call; the column returned is its
`data_column`.  `order` is the iteration order of the hash set. -/
def get_data_column {PT : LogicalType} (is_distinct : Bool) (order : IterationOrder (KeyType PT))
    (s : ArrayAggAggregateState PT) : ArrayAggAggregateState PT :=
  let size := s.set.size
  if s.data_column.length > 0 || size == 0 then s
  else if is_distinct then
    { s with data_column := s.data_column ++ set_values PT (order.iterate s.set.keys) }
  else s

end ArrayAggAggregateState

namespace ArrayAggAggregateFunction

/-- `update(ctx, columns, state, row_num)`: row `row_num` of `columns[0]`. -/
def update (slice_hash : Slice → Nat) (PT : LogicalType) (is_distinct : Bool) (mem_pool : MemPool)
    (column : List (RunTimeCppType PT)) (state : ArrayAggAggregateState PT) (row_num : Nat) :
    ArrayAggAggregateState PT × MemPool :=
  ArrayAggAggregateState.update slice_hash PT is_distinct mem_pool state column row_num 1

/-- `process_null(ctx, state)`. -/
def process_null {PT : LogicalType} (is_distinct : Bool) (state : ArrayAggAggregateState PT) :
    ArrayAggAggregateState PT :=
  state.append_null is_distinct

/-- `merge(ctx, column, state, row_num)`: the data column of the elements is
read from the offset of cell `row_num`, for the size of the cell less the
number of its null elements; the nulls are then added. -/
def merge (slice_hash : Slice → Nat) (PT : LogicalType) (is_distinct : Bool) (mem_pool : MemPool)
    (input_column : ArrayColumn (RunTimeCppType PT)) (state : ArrayAggAggregateState PT)
    (row_num : Nat) : ArrayAggAggregateState PT × MemPool :=
  let offset_size := input_column.get_element_offset_size row_num
  let array_element := input_column.elements
  let element_data_column := array_element.get_data_column
  let element_null_count := array_element.null_count offset_size.1 offset_size.2
  let r := ArrayAggAggregateState.update slice_hash PT is_distinct mem_pool state
    element_data_column offset_size.1 (offset_size.2 - element_null_count)
  (r.1.append_null_count is_distinct element_null_count, r.2)

/-- `serialize_to_column(ctx, state, to)`: the state after `get_data_column`
and the destination with one more cell. -/
def serialize_to_column {PT : LogicalType} (is_distinct : Bool)
    (order : IterationOrder (KeyType PT)) (state : ArrayAggAggregateState PT)
    (column : ArrayColumn (RunTimeCppType PT)) :
    ArrayAggAggregateState PT × ArrayColumn (RunTimeCppType PT) :=
  let state_impl := state.get_data_column is_distinct order
  (state_impl, column.append_array_element state_impl.data_column state_impl.null_count)

/-- `finalize_to_column(ctx, state, to)`. -/
def finalize_to_column {PT : LogicalType} (is_distinct : Bool)
    (order : IterationOrder (KeyType PT)) (state : ArrayAggAggregateState PT)
    (column : ArrayColumn (RunTimeCppType PT)) :
    ArrayAggAggregateState PT × ArrayColumn (RunTimeCppType PT) :=
  serialize_to_column is_distinct order state column

/-- `get_name()`. -/
def get_name (is_distinct : Bool) : String :=
  if is_distinct then "array_agg_distinct" else "array_agg"

end ArrayAggAggregateFunction

/-! ## Datums and the serialized formats -/

/-- Modelled from the spec: the row a nullable column stores for a datum
(`append_datum`): a null marker for the null datum, the value otherwise. -/
def Row.of_datum {V : Type} [Inhabited V] : Option V → Row V
  | none => ⟨default, true⟩
  | some v => ⟨v, false⟩

/-- Modelled from the spec: `Column::get(row)`, the datum of a row: null for a
null row, the value otherwise; every row of a constant column gives the
constant. -/
def Column.get {V : Type} [Inhabited V] : Column V → Nat → Option V
  | Column.data vs, row => some (vs.getD row default)
  | Column.nullable rs, row =>
    if (rs.getD row default).is_null then none else some (rs.getD row default).value
  | Column.const v _, _ => v

/-- Modelled from the spec: `append_datum(datum)` on a nullable column: `append_nulls(1)`
for the null datum, the value with a cleared null flag otherwise. -/
def NullableColumn.append_datum {V : Type} [Inhabited V] (c : NullableColumn V)
    (datum : Option V) : NullableColumn V :=
  match datum with
  | none => c.append_nulls 1
  | some v => c ++ [⟨v, false⟩]

/-- `ArrayAggAggregateFunction::convert_to_serialize_format(ctx, src, chunk_size,
dst)`: for every row of the chunk the datum of `src[0]` is appended to the
elements and one offset, the last offset plus one, to the offsets. -/
def ArrayAggAggregateFunction.convert_to_serialize_format {V : Type} [Inhabited V]
    (src : List (Column V)) (chunk_size : Nat) (column : ArrayColumn V) : ArrayColumn V :=
  (List.range chunk_size).foldl
    (fun acc i =>
      { elements := acc.elements.append_datum ((src.getD 0 (Column.data [])).get i)
        offsets := acc.offsets ++ [acc.offsets_back + 1] })
    column

/-- Modelled from the spec: one field of the record column of the intermediate format
(column/struct_column.h is not among the sources): an array column, and the
null column of the nullable column around it when the field is nullable. -/
structure ArrayField (V : Type) where
  array : ArrayColumn V
  null_column : Option (List Bool)
deriving DecidableEq, Repr

/-- Modelled from the spec: the record column, a `StructColumn` of array fields, and the
null column of the nullable column around it when the record is nullable. -/
structure StructColumn (V : Type) where
  fields : List (ArrayField V)
  null_column : Option (List Bool)
deriving DecidableEq, Repr

/-- The array columns of the fields: what `merge` reads as
`ColumnHelper::get_data_column(input_columns[i])`. -/
def StructColumn.arrays {V : Type} (c : StructColumn V) : List (ArrayColumn V) :=
  c.fields.map ArrayField.array

/-- The body of the loop of `ArrayAggAggregateFunctionV2::serialize_to_column`
for one field: the null flag of a nullable field, the rows of the state column
and the offset `offsets.back() + elem_size`. -/
def ArrayAggAggregateFunctionV2.serialize_field {V : Type} [Inhabited V]
    (data_column : NullableColumn V) (field : ArrayField V) : ArrayField V :=
  let elem_size := data_column.length
  { null_column := field.null_column.map (fun nulls => nulls ++ [false])
    array :=
      { elements :=
          if data_column.only_null then field.array.elements.append_nulls elem_size
          else field.array.elements.append_rows data_column 0 elem_size
        offsets := field.array.offsets ++ [field.array.offsets_back + elem_size] } }

/-- `ArrayAggAggregateFunctionV2::serialize_to_column(ctx, state, to)`: the
destination record `to` (`dst` here) after the call; the state is not changed.
The loop runs over the fields of the destination and reads the state column of
the same index. -/
def ArrayAggAggregateFunctionV2.serialize_to_column {V : Type} [Inhabited V]
    (state : ArrayAggAggregateStateV2 V) (dst : StructColumn V) : StructColumn V :=
  { null_column := dst.null_column.map (fun nulls => nulls ++ [false])
    fields := (List.range dst.fields.length).foldl
      (fun columns i =>
        columns.modify (fun field => serialize_field (state.data_columns.getD i []) field) i)
      dst.fields }

/-- Modelled from the spec: the data column of a source column, as the simple variant
reads it after the nulls were set aside (`down_cast<const InputColumnType&>`):
the values of a plain column, the values under a nullable column, the repeated
constant of a constant column. -/
def Column.values {V : Type} [Inhabited V] : Column V → List V
  | Column.data vs => vs
  | Column.nullable rs => rs.map Row.value
  | Column.const (some v) n => List.replicate n v
  | Column.const none n => List.replicate n default

/-- The loops of `ArrayAggAggregateFunctionV2::convert_to_serialize_format` for
one field `j`: `chunk_size` cleared null flags for a nullable field, then for
every row the datum of the source column `src[j]` appended to the elements and
the last offset plus one to the offsets. -/
def ArrayAggAggregateFunctionV2.convert_field {V : Type} [Inhabited V] (source : Column V)
    (chunk_size : Nat) (field : ArrayField V) : ArrayField V :=
  { null_column := field.null_column.map (fun nulls => nulls ++ List.replicate chunk_size false)
    array := (List.range chunk_size).foldl
      (fun acc i =>
        { elements := acc.elements.append_datum (source.get i)
          offsets := acc.offsets ++ [acc.offsets_back + 1] })
      field.array }

/-- `ArrayAggAggregateFunctionV2::convert_to_serialize_format(ctx, src,
chunk_size, dst)`: the record `dst` after the call: `chunk_size` cleared null
flags for a nullable record, and every field `j` filled from `src[j]`. -/
def ArrayAggAggregateFunctionV2.convert_to_serialize_format {V : Type} [Inhabited V]
    (src : List (Column V)) (chunk_size : Nat) (dst : StructColumn V) : StructColumn V :=
  { null_column := dst.null_column.map (fun nulls => nulls ++ List.replicate chunk_size false)
    fields := (List.range dst.fields.length).foldl
      (fun columns j =>
        columns.modify (convert_field (src.getD j (Column.data [])) chunk_size) j)
      dst.fields }

/-! ## Sequences of calls -/

/-- A cell `row` that lies inside the array column: its two offsets exist, are
ordered and do not pass the end of the elements. -/
def ArrayColumn.has_cell {V : Type} (a : ArrayColumn V) (row : Nat) : Prop :=
  row + 1 < a.offsets.length ∧ a.offsets.getD row 0 ≤ a.offsets.getD (row + 1) 0 ∧
    a.offsets.getD (row + 1) 0 ≤ a.elements.length

instance {V : Type} (a : ArrayColumn V) (row : Nat) : Decidable (a.has_cell row) := by
  unfold ArrayColumn.has_cell; infer_instance

/-- A call that mutates the simple state: `update(column, offset, count)`,
`append_null()`, `append_null(count)` or the `merge` of cell `row_num` of a
partial array column. -/
inductive StateCall (PT : LogicalType) where
  | update (column : List (RunTimeCppType PT)) (offset count : Nat)
  | append_null
  | append_null_count (count : Nat)
  | merge (column : ArrayColumn (RunTimeCppType PT)) (row_num : Nat)

namespace StateCall

variable {PT : LogicalType}

/-- The effect of one call on the state and the pool. -/
def apply (slice_hash : Slice → Nat) (is_distinct : Bool)
    (acc : ArrayAggAggregateState PT × MemPool) : StateCall PT → ArrayAggAggregateState PT × MemPool
  | update column offset count =>
    ArrayAggAggregateState.update slice_hash PT is_distinct acc.2 acc.1 column offset count
  | append_null => (acc.1.append_null is_distinct, acc.2)
  | append_null_count count => (acc.1.append_null_count is_distinct count, acc.2)
  | merge column row_num =>
    ArrayAggAggregateFunction.merge slice_hash PT is_distinct acc.2 column acc.1 row_num

/-- The calls applied in order. -/
def run (slice_hash : Slice → Nat) (is_distinct : Bool)
    (acc : ArrayAggAggregateState PT × MemPool) (calls : List (StateCall PT)) :
    ArrayAggAggregateState PT × MemPool :=
  calls.foldl (apply slice_hash is_distinct) acc

/-- The ranges a call reads lie inside its column. -/
def in_range : StateCall PT → Prop
  | update column offset count => offset + count ≤ column.length
  | append_null => True
  | append_null_count _ => True
  | merge column row_num => column.has_cell row_num

instance (c : StateCall PT) : Decidable c.in_range := by
  cases c <;> unfold in_range <;> infer_instance

/-- The number of rows a call applies: the count of an update, the nulls, the
length of a merged cell. -/
def rows_applied : StateCall PT → Nat
  | update _ _ count => count
  | append_null => 1
  | append_null_count count => count
  | merge column row_num => (column.get_element_offset_size row_num).2

/-- The number of nulls a call applies. -/
def nulls_applied : StateCall PT → Nat
  | update _ _ _ => 0
  | append_null => 1
  | append_null_count count => count
  | merge column row_num =>
    column.elements.null_count (column.get_element_offset_size row_num).1
      (column.get_element_offset_size row_num).2

/-- The values a call applies in distinct mode: the range of an update, the
leading part of the data of a merged cell that `merge` hands to `update`. -/
def values_applied : StateCall PT → List (RunTimeCppType PT)
  | update column offset count => (column.drop offset).take count
  | append_null => []
  | append_null_count _ => []
  | merge column row_num =>
    (column.elements.get_data_column.drop (column.get_element_offset_size row_num).1).take
      ((column.get_element_offset_size row_num).2 -
        column.elements.null_count (column.get_element_offset_size row_num).1
          (column.get_element_offset_size row_num).2)

end StateCall

/-- A call that mutates the ordered state: `update(columns, row_num)` or the
`merge` of row `row_num` of a record of arrays. -/
inductive StateCallV2 (V : Type) where
  | update (columns : List (Column V)) (row_num : Nat)
  | merge (input_columns : List (ArrayColumn V)) (row_num : Nat)

namespace StateCallV2

variable {V : Type}

/-- The effect of one call on the context and the state. -/
def apply [Inhabited V] (acc : FunctionContext × ArrayAggAggregateStateV2 V) :
    StateCallV2 V → FunctionContext × ArrayAggAggregateStateV2 V
  | update columns row_num => ArrayAggAggregateFunctionV2.update acc.1 columns acc.2 row_num
  | merge input_columns row_num =>
    (acc.1, ArrayAggAggregateFunctionV2.merge input_columns acc.2 row_num)

/-- The calls applied in order. -/
def run [Inhabited V] (acc : FunctionContext × ArrayAggAggregateStateV2 V)
    (calls : List (StateCallV2 V)) : FunctionContext × ArrayAggAggregateStateV2 V :=
  calls.foldl apply acc

/-- A call that respects the contract for `N` arguments: an update whose `N`
source columns all have a row `row_num`; a merge of a record of `N` arrays
whose cells at `row_num` lie inside their arrays and have one common length. -/
def aligned (N : Nat) : StateCallV2 V → Prop
  | update columns row_num => columns.length = N ∧ ∀ c ∈ columns, row_num < c.size
  | merge input_columns row_num =>
    input_columns.length = N ∧ (∀ a ∈ input_columns, a.has_cell row_num) ∧
      ∀ a ∈ input_columns, ∀ b ∈ input_columns,
        (a.get_element_offset_size row_num).2 = (b.get_element_offset_size row_num).2

instance (N : Nat) (c : StateCallV2 V) : Decidable (c.aligned N) := by
  cases c <;> unfold aligned <;> infer_instance

end StateCallV2

/-- All the internal columns of the ordered state have the same length. -/
def ArrayAggAggregateStateV2.equal_lengths {V : Type} (s : ArrayAggAggregateStateV2 V) : Prop :=
  ∀ a ∈ s.data_columns, ∀ b ∈ s.data_columns, a.length = b.length

instance {V : Type} (s : ArrayAggAggregateStateV2 V) : Decidable s.equal_lengths := by
  unfold ArrayAggAggregateStateV2.equal_lengths; infer_instance

/-- A call of the life of an ordered state: `update`, `merge`,
`serialize_to_column` or `finalize_to_column`, each with its arguments. -/
inductive LifeCallV2 (V : Type) where
  | update (columns : List (Column V)) (row_num : Nat)
  | merge (input_columns : List (ArrayColumn V)) (row_num : Nat)
  | serialize_to_column (dst : StructColumn V)
  | finalize_to_column (dst : OutColumn V)

namespace LifeCallV2

variable {V : Type}

/-- The effect of one call on the context and the state (the destinations are
written by the calls and not kept here). -/
def apply [Inhabited V] (sort : SortUtility V) (fnv_hash : Row V → Nat → Nat)
    (equals : Row V → Row V → Bool) (acc : FunctionContext × ArrayAggAggregateStateV2 V) :
    LifeCallV2 V → FunctionContext × ArrayAggAggregateStateV2 V
  | update columns row_num => ArrayAggAggregateFunctionV2.update acc.1 columns acc.2 row_num
  | merge input_columns row_num =>
    (acc.1, ArrayAggAggregateFunctionV2.merge input_columns acc.2 row_num)
  | serialize_to_column _ => acc
  | finalize_to_column dst =>
    ((ArrayAggAggregateFunctionV2.finalize_to_column sort fnv_hash equals acc.1 acc.2 dst).ctx,
      (ArrayAggAggregateFunctionV2.finalize_to_column sort fnv_hash equals acc.1 acc.2 dst).state)

/-- The calls applied in order. -/
def run [Inhabited V] (sort : SortUtility V) (fnv_hash : Row V → Nat → Nat)
    (equals : Row V → Row V → Bool) (acc : FunctionContext × ArrayAggAggregateStateV2 V)
    (calls : List (LifeCallV2 V)) : FunctionContext × ArrayAggAggregateStateV2 V :=
  calls.foldl (apply sort fnv_hash equals) acc

/-- The call does not release order-by columns of a state of `N` columns: it
is not a `finalize_to_column` on an array destination with `N >= 2`. -/
def keeps_columns (N : Nat) : LifeCallV2 V → Prop
  | finalize_to_column dst => N ≤ 1 ∨ dst.is_array = false
  | _ => True

instance (N : Nat) (c : LifeCallV2 V) : Decidable (c.keeps_columns N) := by
  cases c <;> unfold keeps_columns <;> infer_instance

end LifeCallV2

/-- A call that writes intermediate results of the simple variant into an array
column: `serialize_to_column` of a state, or `convert_to_serialize_format` of a
chunk of source rows.  These are the two functions of the aggregate that write
the cells `merge` reads. -/
inductive WriteCall (PT : LogicalType) where
  | serialize_to_column (is_distinct : Bool) (order : IterationOrder (KeyType PT))
      (state : ArrayAggAggregateState PT)
  | convert_to_serialize_format (src : List (Column (RunTimeCppType PT))) (chunk_size : Nat)

namespace WriteCall

variable {PT : LogicalType}

/-- The column after one call. -/
def apply (column : ArrayColumn (RunTimeCppType PT)) :
    WriteCall PT → ArrayColumn (RunTimeCppType PT)
  | serialize_to_column is_distinct order state =>
    (ArrayAggAggregateFunction.serialize_to_column is_distinct order state column).2
  | convert_to_serialize_format src chunk_size =>
    ArrayAggAggregateFunction.convert_to_serialize_format src chunk_size column

/-- The column written by the calls in order, from the column without cells. -/
def run (calls : List (WriteCall PT)) : ArrayColumn (RunTimeCppType PT) :=
  calls.foldl apply ArrayColumn.empty

end WriteCall

/-- Cell `row` of the column is a cell of an intermediate result: it lies inside
the column and its rows are the rows of a cell that `serialize_to_column` or
`convert_to_serialize_format` wrote. -/
def ArrayColumn.written_cell {PT : LogicalType} (a : ArrayColumn (RunTimeCppType PT))
    (row : Nat) : Prop :=
  a.has_cell row ∧ ∃ (calls : List (WriteCall PT)) (r : Nat),
    r < (WriteCall.run calls).size ∧ a.cell row = (WriteCall.run calls).cell r

/-! ## Reference definitions, written from the specification -/

/-- The rows of `rows` that are equal to no earlier row, in their order: row `i`
is kept exactly when no `j < i` has `equals rows[j] rows[i]`. -/
def first_occurrences {R : Type} [Inhabited R] (equals : R → R → Bool) (rows : List R) : List R :=
  ((List.range rows.length).filter (fun i =>
    !(List.range i).any (fun j => equals (rows.getD j default) (rows.getD i default)))).map
    (fun i => rows.getD i default)

/-- The index `i` is put into `perm`, a list of indices ordered by `key`, after
the indices whose key is not greater. -/
def insert_by_key (key : Nat → Int) (i : Nat) : List Nat → List Nat
  | [] => [i]
  | j :: rest => if key i < key j then i :: j :: rest else j :: insert_by_key key i rest

/-- Modelled from the spec: a sort utility for one ascending key without nulls: a stable
sort (ties keep the input order) of the row indices by the value of the first
key column. -/
def stable_ascending_sort : SortUtility Int := fun _ columns _ =>
  let keys := columns.getD 0 []
  (⟨true, "OK"⟩,
    (List.range keys.length).foldl
      (fun perm i => insert_by_key (fun j => (keys.getD j default).value) i perm) [])

/-! ## Auxiliary definitions for the proofs -/

/-- The test of the inner loop of the distinct filter for row `i`: some earlier
row has the same hash and `equals` the row. -/
def ArrayAggAggregateFunctionV2.duplicated_at {V : Type} [Inhabited V] (hash : List Nat)
    (res : NullableColumn V) (equals : Row V → Row V → Bool) (i : Nat) : Bool :=
  (List.range i).any (fun next_id =>
    hash.getD i 0 == hash.getD next_id 0 && equals (res.getD next_id default) (res.getD i default))

/-- The index test of `first_occurrences`: no earlier row equals row `i`. -/
def is_first {R : Type} [Inhabited R] (equals : R → R → Bool) (rows : List R) (i : Nat) : Bool :=
  !(List.range i).any (fun j => equals (rows.getD j default) (rows.getD i default))

/-- Progress of a loop that appends `c` rows to each of `N` columns in turn:
the columns before `k` have `n + c` rows, the others `n`. -/
def lengths_at {α : Type} (cols : List (List α)) (N k n c : Nat) : Prop :=
  cols.length = N ∧ ∀ i, i < N → (cols[i]?.getD []).length = if i < k then n + c else n

/-- The key that `update` builds for a value: the value itself for a fixed-width
type, the slice with its hash for a string type. -/
def key_of (slice_hash : Slice → Nat) : (PT : LogicalType) → RunTimeCppType PT → KeyType PT
  | LogicalType.fixed _ _ _, v => v
  | LogicalType.string, s => (⟨s, slice_hash s⟩ : SliceWithHash)

/-- The value that `get_data_column` appends for a key. -/
def value_of : (PT : LogicalType) → KeyType PT → RunTimeCppType PT
  | LogicalType.fixed _ _ _, k => k
  | LogicalType.string, k => SliceWithHash.data k

/-- The values read by the loop of `update`: `column[offset + i]` for `i < count`. -/
def loop_values (PT : LogicalType) (column : List (RunTimeCppType PT)) (offset count : Nat) :
    List (RunTimeCppType PT) :=
  (List.range count).map (fun i => column.getD (offset + i) default)

/-- The keys of a set after the keys `new` were emplaced in turn. -/
def insert_keys {K : Type} [DecidableEq K] (keys new : List K) : List K :=
  new.foldl (fun ks k => if k ∈ ks then ks else ks ++ [k]) keys

/-- The null elements of the cell come after all its other elements. -/
def nulls_last {V : Type} (cell : NullableColumn V) : Prop :=
  cell.Pairwise (fun a b => a.is_null = true → b.is_null = true)

instance {V : Type} (cell : NullableColumn V) : Decidable (nulls_last cell) := by
  unfold nulls_last; infer_instance

/-- The values the loop of `update` reads for a call in distinct mode. -/
def StateCall.values_read {PT : LogicalType} : StateCall PT → List (RunTimeCppType PT)
  | StateCall.update column offset count => loop_values PT column offset count
  | StateCall.append_null => []
  | StateCall.append_null_count _ => []
  | StateCall.merge column row_num =>
    loop_values PT column.elements.get_data_column (column.get_element_offset_size row_num).1
      ((column.get_element_offset_size row_num).2 -
        column.elements.null_count (column.get_element_offset_size row_num).1
          (column.get_element_offset_size row_num).2)

/-- The offsets after `k` one-element cells were appended. -/
def offsets_after {V : Type} (a : ArrayColumn V) (k : Nat) : List Nat :=
  a.offsets ++ (List.range k).map (fun i => a.offsets_back + i + 1)

/-- The column is well-formed and in each of its cells the null elements come
after the other elements. -/
def cells_nulls_last {V : Type} (a : ArrayColumn V) : Prop :=
  a.well_formed ∧ ∀ r, r < a.size → nulls_last (a.cell r)

/-- The rows of `rows` whose index passes `keep`, in their order. -/
def rows_kept {R : Type} [Inhabited R] (keep : Nat → Bool) (rows : List R) : List R :=
  ((List.range rows.length).filter keep).map (fun i => rows.getD i default)

/-! ## Example data -/

namespace Example

/-- A value row that is not null. -/
def row (v : Int) : Row Int := ⟨v, false⟩

/-- A context for a value and one ascending order-by key. -/
def ctx_order_by (is_distinct : Bool) : FunctionContext :=
  ⟨2, [true], [true], is_distinct, false, none⟩

/-- The state with value `[3,1,2]` and key `[30,10,20]`. -/
def state_3_1_2 : ArrayAggAggregateStateV2 Int :=
  ⟨[[row 3, row 1, row 2], [row 30, row 10, row 20]]⟩

/-- The state with value `[1,1,2]` and key `[10,10,20]`: the two `1`s have the
same order-by key. -/
def state_1_1_2 : ArrayAggAggregateStateV2 Int :=
  ⟨[[row 1, row 1, row 2], [row 10, row 10, row 20]]⟩

/-- A row hash with collisions: one hash for the null rows, the parity of the
value for the others. -/
def parity_hash (r : Row Int) (_seed : Nat) : Nat := if r.is_null then 2 else r.value.natAbs % 2

/-- Row equality of a nullable column: both rows null, or neither null and the
values equal. -/
def row_equals (a b : Row Int) : Bool :=
  (a.is_null && b.is_null) || (!a.is_null && !b.is_null && decide (a.value = b.value))

/-- Calls that respect the contract for two arguments. -/
def aligned_calls : List (StateCallV2 Int) :=
  [StateCallV2.update [Column.data [3], Column.nullable [⟨0, true⟩]] 0,
    StateCallV2.merge [⟨[row 1, row 2], [0, 2]⟩, ⟨[row 10, row 20], [0, 2]⟩] 0,
    StateCallV2.update [Column.const (some 4) 1, Column.const none 1] 0]

/-- A fixed-width type: 64-bit integers. -/
def TYPE_BIGINT : LogicalType := LogicalType.fixed Int inferInstance inferInstance

/-- A slice hash with collisions: the sum of the bytes. -/
def sum_hash (s : Slice) : Nat := s.sum

/-- A partial array column with one cell, `[5, null]`. -/
def cell_5_null : ArrayColumn (RunTimeCppType TYPE_BIGINT) :=
  ⟨[⟨(5 : Int), false⟩, ⟨(0 : Int), true⟩], [0, 2]⟩

/-- An array column with one cell, `[null, 5]`: the null comes first. -/
def cell_null_5 : ArrayColumn (RunTimeCppType TYPE_BIGINT) :=
  ⟨[⟨(0 : Int), true⟩, ⟨(5 : Int), false⟩], [0, 2]⟩

/-- Calls on a state of integers: two updates, nulls and a merge. -/
def plain_calls : List (StateCall TYPE_BIGINT) :=
  [StateCall.update ([1, 2, 3] : List Int) 1 2, StateCall.append_null,
    StateCall.append_null_count 2, StateCall.merge cell_5_null 0,
    StateCall.update ([2, 2] : List Int) 0 2]

/-- Updates on a state of strings, with repeated values. -/
def string_calls : List (StateCall LogicalType.string) :=
  [StateCall.update ([[1], [2], [1], [2, 1]] : List (List Nat)) 0 4,
    StateCall.update ([[3], [1, 2], [2]] : List (List Nat)) 1 2]

/-- A state of integers with two elements and three nulls. -/
def plain_state : ArrayAggAggregateState TYPE_BIGINT :=
  ⟨([1, 2] : List Int), 3, FlatHashSet.empty⟩

/-- A context for a single argument (no order-by key). -/
def ctx_single (is_distinct : Bool) : FunctionContext :=
  ⟨1, [], [], is_distinct, false, none⟩

/-- A context for a value and one order-by key whose query was cancelled. -/
def ctx_cancelled : FunctionContext :=
  ⟨2, [true], [true], false, true, none⟩

/-- The state with the single column `[3,1,2]`. -/
def state_single : ArrayAggAggregateStateV2 Int :=
  ⟨[[row 3, row 1, row 2]]⟩

/-- A sort utility that reports a failure. -/
def failing_sort : SortUtility Int := fun _ _ _ => (⟨false, "Internal error: sort failed"⟩, [])

/-- A destination that is not an array: a column of integers with three rows. -/
def int_destination : OutColumn Int := OutColumn.other "int" 3

/-- An empty record of two arrays, the first field nullable. -/
def empty_record : StructColumn Int :=
  ⟨[⟨ArrayColumn.empty, some []⟩, ⟨ArrayColumn.empty, none⟩], some []⟩

/-- Source columns of one chunk: a plain column and a nullable column whose
second row is null. -/
def source_columns : List (Column Int) :=
  [Column.data [3, 1], Column.nullable [⟨30, false⟩, ⟨0, true⟩]]

/-- A record of two arrays with one row: the cells `[1, 2]` and `[10, 20]`. -/
def record_columns : List (ArrayColumn Int) :=
  [⟨[row 1, row 2], [0, 2]⟩, ⟨[row 10, row 20], [0, 2]⟩]

/-- Calls of a life that does not finalize into an array: updates, a merge, a
serialization and a finalize on a destination that is not an array. -/
def life_calls : List (LifeCallV2 Int) :=
  [LifeCallV2.update source_columns 0, LifeCallV2.merge record_columns 0,
    LifeCallV2.serialize_to_column empty_record, LifeCallV2.update source_columns 1,
    LifeCallV2.finalize_to_column int_destination]

/-- A life that ends with a finalize into an array. -/
def finalized_calls : List (LifeCallV2 Int) :=
  [LifeCallV2.update source_columns 0, LifeCallV2.finalize_to_column (OutColumn.array ArrayColumn.empty)]

/-- An array column of integers with one cell `[1]`. -/
def one_cell : ArrayColumn Int := ⟨[row 1], [0, 1]⟩

/-- A nullable source column `[5, null, 7]`. -/
def nullable_source : List (Column Int) :=
  [Column.nullable [⟨5, false⟩, ⟨9, true⟩, ⟨7, false⟩]]

/-- A context for a single argument that holds the error of an earlier call. -/
def ctx_with_error : FunctionContext :=
  ⟨1, [], [], false, false, some "earlier error"⟩

/-- A row hash that is not consistent with `row_equals`: the stored value, also
under a null row, so two null rows may have different hashes. -/
def stored_value_hash (r : Row Int) (_seed : Nat) : Nat := r.value.natAbs

/-- The state with the single column `[1, null, 1, null]`, the two null rows
storing different values. -/
def state_with_nulls : ArrayAggAggregateStateV2 Int :=
  ⟨[[row 1, ⟨7, true⟩, row 1, ⟨8, true⟩]]⟩

/-- A nullable source column of 64-bit integers, `[5, null, 7]`. -/
def bigint_source : Column (RunTimeCppType TYPE_BIGINT) :=
  Column.nullable [⟨(5 : Int), false⟩, ⟨(9 : Int), true⟩, ⟨(7 : Int), false⟩]

/-- A distinct state of integers after `update` of `1`, `get_data_column`,
`update` of `2` and `get_data_column` again. -/
def state_read_twice : ArrayAggAggregateState TYPE_BIGINT :=
  let s1 := ((ArrayAggAggregateState.update sum_hash TYPE_BIGINT true ⟨[]⟩
    (ArrayAggAggregateState.init TYPE_BIGINT) ([1] : List Int) 0 1).1).get_data_column true
    (IterationOrder.insertion _)
  ((ArrayAggAggregateState.update sum_hash TYPE_BIGINT true ⟨[]⟩ s1 ([2] : List Int) 0
    1).1).get_data_column true (IterationOrder.insertion _)

/-- The state with the single column `[1,1,2]`: the value `1` is repeated. -/
def state_single_repeated : ArrayAggAggregateStateV2 Int :=
  ⟨[[row 1, row 1, row 2]]⟩

/-- Calls that write intermediate results of integers: a state with the elements
`1, 2` and three nulls is serialized, then three source rows `[5, null, 7]` are
converted. -/
def written_calls : List (WriteCall TYPE_BIGINT) :=
  [WriteCall.serialize_to_column false (IterationOrder.insertion _) plain_state,
    WriteCall.convert_to_serialize_format [bigint_source] 3]

end Example

end starrocks

/-! # Theorems -/

namespace starrocks

/-! ## Lemmas on lists -/

theorem filter_by_map_range {V : Type} [Inhabited V] (l : NullableColumn V) (p : Nat → Bool) :
    NullableColumn.filter_by l ((List.range l.length).map p) =
      ((List.range l.length).filter p).map (fun i => l.getD i default) := by
  induction l using List.reverseRecOn with
  | nil => simp [NullableColumn.filter_by]
  | append_singleton l a ih =>
    have hlen : l.length = ((List.range l.length).map p).length := by simp
    have hz : (l ++ [a]).zip ((List.range l.length).map p ++ [p l.length]) =
        l.zip ((List.range l.length).map p) ++ [(a, p l.length)] := by
      rw [List.zip_append hlen]; rfl
    have hm : ((List.range l.length).filter p).map (fun i => (l ++ [a]).getD i default) =
        ((List.range l.length).filter p).map (fun i => l.getD i default) := by
      apply List.map_congr_left
      intro i hi
      have hi' : i < l.length := List.mem_range.mp (List.mem_of_mem_filter hi)
      simp [List.getD_eq_getElem?_getD, List.getElem?_append_left hi']
    unfold NullableColumn.filter_by at ih ⊢
    simp only [List.length_append, List.length_singleton, List.range_succ, List.map_append,
      List.map_cons, List.map_nil, hz, List.filter_append, hm, ← ih]
    by_cases hp : p l.length = true
    · simp [hp, List.getD_eq_getElem?_getD]
    · simp [hp]

/-! ## The ordered variant: the distinct filter and the ordering step -/

namespace ArrayAggAggregateFunctionV2

theorem mark_duplicated_eq {V : Type} [Inhabited V] (hash : List Nat) (res : NullableColumn V)
    (equals : Row V → Row V → Bool) (acc : FlatHashSet Nat × List Bool × Bool) (k : Nat) :
    mark_duplicated hash res equals acc k =
      if acc.1.contains (hash.getD k 0) = false then
        (acc.1.emplace (hash.getD k 0), acc.2.1, acc.2.2)
      else if duplicated_at hash res equals k = true then (acc.1, acc.2.1.set k false, true)
      else acc := by
  unfold mark_duplicated duplicated_at
  cases acc.1.contains (hash.getD k 0) <;> rfl

theorem mark_duplicated_fold {V : Type} [Inhabited V] (hash : List Nat) (res : NullableColumn V)
    (equals : Row V → Row V → Bool) (n : Nat) (k : Nat) (hk : k ≤ n) :
    let acc := (List.range k).foldl (mark_duplicated hash res equals)
      (FlatHashSet.empty, List.replicate n true, false)
    (∀ h, h ∈ acc.1.keys ↔ ∃ j < k, hash.getD j 0 = h) ∧
    acc.2.1 = (List.range n).map (fun i => !(decide (i < k) && duplicated_at hash res equals i)) ∧
    acc.2.2 = (List.range k).any (duplicated_at hash res equals) := by
  induction k with
  | zero =>
    refine ⟨?_, ?_, ?_⟩
    · intro h; simp [FlatHashSet.empty]
    · apply List.ext_getElem <;> simp
    · simp
  | succ k ih =>
    obtain ⟨ha, hb, hc⟩ := ih (Nat.le_of_succ_le hk)
    simp only [List.range_succ, List.foldl_append, List.foldl_cons, List.foldl_nil]
    generalize (List.range k).foldl (mark_duplicated hash res equals)
      (FlatHashSet.empty, List.replicate n true, false) = acc at ha hb hc
    have hkn : k < n := hk
    by_cases hcont : acc.1.contains (hash.getD k 0) = true
    · have hcont' := hcont
      by_cases hdup : duplicated_at hash res equals k = true
      · have hm : mark_duplicated hash res equals acc k = (acc.1, acc.2.1.set k false, true) := by
          rw [mark_duplicated_eq, hcont, hdup]; rfl
        rw [hm]
        refine ⟨?_, ?_, ?_⟩
        · intro h
          rw [ha h]
          constructor
          · rintro ⟨j, hj, e⟩; exact ⟨j, Nat.lt_succ_of_lt hj, e⟩
          · rintro ⟨j, hj, e⟩
            rcases Nat.lt_succ_iff_lt_or_eq.mp hj with hj' | rfl
            · exact ⟨j, hj', e⟩
            · simp only [FlatHashSet.contains, decide_eq_true_eq] at hcont
              rw [← e]; exact (ha _).mp hcont
        · simp only [hb]
          apply List.ext_getElem
          · simp
          · intro i h1 h2
            simp only [List.length_map, List.length_range] at h2
            simp only [List.getElem_set, List.getElem_map, List.getElem_range]
            by_cases hik : k = i
            · subst hik; simp [hdup]
            · simp only [hik, if_false]
              have : (i < k + 1) ↔ i < k := by omega
              simp [this]
        · simp [List.any_append, hdup]
      · have hdup' : duplicated_at hash res equals k = false := by simpa using hdup
        have hm : mark_duplicated hash res equals acc k = acc := by
          rw [mark_duplicated_eq, hcont, hdup']; rfl
        rw [hm]
        refine ⟨?_, ?_, ?_⟩
        · intro h
          rw [ha h]
          constructor
          · rintro ⟨j, hj, e⟩; exact ⟨j, Nat.lt_succ_of_lt hj, e⟩
          · rintro ⟨j, hj, e⟩
            rcases Nat.lt_succ_iff_lt_or_eq.mp hj with hj' | rfl
            · exact ⟨j, hj', e⟩
            · simp only [FlatHashSet.contains, decide_eq_true_eq] at hcont
              rw [← e]; exact (ha _).mp hcont
        · simp only [hb]
          apply List.map_congr_left
          intro i _
          by_cases hik : i = k
          · subst hik; simp [hdup']
          · have : (i < k + 1) ↔ i < k := by omega
            simp [this]
        · simp [List.any_append, hdup', hc]
    · have hcont' : acc.1.contains (hash.getD k 0) = false := by simpa using hcont
      have hnot : ∀ j < k, hash.getD j 0 ≠ hash.getD k 0 := by
        intro j hj e
        have : hash.getD k 0 ∈ acc.1.keys := (ha _).mpr ⟨j, hj, e⟩
        exact hcont (by simp only [FlatHashSet.contains, decide_eq_true_eq]; exact this)
      have hdup' : duplicated_at hash res equals k = false := by
        unfold duplicated_at
        rw [List.any_eq_false]
        intro j hj
        have hj' := List.mem_range.mp hj
        have := hnot j hj'
        have hne : (hash.getD k 0 == hash.getD j 0) = false := by
          rw [beq_eq_false_iff_ne]; exact Ne.symm this
        rw [hne]; simp only [Bool.false_and]; exact Bool.false_ne_true
      have hm : mark_duplicated hash res equals acc k =
          (acc.1.emplace (hash.getD k 0), acc.2.1, acc.2.2) := by
        rw [mark_duplicated_eq, hcont']; rfl
      rw [hm]
      refine ⟨?_, ?_, ?_⟩
      · intro h
        have hnm : hash.getD k 0 ∉ acc.1.keys := by
          intro hmem
          exact hcont (by simp only [FlatHashSet.contains, decide_eq_true_eq]; exact hmem)
        simp only [FlatHashSet.emplace, hnm, if_false, List.mem_append, List.mem_singleton, ha h]
        constructor
        · rintro (⟨j, hj, e⟩ | e)
          · exact ⟨j, Nat.lt_succ_of_lt hj, e⟩
          · exact ⟨k, Nat.lt_succ_self k, e.symm⟩
        · rintro ⟨j, hj, e⟩
          rcases Nat.lt_succ_iff_lt_or_eq.mp hj with hj' | rfl
          · exact Or.inl ⟨j, hj', e⟩
          · exact Or.inr e.symm
      · simp only [hb]
        apply List.map_congr_left
        intro i _
        by_cases hik : i = k
        · subst hik; simp [hdup']
        · have : (i < k + 1) ↔ i < k := by omega
          simp [this]
      · simp [List.any_append, hdup', hc]

end ArrayAggAggregateFunctionV2

theorem map_getD_range {R : Type} (l : List R) (d : R) :
    (List.range l.length).map (fun i => l.getD i d) = l := by
  apply List.ext_getElem
  · simp
  · intro i h1 h2
    simp only [List.getElem_map, List.getElem_range, List.getD_eq_getElem?_getD,
      List.getElem?_eq_getElem h2, Option.getD_some]

theorem first_occurrences_eq {R : Type} [Inhabited R] (equals : R → R → Bool) (rows : List R) :
    first_occurrences equals rows =
      ((List.range rows.length).filter (is_first equals rows)).map (fun i => rows.getD i default) :=
  rfl

namespace ArrayAggAggregateFunctionV2

theorem getD_map_range (f : Nat → Nat) (n i : Nat) (hi : i < n) :
    ((List.range n).map f).getD i 0 = f i := by
  simp [List.getD_eq_getElem?_getD, List.getElem?_range hi]

theorem duplicated_at_eq {V : Type} [Inhabited V] (fnv_hash : Row V → Nat → Nat)
    (equals : Row V → Row V → Bool) (res : NullableColumn V)
    (hhash : ∀ a b, equals a b = true → fnv_hash a 0 = fnv_hash b 0) (i : Nat)
    (hi : i < res.length) :
    duplicated_at ((List.range res.length).map (fun i => fnv_hash (res.getD i default) 0)) res
      equals i = !is_first equals res i := by
  unfold duplicated_at is_first
  rw [Bool.not_not, Bool.eq_iff_iff]
  simp only [List.any_eq_true, List.mem_range, Bool.and_eq_true, beq_iff_eq]
  constructor
  · rintro ⟨j, hj, _, he⟩; exact ⟨j, hj, he⟩
  · rintro ⟨j, hj, he⟩
    refine ⟨j, hj, ?_, he⟩
    rw [getD_map_range _ _ _ hi, getD_map_range _ _ _ (lt_trans hj hi)]
    exact (hhash _ _ he).symm

theorem remove_duplicated_eq {V : Type} [Inhabited V] (fnv_hash : Row V → Nat → Nat)
    (equals : Row V → Row V → Bool) (res : NullableColumn V)
    (hhash : ∀ a b, equals a b = true → fnv_hash a 0 = fnv_hash b 0) :
    remove_duplicated fnv_hash equals res res.length =
      (first_occurrences equals res, (first_occurrences equals res).length) := by
  obtain ⟨_, hb, hc⟩ := mark_duplicated_fold
    ((List.range res.length).map (fun i => fnv_hash (res.getD i default) 0)) res equals
    res.length res.length (le_refl _)
  have hfilter : ((List.range res.length).foldl
      (mark_duplicated ((List.range res.length).map (fun i => fnv_hash (res.getD i default) 0))
        res equals) (FlatHashSet.empty, List.replicate res.length true, false)).2.1 =
      (List.range res.length).map (is_first equals res) := by
    rw [hb]
    apply List.map_congr_left
    intro i hi
    have hi' := List.mem_range.mp hi
    rw [duplicated_at_eq fnv_hash equals res hhash i hi']
    simp [hi']
  unfold remove_duplicated
  simp only [hfilter]
  rw [filter_by_map_range, ← first_occurrences_eq]
  split
  · rfl
  · rename_i hnd
    rw [hc] at hnd
    have hall : ∀ i ∈ List.range res.length, is_first equals res i = true := by
      intro i hi
      have hi' := List.mem_range.mp hi
      have h1 : duplicated_at ((List.range res.length).map
          (fun i => fnv_hash (res.getD i default) 0)) res equals i = false := by
        by_contra hcon
        apply hnd
        rw [List.any_eq_true]
        exact ⟨i, hi, by simpa using hcon⟩
      rw [duplicated_at_eq fnv_hash equals res hhash i hi'] at h1
      simpa using h1
    have hfo : first_occurrences equals res = res := by
      rw [first_occurrences_eq, List.filter_eq_self.mpr hall]
      exact map_getD_range res default
    rw [hfo]

end ArrayAggAggregateFunctionV2

theorem first_occurrences_sublist {R : Type} [Inhabited R] (equals : R → R → Bool)
    (rows : List R) : (first_occurrences equals rows).Sublist rows := by
  have h := (List.filter_sublist (p := is_first equals rows) (List.range rows.length)).map
    (fun i => rows.getD i default)
  rw [map_getD_range] at h
  exact h

theorem first_occurrences_pairwise {R : Type} [Inhabited R] (equals : R → R → Bool)
    (rows : List R) :
    (first_occurrences equals rows).Pairwise (fun a b => equals a b = false) := by
  rw [first_occurrences_eq, List.pairwise_map]
  have hlt : ((List.range rows.length).filter (is_first equals rows)).Pairwise (· < ·) :=
    List.Pairwise.sublist (List.filter_sublist _) (List.pairwise_lt_range _)
  refine List.Pairwise.imp_of_mem ?_ hlt
  intro i k _ hk hik
  have hfirst : is_first equals rows k = true := (List.mem_filter.mp hk).2
  unfold is_first at hfirst
  rw [Bool.not_eq_true', List.any_eq_false] at hfirst
  have := hfirst i (List.mem_range.mpr hik)
  simpa using this

theorem first_occurrences_mem {R : Type} [Inhabited R] (equals : R → R → Bool) (rows : List R)
    (i : Nat) (hi : i < rows.length) (hfirst : is_first equals rows i = true) :
    rows.getD i default ∈ first_occurrences equals rows := by
  rw [first_occurrences_eq]
  exact List.mem_map.mpr ⟨i, List.mem_filter.mpr ⟨List.mem_range.mpr hi, hfirst⟩, rfl⟩

theorem first_occurrences_cover {R : Type} [Inhabited R] (equals : R → R → Bool)
    (hrefl : ∀ a, equals a a = true)
    (htrans : ∀ a b c, equals a b = true → equals b c = true → equals a c = true)
    (rows : List R) (i : Nat) (hi : i < rows.length) :
    ∃ e ∈ first_occurrences equals rows, equals e (rows.getD i default) = true := by
  induction i using Nat.strong_induction_on with
  | _ i ih =>
    by_cases hfirst : is_first equals rows i = true
    · exact ⟨_, first_occurrences_mem equals rows i hi hfirst, hrefl _⟩
    · unfold is_first at hfirst
      rw [Bool.not_eq_true, Bool.not_eq_false', List.any_eq_true] at hfirst
      obtain ⟨j, hj, hje⟩ := hfirst
      have hj' := List.mem_range.mp hj
      obtain ⟨e, he, hee⟩ := ih j hj' (lt_trans hj' hi)
      exact ⟨e, he, htrans _ _ _ hee hje⟩

namespace ArrayAggAggregateFunctionV2

theorem order_values_some_ctx {V : Type} [Inhabited V] (sort : SortUtility V)
    (ctx ctx1 : FunctionContext) (state state1 : ArrayAggAggregateStateV2 V)
    (res : NullableColumn V) (hord : order_values sort ctx state = (ctx1, state1, some res)) :
    ctx1 = ctx := by
  unfold order_values at hord
  dsimp only at hord
  split_ifs at hord <;> simp only [Prod.mk.injEq, reduceCtorEq, and_false] at hord <;>
    exact hord.1.symm

theorem append_default_elements {V : Type} (dst : OutColumn V) :
    dst.append_default.array_col.map ArrayColumn.elements =
      dst.array_col.map ArrayColumn.elements := by
  cases dst <;> rfl

theorem append_result_elements {V : Type} [Inhabited V] (dst : OutColumn V)
    (res : NullableColumn V) :
    (append_result dst res res.length).array_col.map ArrayColumn.elements =
      dst.array_col.map (fun col => col.elements ++ res) := by
  cases dst <;>
    simp [append_result, OutColumn.array_col, NullableColumn.only_null,
      NullableColumn.append_rows]

theorem defer_elements {V : Type} (r : Finalized V) :
    (defer r).dst.array_col.map ArrayColumn.elements =
      r.dst.array_col.map ArrayColumn.elements := by
  unfold defer
  split
  · exact append_default_elements r.dst
  · rfl

/-- Claim C1.  `finalize_to_column` with distinct requested, on an array
destination: when the ordering step gives the value sequence `res` (the state
column itself for `N = 1`, the sorted column for `N >= 2`), the hash gives equal
hashes to equal rows and `equals` is an equivalence, the rows emitted are
`first_occurrences equals res`, the rows of `res` less those that equal an
earlier row.  The emitted rows keep their relative order (a sublist of `res`),
no two of them are equal, and every row of `res` equals an emitted row. -/
theorem finalize_to_column_distinct_first_occurrences {V : Type} [Inhabited V]
    (sort : SortUtility V) (fnv_hash : Row V → Nat → Nat) (equals : Row V → Row V → Bool)
    (ctx ctx1 : FunctionContext) (state state1 : ArrayAggAggregateStateV2 V) (dst : OutColumn V)
    (res : NullableColumn V)
    (harr : dst.is_array = true) (hdistinct : ctx.is_distinct = true)
    (hord : order_values sort ctx state = (ctx1, state1, some res))
    (hlen : res.length = (state.data_columns.getD 0 []).length)
    (hhash : ∀ a b, equals a b = true → fnv_hash a 0 = fnv_hash b 0)
    (hrefl : ∀ a, equals a a = true)
    (hsymm : ∀ a b, equals a b = true → equals b a = true)
    (htrans : ∀ a b c, equals a b = true → equals b c = true → equals a c = true) :
    (finalize_to_column sort fnv_hash equals ctx state dst).dst.array_col.map
        ArrayColumn.elements =
      dst.array_col.map (fun col => col.elements ++ first_occurrences equals res) ∧
    (first_occurrences equals res).Sublist res ∧
    (first_occurrences equals res).Pairwise
      (fun a b => equals a b = false ∧ equals b a = false) ∧
    (∀ r ∈ res, ∃ e ∈ first_occurrences equals res, equals e r = true) := by
  refine ⟨?_, first_occurrences_sublist equals res, ?_, ?_⟩
  · have hctx := order_values_some_ctx sort ctx ctx1 state state1 res hord
    subst hctx
    unfold finalize_to_column
    rw [defer_elements]
    simp only [harr, hord, hdistinct, Bool.not_true, if_true, ← hlen]
    rw [remove_duplicated_eq fnv_hash equals res hhash]
    exact append_result_elements dst _
  · refine (first_occurrences_pairwise equals res).imp ?_
    intro a b hab
    refine ⟨hab, ?_⟩
    by_contra hba
    have := hsymm b a (by simpa using hba)
    rw [hab] at this
    exact Bool.false_ne_true this
  · intro r hr
    obtain ⟨i, hi, rfl⟩ := List.getElem_of_mem hr
    have := first_occurrences_cover equals hrefl htrans res i hi
    simpa [List.getD_eq_getElem?_getD, List.getElem?_eq_getElem hi] using this


theorem append_result_elements_take {V : Type} [Inhabited V] (dst : OutColumn V)
    (res : NullableColumn V) (n : Nat) :
    (append_result dst res n).array_col.map ArrayColumn.elements =
      dst.array_col.map (fun col => col.elements ++ res.take n) := by
  cases dst <;>
    simp [append_result, OutColumn.array_col, NullableColumn.only_null,
      NullableColumn.append_rows]

/-- Claim C2.  `finalize_to_column`, not distinct, with `N >= 2` columns, no
cancellation and a sort that succeeds with a permutation `perm` of the rows of
`columns[0]`: the rows emitted are `columns[0]` reordered by `perm`, that is
`emitted[j] = columns[0][perm[j]]`. -/
theorem finalize_to_column_sorted_by_permutation {V : Type} [Inhabited V]
    (sort : SortUtility V) (fnv_hash : Row V → Nat → Nat) (equals : Row V → Row V → Bool)
    (ctx : FunctionContext) (state : ArrayAggAggregateStateV2 V) (dst : OutColumn V)
    (harr : dst.is_array = true) (hdistinct : ctx.is_distinct = false)
    (hN : 2 ≤ state.data_columns.length) (hcancel : ctx.cancelled = false)
    (hok : (sort ctx.cancelled (state.data_columns.drop 1)
      ⟨ctx.is_asc_order, ctx.nulls_first⟩).1.ok = true)
    (hlen : (sort ctx.cancelled (state.data_columns.drop 1)
      ⟨ctx.is_asc_order, ctx.nulls_first⟩).2.length = (state.data_columns.getD 0 []).length)
    (_hrange : ∀ i ∈ (sort ctx.cancelled (state.data_columns.drop 1)
      ⟨ctx.is_asc_order, ctx.nulls_first⟩).2, i < (state.data_columns.getD 0 []).length) :
    (finalize_to_column sort fnv_hash equals ctx state dst).dst.array_col.map
        ArrayColumn.elements =
      dst.array_col.map (fun col => col.elements ++
        (sort ctx.cancelled (state.data_columns.drop 1) ⟨ctx.is_asc_order, ctx.nulls_first⟩).2.map
          (fun i => (state.data_columns.getD 0 []).getD i default)) := by
  have hgt : state.data_columns.length > 1 := hN
  have hcol : (state.release_order_by_columns.data_columns.getD 0 []) =
      state.data_columns.getD 0 [] := by
    unfold ArrayAggAggregateStateV2.release_order_by_columns
    cases state.data_columns <;> rfl
  have hord : order_values sort ctx state = (ctx, state.release_order_by_columns,
      some (materialize_column_by_permutation [] (state.data_columns.getD 0 [])
        (sort ctx.cancelled (state.data_columns.drop 1)
          ⟨ctx.is_asc_order, ctx.nulls_first⟩).2)) := by
    unfold order_values
    simp only [hgt, hok, hcol, if_true, Bool.not_true, Bool.false_eq_true, if_false]
    simp only [hcancel, Bool.false_eq_true, if_false]
  unfold finalize_to_column
  rw [defer_elements]
  simp only [harr, hord, hdistinct, Bool.not_true, if_false, Bool.false_eq_true]
  rw [append_result_elements_take]
  congr 1
  funext col
  congr 1
  apply List.take_of_length_le
  unfold materialize_column_by_permutation
  rw [List.nil_append, List.length_map, hlen]

end ArrayAggAggregateFunctionV2

/-! ## The ordered variant: lengths of the internal columns -/

theorem lengths_at_modify {α : Type} (cols : List (List α)) (N k n c : Nat)
    (f : List α → List α) (hf : ∀ x, (f x).length = x.length + c)
    (h : lengths_at cols N k n c) : lengths_at (cols.modify f k) N (k + 1) n c := by
  obtain ⟨hlen, hcols⟩ := h
  refine ⟨by rw [List.length_modify]; exact hlen, ?_⟩
  intro i hi
  rw [List.getElem?_modify]
  have hi' : i < cols.length := by omega
  rw [List.getElem?_eq_getElem hi']
  have hci := hcols i hi
  rw [List.getElem?_eq_getElem hi'] at hci
  simp only [Option.getD_some, Option.map_eq_map, Option.map_some'] at hci ⊢
  by_cases hik : k = i
  · subst hik
    simp only [if_true, hf, hci, lt_irrefl, if_false, Nat.lt_succ_self]
  · simp only [hik, if_false, hci]
    have : (i < k + 1) ↔ i < k := by omega
    simp only [this]

theorem lengths_at_start {α : Type} (cols : List (List α)) (N n c c' k : Nat)
    (h : lengths_at cols N N n c) (hk : k = 0) : lengths_at cols N k (n + c) c' := by
  subst hk
  refine ⟨h.1, ?_⟩
  intro i hi
  have := h.2 i hi
  simpa [hi] using this

namespace ArrayAggAggregateFunctionV2

theorem append_to_length_one {V : Type} [Inhabited V] (dst : NullableColumn V) (column : Column V)
    (row_num : Nat) (hrow : row_num < column.size) (hconst : column.is_constant = false) :
    (Column.append_to dst column row_num 1).length = dst.length + 1 := by
  cases column with
  | data vs =>
    simp only [Column.size] at hrow
    simp [Column.append_to, NullableColumn.append_data, List.length_take]
    omega
  | nullable rs =>
    simp only [Column.size] at hrow
    simp [Column.append_to, NullableColumn.append_rows, List.length_take]
    omega
  | const v n => simp [Column.is_constant] at hconst

theorem append_to_const_length {V : Type} [Inhabited V] (dst : NullableColumn V)
    (column : Column V) (hconst : column.is_constant = true) :
    (Column.append_to dst column.data_column 0 1).length = dst.length + 1 := by
  cases column with
  | data vs => simp [Column.is_constant] at hconst
  | nullable rs => simp [Column.is_constant] at hconst
  | const v n =>
    cases v <;>
      simp [Column.data_column, Column.append_to, NullableColumn.append_rows,
        NullableColumn.append_data]

theorem update_from_lengths {V : Type} [Inhabited V] (columns : List (Column V))
    (row_num N n : Nat) (hcols : ∀ i, i < N → row_num < (columns.getD i (Column.data [])).size)
    (m : Nat) : ∀ (k : Nat) (ctx : FunctionContext) (state : ArrayAggAggregateStateV2 V),
      k + m = N → lengths_at state.data_columns N k n 1 →
      (update_from columns row_num (List.range' k m) ctx state).1 = ctx ∧
      lengths_at (update_from columns row_num (List.range' k m) ctx state).2.data_columns
        N N n 1 := by
  induction m with
  | zero =>
    intro k ctx state hk h
    have : k = N := by omega
    subst this
    exact ⟨rfl, h⟩
  | succ m ih =>
    intro k ctx state hk h
    have hkN : k < N := by omega
    have hsz := hcols k hkN
    rw [List.range'_succ]
    unfold update_from
    simp only [Nat.not_le.mpr hsz, if_false]
    split_ifs with h1 h2
    · exact ih (k + 1) ctx _ (by omega)
        (lengths_at_modify _ N k n 1 _ (by intro x; simp [NullableColumn.append_nulls]) h)
    · exact ih (k + 1) ctx _ (by omega)
        (lengths_at_modify _ N k n 1 _ (fun x => append_to_const_length x _ h2) h)
    · exact ih (k + 1) ctx _ (by omega)
        (lengths_at_modify _ N k n 1 _
          (fun x => append_to_length_one x _ row_num hsz (by simpa using h2)) h)

theorem update_lengths {V : Type} [Inhabited V] (ctx : FunctionContext)
    (columns : List (Column V)) (state : ArrayAggAggregateStateV2 V) (row_num n : Nat)
    (hlen : columns.length = ctx.num_args) (hcols : ∀ c ∈ columns, row_num < c.size)
    (h : lengths_at state.data_columns ctx.num_args 0 n 1) :
    (update ctx columns state row_num).1 = ctx ∧
      lengths_at (update ctx columns state row_num).2.data_columns ctx.num_args ctx.num_args
        n 1 := by
  unfold update
  rw [List.range_eq_range']
  apply update_from_lengths columns row_num ctx.num_args n _ ctx.num_args 0 ctx state
    (by omega) h
  intro i hi
  have hi' : i < columns.length := by omega
  rw [List.getD_eq_getElem?_getD, List.getElem?_eq_getElem hi', Option.getD_some]
  exact hcols _ (List.getElem_mem hi')

theorem merge_lengths {V : Type} [Inhabited V] (input_columns : List (ArrayColumn V))
    (state : ArrayAggAggregateStateV2 V) (row_num n c : Nat)
    (hcell : ∀ a ∈ input_columns, a.has_cell row_num)
    (hc : ∀ a ∈ input_columns, (a.get_element_offset_size row_num).2 = c)
    (h : lengths_at state.data_columns input_columns.length 0 n c) :
    lengths_at (merge input_columns state row_num).data_columns input_columns.length
      input_columns.length n c := by
  unfold merge
  suffices hk : ∀ k, k ≤ input_columns.length → lengths_at
      ((List.range k).foldl (fun st i =>
        let array_column := input_columns.getD i ArrayColumn.empty
        let offsets := array_column.offsets
        st.update (Column.nullable array_column.elements) i (offsets.getD row_num 0)
          (offsets.getD (row_num + 1) 0 - offsets.getD row_num 0)) state).data_columns
      input_columns.length k n c from hk _ (le_refl _)
  intro k
  induction k with
  | zero => intro _; exact h
  | succ k ih =>
    intro hk
    have hk' : k < input_columns.length := hk
    rw [List.range_succ, List.foldl_append]
    simp only [List.foldl_cons, List.foldl_nil]
    apply lengths_at_modify _ _ k n c _ _ (ih (Nat.le_of_succ_le hk))
    intro x
    have hmem : input_columns.getD k ArrayColumn.empty ∈ input_columns := by
      rw [List.getD_eq_getElem?_getD, List.getElem?_eq_getElem hk', Option.getD_some]
      exact List.getElem_mem hk'
    obtain ⟨_, h2, h3⟩ := hcell _ hmem
    have h4 := hc _ hmem
    simp only [ArrayColumn.get_element_offset_size] at h4
    simp only [Column.append_to, NullableColumn.append_rows, List.length_append,
      List.length_take, List.length_drop, h4]
    omega

end ArrayAggAggregateFunctionV2

/-- Claim C3, as amended.  From the state created for `N` arguments, after any
sequence of `update(row)` calls whose `N` source columns all have a row `row`
and of `merge(record, row)` calls whose record has `N` arrays with cells of one
common length at `row`, all the internal columns have the same length and
there are `N` of them. -/
theorem ordered_state_equal_lengths {V : Type} [Inhabited V] (ctx : FunctionContext)
    (calls : List (StateCallV2 V)) (hcalls : ∀ c ∈ calls, c.aligned ctx.num_args) :
    (StateCallV2.run (ctx, ArrayAggAggregateFunctionV2.create ctx) calls).2.equal_lengths ∧
    (StateCallV2.run (ctx, ArrayAggAggregateFunctionV2.create ctx)
      calls).2.data_columns.length = ctx.num_args := by
  suffices hinv : ∀ (calls : List (StateCallV2 V)) (state : ArrayAggAggregateStateV2 V) (n : Nat),
      (∀ c ∈ calls, c.aligned ctx.num_args) →
      lengths_at state.data_columns ctx.num_args 0 n 0 →
      ∃ n', lengths_at (StateCallV2.run (ctx, state) calls).2.data_columns ctx.num_args 0 n' 0 by
    obtain ⟨n', hn'⟩ := hinv calls (ArrayAggAggregateFunctionV2.create ctx) 0 hcalls (by
      refine ⟨by simp [ArrayAggAggregateFunctionV2.create], ?_⟩
      intro i hi
      simp [ArrayAggAggregateFunctionV2.create, hi])
    refine ⟨?_, hn'.1⟩
    intro a ha b hb
    have hrow : ∀ x ∈ (StateCallV2.run (ctx, ArrayAggAggregateFunctionV2.create ctx)
        calls).2.data_columns, x.length = n' := by
      intro x hx
      obtain ⟨i, hi, rfl⟩ := List.getElem_of_mem hx
      have := hn'.2 i (by rw [← hn'.1]; exact hi)
      rw [List.getElem?_eq_getElem hi] at this
      simpa using this
    rw [hrow a ha, hrow b hb]
  intro calls
  induction calls with
  | nil => intro state n _ h; exact ⟨n, h⟩
  | cons c rest ih =>
    intro state n hc h
    have hc0 := hc c (List.mem_cons_self _ _)
    have hrest : ∀ c ∈ rest, c.aligned ctx.num_args :=
      fun c hmem => hc c (List.mem_cons_of_mem _ hmem)
    unfold StateCallV2.run
    rw [List.foldl_cons]
    cases c with
    | update columns row_num =>
      obtain ⟨hlen, hcols⟩ := hc0
      have hstart : lengths_at state.data_columns ctx.num_args 0 n 1 := ⟨h.1, h.2⟩
      obtain ⟨hctx, hl⟩ := ArrayAggAggregateFunctionV2.update_lengths ctx columns state row_num n
        hlen hcols hstart
      have hpair : StateCallV2.apply (ctx, state) (StateCallV2.update columns row_num) =
          (ctx, (ArrayAggAggregateFunctionV2.update ctx columns state row_num).2) := by
        simp only [StateCallV2.apply]
        exact Prod.ext hctx rfl
      rw [hpair]
      exact ih _ (n + 1) hrest (lengths_at_start _ _ n 1 0 0 hl rfl)
    | merge input_columns row_num =>
      obtain ⟨hlen, hcell, hsame⟩ := hc0
      simp only [StateCallV2.apply]
      by_cases hN : ctx.num_args = 0
      · have hnil : input_columns = [] := by
          apply List.eq_nil_of_length_eq_zero; omega
        subst hnil
        exact ih _ n hrest (by simpa [ArrayAggAggregateFunctionV2.merge] using h)
      · have hpos : 0 < input_columns.length := by omega
        have hstart : lengths_at state.data_columns input_columns.length 0 n
            ((input_columns[0]).get_element_offset_size row_num).2 := by
          rw [hlen]; exact ⟨h.1, h.2⟩
        have hl := ArrayAggAggregateFunctionV2.merge_lengths input_columns state row_num n _
          hcell (fun a ha => hsame a ha _ (List.getElem_mem hpos)) hstart
        rw [hlen] at hl
        exact ih _ _ hrest (lengths_at_start _ _ n _ 0 0 hl rfl)

/-! ## The simple variant -/

theorem emplace_fold_keys {K : Type} [DecidableEq K] (new : List K) (s : FlatHashSet K) :
    (new.foldl (fun acc k => acc.emplace k) s).keys = insert_keys s.keys new := by
  induction new generalizing s with
  | nil => rfl
  | cons k rest ih =>
    simp only [List.foldl_cons, insert_keys]
    rw [ih]
    unfold FlatHashSet.emplace insert_keys
    split <;> rfl

theorem update_string_fold (slice_hash : Slice → Nat) (column : List Slice) (offset : Nat)
    (is : List Nat) (acc : FlatHashSet SliceWithHash × MemPool) :
    (is.foldl (ArrayAggAggregateState.update_string_step slice_hash column offset) acc).1.keys =
      insert_keys acc.1.keys
        (is.map (fun i => (⟨column.getD (offset + i) [], slice_hash (column.getD (offset + i) [])⟩ :
          SliceWithHash))) := by
  induction is generalizing acc with
  | nil => rfl
  | cons i rest ih =>
    simp only [List.foldl_cons, List.map_cons, insert_keys]
    rw [ih]
    unfold insert_keys
    congr 1
    unfold ArrayAggAggregateState.update_string_step
    simp only [FlatHashSet.contains, decide_eq_true_eq, MemPool.allocate_copy]
    split <;> rfl

theorem update_distinct_eq (slice_hash : Slice → Nat) (PT : LogicalType) (mem_pool : MemPool)
    (s : ArrayAggAggregateState PT) (column : List (RunTimeCppType PT)) (offset count : Nat) :
    (ArrayAggAggregateState.update slice_hash PT true mem_pool s column offset count).1.set.keys =
      insert_keys s.set.keys ((loop_values PT column offset count).map (key_of slice_hash PT)) ∧
    (ArrayAggAggregateState.update slice_hash PT true mem_pool s column offset count).1.data_column
      = s.data_column ∧
    (ArrayAggAggregateState.update slice_hash PT true mem_pool s column offset count).1.null_count
      = s.null_count := by
  cases PT with
  | fixed V eq dflt =>
    refine ⟨?_, rfl, rfl⟩
    simp only [ArrayAggAggregateState.update, loop_values, List.map_map]
    rw [← emplace_fold_keys, List.foldl_map]
    rfl
  | string =>
    refine ⟨?_, rfl, rfl⟩
    simp only [ArrayAggAggregateState.update, loop_values, List.map_map]
    rw [update_string_fold]
    rfl

theorem update_plain_eq (slice_hash : Slice → Nat) (PT : LogicalType) (mem_pool : MemPool)
    (s : ArrayAggAggregateState PT) (column : List (RunTimeCppType PT)) (offset count : Nat) :
    (ArrayAggAggregateState.update slice_hash PT false mem_pool s column offset count).1 =
      { s with data_column := s.data_column ++ (column.drop offset).take count } := by
  cases PT <;> rfl


theorem null_count_le {V : Type} (c : NullableColumn V) (offset count : Nat) :
    c.null_count offset count ≤ count := by
  unfold NullableColumn.null_count
  exact le_trans (List.length_filter_le _ _) (by rw [List.length_take]; exact Nat.min_le_left _ _)

theorem apply_plain_rows (slice_hash : Slice → Nat) (PT : LogicalType)
    (acc : ArrayAggAggregateState PT × MemPool) (c : StateCall PT) (hc : c.in_range) :
    (StateCall.apply slice_hash false acc c).1.data_column.length +
        (StateCall.apply slice_hash false acc c).1.null_count =
      acc.1.data_column.length + acc.1.null_count + c.rows_applied := by
  cases c with
  | update column offset count =>
    simp only [StateCall.in_range] at hc
    simp only [StateCall.apply, update_plain_eq, StateCall.rows_applied, List.length_append,
      List.length_take, List.length_drop]
    omega
  | append_null =>
    simp only [StateCall.apply, ArrayAggAggregateState.append_null, StateCall.rows_applied,
      Bool.false_eq_true, if_false]
    omega
  | append_null_count count =>
    simp only [StateCall.apply, ArrayAggAggregateState.append_null_count,
      StateCall.rows_applied, Bool.false_eq_true, if_false]
    omega
  | merge column row_num =>
    obtain ⟨_, h2, h3⟩ := hc
    have hn := null_count_le column.elements (column.get_element_offset_size row_num).1
      (column.get_element_offset_size row_num).2
    simp only [StateCall.apply, ArrayAggAggregateFunction.merge, update_plain_eq,
      ArrayAggAggregateState.append_null_count, StateCall.rows_applied, Bool.false_eq_true,
      if_false, List.length_append, List.length_take, List.length_drop,
      NullableColumn.get_data_column, List.length_map]
    simp only [ArrayColumn.get_element_offset_size] at hn ⊢
    omega

/-- Claim C5.  Non-distinct simple state: from the empty state, after any
sequence of `update(column, offset, count)`, `append_null()`,
`append_null(count)` and `merge` calls that read inside their columns,
`data_column.size() + null_count` is the total number of rows applied: the sum
of the update counts, the null counts and the lengths of the merged cells. -/
theorem plain_state_counts_rows (slice_hash : Slice → Nat) (PT : LogicalType)
    (mem_pool : MemPool) (calls : List (StateCall PT)) (hcalls : ∀ c ∈ calls, c.in_range) :
    (StateCall.run slice_hash false (ArrayAggAggregateState.init PT, mem_pool)
        calls).1.data_column.length +
      (StateCall.run slice_hash false (ArrayAggAggregateState.init PT, mem_pool)
        calls).1.null_count =
      (calls.map StateCall.rows_applied).sum := by
  suffices h : ∀ (calls : List (StateCall PT)) (acc : ArrayAggAggregateState PT × MemPool),
      (∀ c ∈ calls, c.in_range) →
      (StateCall.run slice_hash false acc calls).1.data_column.length +
        (StateCall.run slice_hash false acc calls).1.null_count =
      acc.1.data_column.length + acc.1.null_count + (calls.map StateCall.rows_applied).sum by
    rw [h calls _ hcalls]
    simp [ArrayAggAggregateState.init]
  intro calls
  induction calls with
  | nil => intro acc _; simp [StateCall.run]
  | cons c rest ih =>
    intro acc hc
    unfold StateCall.run
    rw [List.foldl_cons]
    have := ih (StateCall.apply slice_hash false acc c)
      (fun c' hc' => hc c' (List.mem_cons_of_mem _ hc'))
    unfold StateCall.run at this
    rw [this, apply_plain_rows slice_hash PT acc c (hc c (List.mem_cons_self _ _))]
    simp only [List.map_cons, List.sum_cons]
    omega

theorem apply_distinct_null_count (slice_hash : Slice → Nat) (PT : LogicalType)
    (acc : ArrayAggAggregateState PT × MemPool) (c : StateCall PT) :
    (StateCall.apply slice_hash true acc c).1.null_count =
      if 0 < c.nulls_applied then 1 else acc.1.null_count := by
  cases c with
  | update column offset count =>
    simp only [StateCall.apply, StateCall.nulls_applied, lt_irrefl, if_false]
    exact (update_distinct_eq slice_hash PT acc.2 acc.1 column offset count).2.2
  | append_null =>
    simp [StateCall.apply, ArrayAggAggregateState.append_null, StateCall.nulls_applied]
  | append_null_count count =>
    simp only [StateCall.apply, ArrayAggAggregateState.append_null_count,
      StateCall.nulls_applied, if_true, gt_iff_lt]
    split <;> rfl
  | merge column row_num =>
    simp only [StateCall.apply, ArrayAggAggregateFunction.merge,
      ArrayAggAggregateState.append_null_count, StateCall.nulls_applied, if_true, gt_iff_lt]
    split
    · rfl
    · exact (update_distinct_eq slice_hash PT acc.2 acc.1 _ _ _).2.2

theorem run_distinct_null_count (slice_hash : Slice → Nat) (PT : LogicalType)
    (calls : List (StateCall PT)) (acc : ArrayAggAggregateState PT × MemPool) :
    (StateCall.run slice_hash true acc calls).1.null_count =
      if ∃ c ∈ calls, 0 < c.nulls_applied then 1 else acc.1.null_count := by
  induction calls generalizing acc with
  | nil => simp [StateCall.run]
  | cons c rest ih =>
    unfold StateCall.run
    rw [List.foldl_cons]
    have := ih (StateCall.apply slice_hash true acc c)
    unfold StateCall.run at this
    rw [this, apply_distinct_null_count]
    by_cases h1 : ∃ c ∈ rest, 0 < c.nulls_applied
    · have h2 : ∃ c' ∈ c :: rest, 0 < c'.nulls_applied := by
        obtain ⟨c', hc', hp⟩ := h1
        exact ⟨c', List.mem_cons_of_mem _ hc', hp⟩
      simp only [h1, h2, if_true]
    · by_cases h3 : 0 < c.nulls_applied
      · have h2 : ∃ c' ∈ c :: rest, 0 < c'.nulls_applied := ⟨c, List.mem_cons_self _ _, h3⟩
        simp only [h1, h2, h3, if_true, if_false]
      · have h2 : ¬ ∃ c' ∈ c :: rest, 0 < c'.nulls_applied := by
          rintro ⟨c', hc', hp⟩
          rcases List.mem_cons.mp hc' with rfl | hr
          · exact h3 hp
          · exact h1 ⟨c', hr, hp⟩
        simp only [h1, h2, h3, if_false]

/-- Claim C6.  Distinct simple state: from the empty state, after any sequence
of `update`, `append_null()`, `append_null(count)` and `merge` calls,
`null_count` is `0` or `1`; it is `1` exactly when some call applied a null
(`append_null()`, `append_null(count)` with `count > 0`, or a merged cell that
holds a null); and `append_null(0)` leaves the state unchanged. -/
theorem distinct_state_null_count (slice_hash : Slice → Nat) (PT : LogicalType)
    (mem_pool : MemPool) (calls : List (StateCall PT)) :
    ((StateCall.run slice_hash true (ArrayAggAggregateState.init PT, mem_pool)
        calls).1.null_count = 0 ∨
      (StateCall.run slice_hash true (ArrayAggAggregateState.init PT, mem_pool)
        calls).1.null_count = 1) ∧
    ((StateCall.run slice_hash true (ArrayAggAggregateState.init PT, mem_pool)
        calls).1.null_count = 1 ↔ ∃ c ∈ calls, 0 < c.nulls_applied) ∧
    (∀ s : ArrayAggAggregateState PT, s.append_null_count true 0 = s) := by
  rw [run_distinct_null_count]
  by_cases h : ∃ c ∈ calls, 0 < c.nulls_applied
  · simp only [h, if_true, or_true, true_and]
    intro s; simp [ArrayAggAggregateState.append_null_count]
  · simp only [h, if_false, ArrayAggAggregateState.init, true_or, true_and]
    refine ⟨by simp, ?_⟩
    intro s; simp [ArrayAggAggregateState.append_null_count]


theorem take_of_nulls_last {V : Type} (cell : NullableColumn V) (h : nulls_last cell) :
    cell.take (cell.length - (cell.filter Row.is_null).length) =
      cell.filter (fun r => !r.is_null) := by
  induction cell with
  | nil => rfl
  | cons a rest ih =>
    unfold nulls_last at h
    rw [List.pairwise_cons] at h
    obtain ⟨ha, hrest⟩ := h
    by_cases hnull : a.is_null = true
    · have hall : ∀ b ∈ a :: rest, b.is_null = true := by
        intro b hb
        rcases List.mem_cons.mp hb with rfl | hb'
        · exact hnull
        · exact ha b hb' hnull
      have h1 : (a :: rest).filter Row.is_null = a :: rest := List.filter_eq_self.mpr hall
      have h2 : (a :: rest).filter (fun r => !r.is_null) = [] := by
        apply List.filter_eq_nil_iff.mpr
        intro b hb
        simp [hall b hb]
      rw [h1, h2, Nat.sub_self, List.take_zero]
    · have hk : (rest.filter Row.is_null).length ≤ rest.length := List.length_filter_le _ _
      have hnull' : a.is_null = false := by simpa using hnull
      rw [List.filter_cons_of_neg hnull, List.filter_cons_of_pos (by simp [hnull'])]
      have : (a :: rest).length - (rest.filter Row.is_null).length =
          (rest.length - (rest.filter Row.is_null).length) + 1 := by
        simp only [List.length_cons]; omega
      rw [this, List.take_succ_cons, ih hrest]

theorem cell_length {V : Type} (a : ArrayColumn V) (row : Nat) (h : a.has_cell row) :
    (a.cell row).length = (a.get_element_offset_size row).2 := by
  obtain ⟨_, h2, h3⟩ := h
  simp only [ArrayColumn.cell, ArrayColumn.get_element_offset_size, List.length_take,
    List.length_drop]
  omega

/-- Non-distinct `merge` of a cell that lies inside its array column and whose
null elements all come after its other elements: the non-null elements of the
cell are appended to the elements of the state, in their order, and the number
of null elements of the cell is added to `null_count`. -/
theorem merge_nulls_last_cell (slice_hash : Slice → Nat) (PT : LogicalType)
    (mem_pool : MemPool) (input_column : ArrayColumn (RunTimeCppType PT))
    (state : ArrayAggAggregateState PT) (row_num : Nat)
    (hcell : input_column.has_cell row_num) (hlast : nulls_last (input_column.cell row_num)) :
    (ArrayAggAggregateFunction.merge slice_hash PT false mem_pool input_column state
        row_num).1.data_column =
      state.data_column ++
        ((input_column.cell row_num).filter (fun r => !r.is_null)).map Row.value ∧
    (ArrayAggAggregateFunction.merge slice_hash PT false mem_pool input_column state
        row_num).1.null_count =
      state.null_count + ((input_column.cell row_num).filter Row.is_null).length := by
  have hlen := cell_length input_column row_num hcell
  have htake := take_of_nulls_last _ hlast
  simp only [ArrayAggAggregateFunction.merge, update_plain_eq,
    ArrayAggAggregateState.append_null_count, Bool.false_eq_true, if_false,
    NullableColumn.get_data_column, NullableColumn.null_count]
  refine ⟨?_, rfl⟩
  congr 1
  rw [← htake, hlen, ← List.map_drop, ← List.map_take]
  congr 1
  unfold ArrayColumn.cell
  rw [List.take_take]
  congr 1
  exact (Nat.min_eq_left (Nat.sub_le _ _)).symm


theorem get_data_column_plain {PT : LogicalType} (order : IterationOrder (KeyType PT))
    (s : ArrayAggAggregateState PT) : s.get_data_column false order = s := by
  unfold ArrayAggAggregateState.get_data_column
  simp

theorem offsets_back_eq_getD {V : Type} (a : ArrayColumn V) :
    a.offsets.getD (a.offsets.length - 1) 0 = a.offsets_back := by
  unfold ArrayColumn.offsets_back
  rw [List.getD_eq_getElem?_getD, List.getLastD_eq_getLast?, List.getLast?_eq_getElem?]

/-- The cell that `append_array_element` adds is read back by
`get_element_offset_size` at the row it was given. -/
theorem appended_cell_offset_size {V : Type} [Inhabited V] (a : ArrayColumn V) (elem : List V)
    (null_elem : Nat) (hwf : a.well_formed) :
    (a.append_array_element elem null_elem).get_element_offset_size a.size =
      (a.elements.length, elem.length + null_elem) := by
  obtain ⟨hhead, _, hback⟩ := hwf
  have hne : a.offsets ≠ [] := by
    intro h; rw [h] at hhead; simp at hhead
  have hpos : 0 < a.offsets.length := List.length_pos.mpr hne
  have h1 : (a.offsets ++ [a.offsets_back + elem.length + null_elem]).getD
      (a.offsets.length - 1) 0 = a.offsets_back := by
    rw [List.getD_eq_getElem?_getD, List.getElem?_append_left (by omega),
      ← List.getD_eq_getElem?_getD]
    exact offsets_back_eq_getD a
  have h2 : (a.offsets ++ [a.offsets_back + elem.length + null_elem]).getD
      (a.offsets.length - 1 + 1) 0 = a.offsets_back + elem.length + null_elem := by
    have : a.offsets.length - 1 + 1 = a.offsets.length := by omega
    rw [this, List.getD_eq_getElem?_getD, List.getElem?_append_right (le_refl _)]
    simp
  simp only [ArrayColumn.get_element_offset_size, ArrayColumn.append_array_element,
    ArrayColumn.size]
  rw [h1, h2, hback]
  congr 1
  omega

theorem append_array_element_elements {V : Type} [Inhabited V] (a : ArrayColumn V)
    (elem : List V) (null_elem : Nat) :
    (a.append_array_element elem null_elem).elements =
      a.elements ++ (elem.map (fun v => (⟨v, false⟩ : Row V)) ++
        List.replicate null_elem ⟨default, true⟩) := by
  simp only [ArrayColumn.append_array_element, NullableColumn.append_data,
    NullableColumn.append_nulls, List.drop_zero, List.take_length, List.append_assoc]

theorem appended_cell_null_count {V : Type} [Inhabited V] (a : ArrayColumn V) (elem : List V)
    (null_elem : Nat) :
    (a.append_array_element elem null_elem).elements.null_count a.elements.length
      (elem.length + null_elem) = null_elem := by
  unfold NullableColumn.null_count
  rw [append_array_element_elements, List.drop_left, List.take_of_length_le (by simp),
    List.filter_append]
  have h1 : (elem.map (fun v => (⟨v, false⟩ : Row V))).filter Row.is_null = [] := by
    apply List.filter_eq_nil_iff.mpr
    intro r hr
    obtain ⟨v, _, rfl⟩ := List.mem_map.mp hr
    simp
  have h2 : (List.replicate null_elem (⟨default, true⟩ : Row V)).filter Row.is_null =
      List.replicate null_elem ⟨default, true⟩ := by
    apply List.filter_eq_self.mpr
    intro r hr
    rw [List.eq_of_mem_replicate hr]
  rw [h1, h2, List.nil_append, List.length_replicate]

theorem appended_cell_data {V : Type} [Inhabited V] (a : ArrayColumn V) (elem : List V)
    (null_elem : Nat) :
    ((a.append_array_element elem null_elem).elements.get_data_column.drop
      a.elements.length).take elem.length = elem := by
  unfold NullableColumn.get_data_column
  rw [append_array_element_elements, ← List.map_drop, List.drop_left, List.map_append,
    List.map_map]
  have : (Row.value ∘ fun v => (⟨v, false⟩ : Row V)) = id := rfl
  rw [this, List.map_id, List.take_left]

/-- Claim C8.  Round trip of the non-distinct simple variant: for every state
`S` and every well-formed array column, `serialize_to_column` followed by the
`merge` of the cell just written into the empty state gives the elements of
`S`, in the same order, and the `null_count` of `S`. -/
theorem serialize_merge_round_trip (slice_hash : Slice → Nat) (PT : LogicalType)
    (mem_pool : MemPool) (order : IterationOrder (KeyType PT)) (S : ArrayAggAggregateState PT)
    (column : ArrayColumn (RunTimeCppType PT)) (hwf : column.well_formed) :
    (ArrayAggAggregateFunction.merge slice_hash PT false mem_pool
        (ArrayAggAggregateFunction.serialize_to_column false order S column).2
        (ArrayAggAggregateState.init PT) column.size).1.data_column = S.data_column ∧
    (ArrayAggAggregateFunction.merge slice_hash PT false mem_pool
        (ArrayAggAggregateFunction.serialize_to_column false order S column).2
        (ArrayAggAggregateState.init PT) column.size).1.null_count = S.null_count := by
  have hos := appended_cell_offset_size column S.data_column S.null_count hwf
  have hnull := appended_cell_null_count column S.data_column S.null_count
  have hdata := appended_cell_data column S.data_column S.null_count
  simp only [ArrayAggAggregateFunction.merge, ArrayAggAggregateFunction.serialize_to_column,
    get_data_column_plain, hos, hnull, update_plain_eq,
    ArrayAggAggregateState.append_null_count, ArrayAggAggregateState.init,
    Bool.false_eq_true, if_false, List.nil_append, Nat.zero_add, Nat.add_sub_cancel, hdata,
    and_self]


theorem mem_insert_keys {K : Type} [DecidableEq K] (new keys : List K) (k : K) :
    k ∈ insert_keys keys new ↔ k ∈ keys ∨ k ∈ new := by
  induction new generalizing keys with
  | nil => simp [insert_keys]
  | cons a rest ih =>
    unfold insert_keys
    rw [List.foldl_cons]
    have := ih (if a ∈ keys then keys else keys ++ [a])
    unfold insert_keys at this
    rw [this]
    by_cases ha : a ∈ keys
    · simp only [ha, if_true, List.mem_cons]
      constructor
      · rintro (h | h)
        · exact Or.inl h
        · exact Or.inr (Or.inr h)
      · rintro (h | h | h)
        · exact Or.inl h
        · exact Or.inl (h ▸ ha)
        · exact Or.inr h
    · simp only [ha, if_false, List.mem_append, List.mem_singleton, List.mem_cons]
      tauto

theorem nodup_insert_keys {K : Type} [DecidableEq K] (new keys : List K) (h : keys.Nodup) :
    (insert_keys keys new).Nodup := by
  induction new generalizing keys with
  | nil => exact h
  | cons a rest ih =>
    unfold insert_keys
    rw [List.foldl_cons]
    apply ih
    by_cases ha : a ∈ keys
    · simp only [ha, if_true]; exact h
    · simp only [ha, if_false]
      rw [List.nodup_append]
      refine ⟨h, List.nodup_singleton a, ?_⟩
      intro x hx hx'
      rw [List.mem_singleton] at hx'
      exact ha (hx' ▸ hx)

theorem value_of_key_of (slice_hash : Slice → Nat) (PT : LogicalType) (v : RunTimeCppType PT) :
    value_of PT (key_of slice_hash PT v) = v := by
  cases PT <;> rfl

theorem set_values_eq (PT : LogicalType) (keys : List (KeyType PT)) :
    ArrayAggAggregateState.set_values PT keys = keys.map (value_of PT) := by
  cases PT with
  | fixed V eq dflt =>
    simp only [ArrayAggAggregateState.set_values]
    exact (List.map_id keys).symm
  | string => rfl

theorem loop_values_eq (PT : LogicalType) (column : List (RunTimeCppType PT))
    (offset count : Nat) (h : offset + count ≤ column.length) :
    loop_values PT column offset count = (column.drop offset).take count := by
  unfold loop_values
  apply List.ext_getElem
  · simp only [List.length_map, List.length_range, List.length_take, List.length_drop]
    omega
  · intro i h1 h2
    simp only [List.length_map, List.length_range] at h1
    have h3 : offset + i < column.length := by omega
    simp only [List.getElem_map, List.getElem_range, List.getElem_take, List.getElem_drop,
      List.getD_eq_getElem?_getD, List.getElem?_eq_getElem h3, Option.getD_some]


theorem values_read_eq {PT : LogicalType} (c : StateCall PT) (hc : c.in_range) :
    c.values_read = c.values_applied := by
  cases c with
  | update column offset count => exact loop_values_eq PT column offset count hc
  | append_null => rfl
  | append_null_count count => rfl
  | merge column row_num =>
    obtain ⟨_, h2, h3⟩ := hc
    apply loop_values_eq
    simp only [ArrayColumn.get_element_offset_size, NullableColumn.get_data_column,
      List.length_map]
    omega

theorem apply_distinct_keys (slice_hash : Slice → Nat) (PT : LogicalType)
    (acc : ArrayAggAggregateState PT × MemPool) (c : StateCall PT) :
    (StateCall.apply slice_hash true acc c).1.set.keys =
      insert_keys acc.1.set.keys (c.values_read.map (key_of slice_hash PT)) ∧
    (StateCall.apply slice_hash true acc c).1.data_column = acc.1.data_column := by
  cases c with
  | update column offset count =>
    have := update_distinct_eq slice_hash PT acc.2 acc.1 column offset count
    exact ⟨this.1, this.2.1⟩
  | append_null => exact ⟨rfl, rfl⟩
  | append_null_count count =>
    simp only [StateCall.apply, ArrayAggAggregateState.append_null_count, if_true]
    split <;> exact ⟨rfl, rfl⟩
  | merge column row_num =>
    have := update_distinct_eq slice_hash PT acc.2 acc.1 column.elements.get_data_column
      (column.get_element_offset_size row_num).1
      ((column.get_element_offset_size row_num).2 -
        column.elements.null_count (column.get_element_offset_size row_num).1
          (column.get_element_offset_size row_num).2)
    simp only [StateCall.apply, ArrayAggAggregateFunction.merge,
      ArrayAggAggregateState.append_null_count, if_true]
    split <;> exact ⟨this.1, this.2.1⟩

theorem run_distinct_keys (slice_hash : Slice → Nat) (PT : LogicalType)
    (calls : List (StateCall PT)) (acc : ArrayAggAggregateState PT × MemPool) :
    (∀ k, k ∈ (StateCall.run slice_hash true acc calls).1.set.keys ↔
      k ∈ acc.1.set.keys ∨ ∃ c ∈ calls, k ∈ c.values_read.map (key_of slice_hash PT)) ∧
    (acc.1.set.keys.Nodup → (StateCall.run slice_hash true acc calls).1.set.keys.Nodup) ∧
    (StateCall.run slice_hash true acc calls).1.data_column = acc.1.data_column := by
  induction calls generalizing acc with
  | nil => simp [StateCall.run]
  | cons c rest ih =>
    obtain ⟨h1, h2, h3⟩ := ih (StateCall.apply slice_hash true acc c)
    obtain ⟨hk, hd⟩ := apply_distinct_keys slice_hash PT acc c
    unfold StateCall.run at h1 h2 h3 ⊢
    rw [List.foldl_cons]
    refine ⟨?_, ?_, ?_⟩
    · intro k
      rw [h1 k, hk, mem_insert_keys]
      constructor
      · rintro ((h | h) | ⟨c', hc', h⟩)
        · exact Or.inl h
        · exact Or.inr ⟨c, List.mem_cons_self _ _, h⟩
        · exact Or.inr ⟨c', List.mem_cons_of_mem _ hc', h⟩
      · rintro (h | ⟨c', hc', h⟩)
        · exact Or.inl (Or.inl h)
        · rcases List.mem_cons.mp hc' with rfl | hr
          · exact Or.inl (Or.inr h)
          · exact Or.inr ⟨c', hr, h⟩
    · intro hn
      apply h2
      rw [hk]
      exact nodup_insert_keys _ _ hn
    · rw [h3, hd]

theorem get_data_column_distinct {PT : LogicalType} (order : IterationOrder (KeyType PT))
    (s : ArrayAggAggregateState PT) (hd : s.data_column = []) :
    (s.get_data_column true order).data_column = (order.iterate s.set.keys).map (value_of PT) := by
  unfold ArrayAggAggregateState.get_data_column
  by_cases hs : s.set.keys = []
  · have h0 : order.iterate [] = ([] : List (KeyType PT)) := List.Perm.eq_nil (order.perm [])
    simp [FlatHashSet.size, hs, hd, h0]
  · have hsz : ¬ s.set.keys.length = 0 := by
      intro h; exact hs (List.eq_nil_of_length_eq_zero h)
    simp [FlatHashSet.size, hsz, hd, set_values_eq]


theorem run_distinct_from_init (slice_hash : Slice → Nat) (PT : LogicalType)
    (mem_pool : MemPool) (calls : List (StateCall PT)) :
    (∀ k, k ∈ (StateCall.run slice_hash true (ArrayAggAggregateState.init PT, mem_pool)
        calls).1.set.keys ↔ ∃ c ∈ calls, k ∈ c.values_read.map (key_of slice_hash PT)) ∧
    (StateCall.run slice_hash true (ArrayAggAggregateState.init PT, mem_pool)
      calls).1.set.keys.Nodup ∧
    (StateCall.run slice_hash true (ArrayAggAggregateState.init PT, mem_pool)
      calls).1.data_column = [] ∧
    (∀ k ∈ (StateCall.run slice_hash true (ArrayAggAggregateState.init PT, mem_pool)
        calls).1.set.keys, key_of slice_hash PT (value_of PT k) = k) := by
  obtain ⟨h1, h2, h3⟩ := run_distinct_keys slice_hash PT calls
    (ArrayAggAggregateState.init PT, mem_pool)
  have hmem : ∀ k, k ∈ (StateCall.run slice_hash true (ArrayAggAggregateState.init PT, mem_pool)
      calls).1.set.keys ↔ ∃ c ∈ calls, k ∈ c.values_read.map (key_of slice_hash PT) := by
    intro k
    rw [h1 k]
    simp [ArrayAggAggregateState.init, FlatHashSet.empty]
  refine ⟨hmem, h2 (by simp [ArrayAggAggregateState.init, FlatHashSet.empty]), h3, ?_⟩
  intro k hk
  obtain ⟨c, _, hkc⟩ := (hmem k).mp hk
  obtain ⟨v, _, rfl⟩ := List.mem_map.mp hkc
  rw [value_of_key_of]

theorem mem_values_of_keys (slice_hash : Slice → Nat) (PT : LogicalType)
    (keys : List (KeyType PT)) (values : List (RunTimeCppType PT))
    (hmem : ∀ k, k ∈ keys ↔ k ∈ values.map (key_of slice_hash PT)) (v : RunTimeCppType PT) :
    v ∈ keys.map (value_of PT) ↔ v ∈ values := by
  constructor
  · intro hv
    obtain ⟨k, hk, rfl⟩ := List.mem_map.mp hv
    obtain ⟨w, hw, rfl⟩ := List.mem_map.mp ((hmem k).mp hk)
    rw [value_of_key_of]; exact hw
  · intro hv
    refine List.mem_map.mpr ⟨key_of slice_hash PT v, ?_, value_of_key_of slice_hash PT v⟩
    exact (hmem _).mpr (List.mem_map.mpr ⟨v, hv, rfl⟩)

theorem nodup_values_of_keys (slice_hash : Slice → Nat) (PT : LogicalType)
    (keys : List (KeyType PT)) (hn : keys.Nodup)
    (hinv : ∀ k ∈ keys, key_of slice_hash PT (value_of PT k) = k) :
    (keys.map (value_of PT)).Nodup := by
  apply List.Nodup.map_on _ hn
  intro a ha b hb hab
  rw [← hinv a ha, ← hinv b hb, hab]

/-- Claim C10.  Distinct simple state, fixed-width or string: from the empty
state, after any sequence of calls that read inside their columns (`update`
calls in particular), the first `get_data_column` returns a sequence without
duplicates whose elements are exactly the values applied, so its length is the
number of distinct values applied. -/
theorem distinct_state_first_get_data_column (slice_hash : Slice → Nat) (PT : LogicalType)
    (mem_pool : MemPool) (order : IterationOrder (KeyType PT)) (calls : List (StateCall PT))
    (hcalls : ∀ c ∈ calls, c.in_range) :
    (((StateCall.run slice_hash true (ArrayAggAggregateState.init PT, mem_pool)
        calls).1.get_data_column true order).data_column).Nodup ∧
    (∀ v, v ∈ ((StateCall.run slice_hash true (ArrayAggAggregateState.init PT, mem_pool)
        calls).1.get_data_column true order).data_column ↔
      v ∈ calls.flatMap StateCall.values_applied) ∧
    (((StateCall.run slice_hash true (ArrayAggAggregateState.init PT, mem_pool)
        calls).1.get_data_column true order).data_column).length =
      (calls.flatMap StateCall.values_applied).dedup.length := by
  obtain ⟨hmem, hnodup, hdata, hinv⟩ := run_distinct_from_init slice_hash PT mem_pool calls
  rw [get_data_column_distinct order _ hdata]
  generalize (StateCall.run slice_hash true (ArrayAggAggregateState.init PT, mem_pool)
    calls).1.set.keys = keys at hmem hnodup hinv
  have hperm := order.perm keys
  have hmem' : ∀ k, k ∈ order.iterate keys ↔
      k ∈ (calls.flatMap StateCall.values_applied).map (key_of slice_hash PT) := by
    intro k
    rw [hperm.mem_iff, hmem k]
    simp only [List.mem_map, List.mem_flatMap]
    constructor
    · rintro ⟨c, hc, v, hv, rfl⟩
      exact ⟨v, ⟨c, hc, by rw [← values_read_eq c (hcalls c hc)]; exact hv⟩, rfl⟩
    · rintro ⟨v, ⟨c, hc, hv⟩, rfl⟩
      exact ⟨c, hc, v, by rw [values_read_eq c (hcalls c hc)]; exact hv, rfl⟩
  have hn : ((order.iterate keys).map (value_of PT)).Nodup :=
    nodup_values_of_keys slice_hash PT _ (hperm.nodup_iff.mpr hnodup)
      (fun k hk => hinv k (hperm.mem_iff.mp hk))
  have hv := mem_values_of_keys slice_hash PT _ _ hmem'
  refine ⟨hn, hv, ?_⟩
  apply List.Perm.length_eq
  rw [List.perm_ext_iff_of_nodup hn (List.nodup_dedup _)]
  intro v
  rw [hv v, List.mem_dedup]


theorem get_data_column_null_count {PT : LogicalType} (is_distinct : Bool)
    (order : IterationOrder (KeyType PT)) (s : ArrayAggAggregateState PT) :
    (s.get_data_column is_distinct order).null_count = s.null_count := by
  unfold ArrayAggAggregateState.get_data_column
  dsimp only
  split_ifs <;> rfl

/-- Reading back, in distinct mode, the cell that `serialize_to_column` wrote:
the loop of `update` reads the serialized values and the nulls counted are the
serialized nulls. -/
theorem serialized_cell_read {PT : LogicalType} (is_distinct : Bool)
    (order : IterationOrder (KeyType PT)) (s : ArrayAggAggregateState PT)
    (column : ArrayColumn (RunTimeCppType PT)) (hwf : column.well_formed) :
    (StateCall.merge (ArrayAggAggregateFunction.serialize_to_column is_distinct order s
        column).2 column.size).values_read = (s.get_data_column is_distinct order).data_column ∧
    (StateCall.merge (ArrayAggAggregateFunction.serialize_to_column is_distinct order s
        column).2 column.size).nulls_applied = s.null_count := by
  have hos := appended_cell_offset_size column (s.get_data_column is_distinct order).data_column
    (s.get_data_column is_distinct order).null_count hwf
  have hnull := appended_cell_null_count column
    (s.get_data_column is_distinct order).data_column
    (s.get_data_column is_distinct order).null_count
  have hdata := appended_cell_data column (s.get_data_column is_distinct order).data_column
    (s.get_data_column is_distinct order).null_count
  simp only [StateCall.values_read, StateCall.nulls_applied,
    ArrayAggAggregateFunction.serialize_to_column, hos, hnull, Nat.add_sub_cancel]
  refine ⟨?_, get_data_column_null_count is_distinct order s⟩
  rw [loop_values_eq _ _ _ _ ?_, hdata]
  rw [NullableColumn.get_data_column, List.length_map, append_array_element_elements]
  simp only [List.length_append, List.length_map, List.length_replicate]
  omega

/-- Claim C9.  Merge associativity of the distinct simple state: for all cells
`A`, `B`, `C`, merging `A`, `B`, `C` into one state (`L`) and merging `A`, `B`
into a separate state, serializing it into a well-formed array column and
merging that cell and then `C` into a fresh state (`R`) give the same set of
keys (the key lists are permutations of each other), the same `null_count`,
and the same elements from `get_data_column` up to order. -/
theorem distinct_merge_associative (slice_hash : Slice → Nat) (PT : LogicalType)
    (pool0 pool1 pool2 : MemPool) (order order1 order2 : IterationOrder (KeyType PT))
    (A B C : ArrayColumn (RunTimeCppType PT)) (a b c : Nat)
    (column : ArrayColumn (RunTimeCppType PT)) (hwf : column.well_formed) :
    let L := (StateCall.run slice_hash true (ArrayAggAggregateState.init PT, pool0)
      [StateCall.merge A a, StateCall.merge B b, StateCall.merge C c]).1
    let T := (StateCall.run slice_hash true (ArrayAggAggregateState.init PT, pool1)
      [StateCall.merge A a, StateCall.merge B b]).1
    let AB := (ArrayAggAggregateFunction.serialize_to_column true order T column).2
    let R := (StateCall.run slice_hash true (ArrayAggAggregateState.init PT, pool2)
      [StateCall.merge AB column.size, StateCall.merge C c]).1
    L.set.keys.Perm R.set.keys ∧ L.null_count = R.null_count ∧
      (L.get_data_column true order1).data_column.Perm
        (R.get_data_column true order2).data_column := by
  intro L T AB R
  obtain ⟨hmemL, hnodupL, hdataL, _⟩ := run_distinct_from_init slice_hash PT pool0
    [StateCall.merge A a, StateCall.merge B b, StateCall.merge C c]
  obtain ⟨hmemT, hnodupT, hdataT, hinvT⟩ := run_distinct_from_init slice_hash PT pool1
    [StateCall.merge A a, StateCall.merge B b]
  obtain ⟨hmemR, hnodupR, hdataR, _⟩ := run_distinct_from_init slice_hash PT pool2
    [StateCall.merge AB column.size, StateCall.merge C c]
  obtain ⟨hread, hnulls⟩ := serialized_cell_read true order T column hwf
  have hncL := run_distinct_null_count slice_hash PT
    [StateCall.merge A a, StateCall.merge B b, StateCall.merge C c]
    (ArrayAggAggregateState.init PT, pool0)
  have hncT := run_distinct_null_count slice_hash PT
    [StateCall.merge A a, StateCall.merge B b] (ArrayAggAggregateState.init PT, pool1)
  have hncR := run_distinct_null_count slice_hash PT
    [StateCall.merge AB column.size, StateCall.merge C c]
    (ArrayAggAggregateState.init PT, pool2)
  have hkeys : L.set.keys.Perm R.set.keys := by
    rw [List.perm_ext_iff_of_nodup hnodupL hnodupR]
    intro k
    rw [hmemL k, hmemR k]
    have hAB : k ∈ (StateCall.merge AB column.size).values_read.map (key_of slice_hash PT) ↔
        k ∈ T.set.keys := by
      rw [hread, get_data_column_distinct order T hdataT, List.map_map]
      constructor
      · intro hk
        obtain ⟨k', hk', rfl⟩ := List.mem_map.mp hk
        have hk'' := (order.perm _).mem_iff.mp hk'
        simp only [Function.comp_apply]
        rw [hinvT k' hk'']; exact hk''
      · intro hk
        exact List.mem_map.mpr ⟨k, (order.perm _).mem_iff.mpr hk, hinvT k hk⟩
    simp only [List.mem_cons, List.mem_singleton, List.not_mem_nil, or_false,
      exists_eq_or_imp, exists_eq_left, hAB]
    rw [hmemT k]
    simp only [List.mem_cons, List.mem_singleton, List.not_mem_nil, or_false,
      exists_eq_or_imp, exists_eq_left, or_assoc]
  refine ⟨hkeys, ?_, ?_⟩
  · show L.null_count = R.null_count
    rw [hncL, hncR]
    simp only [List.mem_cons, List.mem_singleton, List.not_mem_nil, or_false,
      exists_eq_or_imp, exists_eq_left, hnulls, ArrayAggAggregateState.init]
    show _ = if (0 < T.null_count ∨ _) then 1 else 0
    rw [hncT]
    simp only [List.mem_cons, List.mem_singleton, List.not_mem_nil, or_false,
      exists_eq_or_imp, exists_eq_left, ArrayAggAggregateState.init]
    by_cases hA : 0 < (StateCall.merge A a).nulls_applied <;>
      by_cases hB : 0 < (StateCall.merge B b).nulls_applied <;>
      by_cases hC : 0 < (StateCall.merge C c).nulls_applied <;>
      simp [hA, hB, hC]
  · rw [get_data_column_distinct order1 L hdataL, get_data_column_distinct order2 R hdataR]
    apply List.Perm.map
    exact ((order1.perm _).trans hkeys).trans (order2.perm _).symm

/-! ## The ordered variant: the error paths and the frame of `finalize_to_column` -/

theorem set_error_has_error (ctx : FunctionContext) (msg : String) :
    (ctx.set_error msg).has_error = true := by
  unfold FunctionContext.set_error FunctionContext.has_error
  split
  · assumption
  · rfl

namespace ArrayAggAggregateFunctionV2

theorem defer_of_error {V : Type} (r : Finalized V) (h : r.ctx.has_error = true) :
    defer r = { r with dst := r.dst.append_default } := by
  unfold defer
  simp [h]

theorem defer_state {V : Type} (r : Finalized V) : (defer r).state = r.state := by
  unfold defer
  split <;> rfl

theorem defer_ctx {V : Type} (r : Finalized V) : (defer r).ctx = r.ctx := by
  unfold defer
  split <;> rfl

theorem order_values_cancelled {V : Type} [Inhabited V] (sort : SortUtility V)
    (ctx : FunctionContext) (state : ArrayAggAggregateStateV2 V)
    (hN : 2 ≤ state.data_columns.length) (hcancel : ctx.cancelled = true) :
    order_values sort ctx state =
      (ctx.set_error "array_agg detects cancelled.", state.release_order_by_columns, none) := by
  have hgt : state.data_columns.length > 1 := hN
  unfold order_values
  simp only [hgt, hcancel, if_true]

theorem order_values_failed {V : Type} [Inhabited V] (sort : SortUtility V)
    (ctx : FunctionContext) (state : ArrayAggAggregateStateV2 V)
    (hN : 2 ≤ state.data_columns.length) (hcancel : ctx.cancelled = false)
    (hfail : (sort ctx.cancelled (state.data_columns.drop 1)
      ⟨ctx.is_asc_order, ctx.nulls_first⟩).1.ok = false) :
    order_values sort ctx state =
      (ctx.set_error (sort ctx.cancelled (state.data_columns.drop 1)
        ⟨ctx.is_asc_order, ctx.nulls_first⟩).1.to_string,
        state.release_order_by_columns, none) := by
  have hgt : state.data_columns.length > 1 := hN
  unfold order_values
  simp only [hgt, hfail, if_true, Bool.not_false]
  simp only [hcancel, Bool.false_eq_true, if_false]

theorem order_values_single {V : Type} [Inhabited V] (sort : SortUtility V)
    (ctx : FunctionContext) (state : ArrayAggAggregateStateV2 V)
    (hone : state.data_columns.length ≤ 1) :
    order_values sort ctx state = (ctx, state, some (state.data_columns.getD 0 [])) := by
  have hgt : ¬ state.data_columns.length > 1 := by omega
  unfold order_values
  simp only [hgt, if_false]

theorem order_values_state {V : Type} [Inhabited V] (sort : SortUtility V)
    (ctx : FunctionContext) (state : ArrayAggAggregateStateV2 V)
    (hN : 2 ≤ state.data_columns.length) :
    (order_values sort ctx state).2.1 = state.release_order_by_columns := by
  have hgt : state.data_columns.length > 1 := hN
  unfold order_values
  simp only [hgt, if_true]
  split_ifs <;> rfl

/-- Claim C11.  `finalize_to_column` with a destination whose data column is
not an array: the shape error is reported (the context holds an error after
the call), exactly one default value is appended to the destination, and the
state is the state before the call. -/
theorem finalize_to_column_not_array {V : Type} [Inhabited V]
    (sort : SortUtility V) (fnv_hash : Row V → Nat → Nat) (equals : Row V → Row V → Bool)
    (ctx : FunctionContext) (state : ArrayAggAggregateStateV2 V) (dst : OutColumn V)
    (hshape : dst.is_array = false) :
    (finalize_to_column sort fnv_hash equals ctx state dst).ctx =
      ctx.set_error ("The output column of array_agg2 finalize_to_column() is not array, but is "
        ++ dst.get_name) ∧
    (finalize_to_column sort fnv_hash equals ctx state dst).ctx.has_error = true ∧
    (finalize_to_column sort fnv_hash equals ctx state dst).dst = dst.append_default ∧
    (finalize_to_column sort fnv_hash equals ctx state dst).dst.size = dst.size + 1 ∧
    (finalize_to_column sort fnv_hash equals ctx state dst).state = state := by
  have hfin : finalize_to_column sort fnv_hash equals ctx state dst =
      ⟨ctx.set_error ("The output column of " ++ get_name ++
        " finalize_to_column() is not array, but is " ++ dst.get_name), state,
        dst.append_default⟩ := by
    unfold finalize_to_column
    simp only [hshape, Bool.not_false, if_true]
    rw [defer_of_error _ (set_error_has_error _ _)]
  rw [hfin]
  refine ⟨rfl, set_error_has_error _ _, rfl, ?_, rfl⟩
  cases dst with
  | array col => simp [OutColumn.is_array] at hshape
  | nullable_array col nulls => simp [OutColumn.is_array] at hshape
  | other name n => rfl

/-- Claim C12.  `finalize_to_column` on an array destination with `N >= 2`
columns when the cancellation flag is set after the sort: the cancellation
error is reported and the destination receives the default value only; its
elements are the elements before the call. -/
theorem finalize_to_column_cancelled {V : Type} [Inhabited V]
    (sort : SortUtility V) (fnv_hash : Row V → Nat → Nat) (equals : Row V → Row V → Bool)
    (ctx : FunctionContext) (state : ArrayAggAggregateStateV2 V) (dst : OutColumn V)
    (harr : dst.is_array = true) (hN : 2 ≤ state.data_columns.length)
    (hcancel : ctx.cancelled = true) :
    (finalize_to_column sort fnv_hash equals ctx state dst).ctx =
      ctx.set_error "array_agg detects cancelled." ∧
    (finalize_to_column sort fnv_hash equals ctx state dst).ctx.has_error = true ∧
    (finalize_to_column sort fnv_hash equals ctx state dst).dst = dst.append_default ∧
    (finalize_to_column sort fnv_hash equals ctx state dst).dst.array_col.map
      ArrayColumn.elements = dst.array_col.map ArrayColumn.elements := by
  have hfin : finalize_to_column sort fnv_hash equals ctx state dst =
      ⟨ctx.set_error "array_agg detects cancelled.", state.release_order_by_columns,
        dst.append_default⟩ := by
    unfold finalize_to_column
    simp only [harr, Bool.not_true, Bool.false_eq_true, if_false,
      order_values_cancelled sort ctx state hN hcancel]
    rw [defer_of_error _ (set_error_has_error _ _)]
  rw [hfin]
  exact ⟨rfl, set_error_has_error _ _, rfl, append_default_elements dst⟩

/-- Claim C13.  `finalize_to_column` on an array destination with `N >= 2`
columns, no cancellation and a sort utility that returns a failure status: that
status is reported as the error and the destination receives the default value
only; its elements are the elements before the call. -/
theorem finalize_to_column_sort_failed {V : Type} [Inhabited V]
    (sort : SortUtility V) (fnv_hash : Row V → Nat → Nat) (equals : Row V → Row V → Bool)
    (ctx : FunctionContext) (state : ArrayAggAggregateStateV2 V) (dst : OutColumn V)
    (harr : dst.is_array = true) (hN : 2 ≤ state.data_columns.length)
    (hcancel : ctx.cancelled = false)
    (hfail : (sort ctx.cancelled (state.data_columns.drop 1)
      ⟨ctx.is_asc_order, ctx.nulls_first⟩).1.ok = false) :
    (finalize_to_column sort fnv_hash equals ctx state dst).ctx =
      ctx.set_error (sort ctx.cancelled (state.data_columns.drop 1)
        ⟨ctx.is_asc_order, ctx.nulls_first⟩).1.to_string ∧
    (finalize_to_column sort fnv_hash equals ctx state dst).ctx.has_error = true ∧
    (finalize_to_column sort fnv_hash equals ctx state dst).dst = dst.append_default ∧
    (finalize_to_column sort fnv_hash equals ctx state dst).dst.array_col.map
      ArrayColumn.elements = dst.array_col.map ArrayColumn.elements := by
  have hfin : finalize_to_column sort fnv_hash equals ctx state dst =
      ⟨ctx.set_error (sort ctx.cancelled (state.data_columns.drop 1)
        ⟨ctx.is_asc_order, ctx.nulls_first⟩).1.to_string, state.release_order_by_columns,
        dst.append_default⟩ := by
    unfold finalize_to_column
    simp only [harr, Bool.not_true, Bool.false_eq_true, if_false,
      order_values_failed sort ctx state hN hcancel hfail]
    rw [defer_of_error _ (set_error_has_error _ _)]
  rw [hfin]
  exact ⟨rfl, set_error_has_error _ _, rfl, append_default_elements dst⟩

/-- Claim C14.  `finalize_to_column` on a state of `N >= 2` columns and an
array destination: after the call the state holds exactly one column, the
previous `columns[0]`, whatever the context, the sort utility and its result
(success, failure or cancellation). -/
theorem finalize_to_column_releases_order_by {V : Type} [Inhabited V]
    (sort : SortUtility V) (fnv_hash : Row V → Nat → Nat) (equals : Row V → Row V → Bool)
    (ctx : FunctionContext) (state : ArrayAggAggregateStateV2 V) (dst : OutColumn V)
    (harr : dst.is_array = true) (hN : 2 ≤ state.data_columns.length) :
    (finalize_to_column sort fnv_hash equals ctx state dst).state.data_columns =
      [state.data_columns.getD 0 []] := by
  have hgt : state.data_columns.length > 1 := hN
  have hst := order_values_state sort ctx state hN
  have hrel : state.release_order_by_columns.data_columns = [state.data_columns.getD 0 []] := by
    unfold ArrayAggAggregateStateV2.release_order_by_columns
    cases hc : state.data_columns with
    | nil => rw [hc] at hN; simp at hN
    | cons a rest => rfl
  unfold finalize_to_column
  rw [defer_state]
  simp only [harr, Bool.not_true, Bool.false_eq_true, if_false, hgt, if_true]
  rcases hov : order_values sort ctx state with ⟨ctx1, state1, _ | res⟩
  · rw [hov] at hst
    simp only at hst ⊢
    rw [hst, hrel]
  · rw [hov] at hst
    simp only at hst ⊢
    split <;> simp only <;> rw [hst, hrel]

end ArrayAggAggregateFunctionV2

/-- A cell written at the end of a well-formed array column is read back at the
row it was given, whatever offsets are appended after it. -/
theorem cell_of_appended {V : Type} (a : ArrayColumn V) (rows : NullableColumn V)
    (more : List Nat) (hwf : a.well_formed) :
    (⟨a.elements ++ rows, a.offsets ++ [a.offsets_back + rows.length] ++ more⟩ :
      ArrayColumn V).cell a.size = rows ∧
    ((⟨a.elements ++ rows, a.offsets ++ [a.offsets_back + rows.length] ++ more⟩ :
      ArrayColumn V).get_element_offset_size a.size).2 = rows.length := by
  obtain ⟨hhead, _, hback⟩ := hwf
  have hne : a.offsets ≠ [] := by
    intro h; rw [h] at hhead; simp at hhead
  have hpos : 0 < a.offsets.length := List.length_pos.mpr hne
  have h1 : (a.offsets ++ [a.offsets_back + rows.length] ++ more).getD
      (a.offsets.length - 1) 0 = a.offsets_back := by
    rw [List.append_assoc, List.getD_eq_getElem?_getD, List.getElem?_append_left (by omega),
      ← List.getD_eq_getElem?_getD]
    unfold ArrayColumn.offsets_back
    rw [List.getD_eq_getElem?_getD, List.getLastD_eq_getLast?, List.getLast?_eq_getElem?]
  have h2 : (a.offsets ++ [a.offsets_back + rows.length] ++ more).getD
      (a.offsets.length - 1 + 1) 0 = a.offsets_back + rows.length := by
    have : a.offsets.length - 1 + 1 = a.offsets.length := by omega
    rw [this, List.append_assoc, List.getD_eq_getElem?_getD,
      List.getElem?_append_right (le_refl _)]
    simp
  have hos : (⟨a.elements ++ rows, a.offsets ++ [a.offsets_back + rows.length] ++ more⟩ :
      ArrayColumn V).get_element_offset_size a.size = (a.elements.length, rows.length) := by
    simp only [ArrayColumn.get_element_offset_size, ArrayColumn.size]
    rw [h1, h2, hback]
    congr 1
    omega
  refine ⟨?_, by rw [hos]⟩
  unfold ArrayColumn.cell
  rw [hos]
  simp only [List.drop_left, List.take_length]

namespace ArrayAggAggregateFunctionV2

theorem append_result_array_col {V : Type} [Inhabited V] (dst : OutColumn V)
    (col : ArrayColumn V) (rows : NullableColumn V) (hdst : dst.array_col = some col) :
    (append_result dst rows rows.length).array_col =
      some ⟨col.elements ++ rows, col.offsets ++ [col.offsets_back + rows.length]⟩ := by
  cases dst <;> simp only [OutColumn.array_col, Option.some.injEq, reduceCtorEq] at hdst <;>
    subst hdst <;>
    simp [append_result, OutColumn.array_col, NullableColumn.only_null,
      NullableColumn.append_rows]

theorem append_default_array_col {V : Type} (dst : OutColumn V) (col : ArrayColumn V)
    (hdst : dst.array_col = some col) :
    dst.append_default.array_col = some ⟨col.elements, col.offsets ++ [col.offsets_back]⟩ := by
  cases dst <;> simp only [OutColumn.array_col, Option.some.injEq, reduceCtorEq] at hdst <;>
    subst hdst <;> rfl

/-- Claim C15.  `finalize_to_column` with a single column, not distinct, on a
well-formed array destination: for every sort utility, every directive and
every value of the cancellation flag, the cell written at the end of the
destination is `columns[0]` in its order and its length is the size of
`columns[0]`. -/
theorem finalize_to_column_single_column {V : Type} [Inhabited V]
    (sort : SortUtility V) (fnv_hash : Row V → Nat → Nat) (equals : Row V → Row V → Bool)
    (ctx : FunctionContext) (state : ArrayAggAggregateStateV2 V) (dst : OutColumn V)
    (col : ArrayColumn V) (hdst : dst.array_col = some col) (hwf : col.well_formed)
    (hone : state.data_columns.length = 1) (hdistinct : ctx.is_distinct = false) :
    ∃ col', (finalize_to_column sort fnv_hash equals ctx state dst).dst.array_col = some col' ∧
      col'.elements = col.elements ++ state.data_columns.getD 0 [] ∧
      col'.cell col.size = state.data_columns.getD 0 [] ∧
      (col'.get_element_offset_size col.size).2 = (state.data_columns.getD 0 []).length := by
  have harr : dst.is_array = true := by
    cases dst <;> simp [OutColumn.array_col] at hdst <;> rfl
  have hfin : finalize_to_column sort fnv_hash equals ctx state dst =
      defer ⟨ctx, state, append_result dst (state.data_columns.getD 0 [])
        (state.data_columns.getD 0 []).length⟩ := by
    unfold finalize_to_column
    simp only [harr, Bool.not_true, Bool.false_eq_true, if_false,
      order_values_single sort ctx state (le_of_eq hone), hdistinct]
  rw [hfin]
  have hres := append_result_array_col dst col (state.data_columns.getD 0 []) hdst
  by_cases herr : ctx.has_error = true
  · rw [defer_of_error _ herr]
    have hcell := cell_of_appended col (state.data_columns.getD 0 [])
      [(⟨col.elements ++ state.data_columns.getD 0 [],
        col.offsets ++ [col.offsets_back + (state.data_columns.getD 0 []).length]⟩ :
        ArrayColumn V).offsets_back] hwf
    exact ⟨_, append_default_array_col _ _ hres, rfl, hcell.1, hcell.2⟩
  · have hdefer : defer (⟨ctx, state, append_result dst (state.data_columns.getD 0 [])
        (state.data_columns.getD 0 []).length⟩ : Finalized V) =
        ⟨ctx, state, append_result dst (state.data_columns.getD 0 [])
          (state.data_columns.getD 0 []).length⟩ := by
      unfold defer
      simp only [herr, Bool.false_eq_true, if_false]
    rw [hdefer]
    have hcell := cell_of_appended col (state.data_columns.getD 0 []) [] hwf
    rw [List.append_nil] at hcell
    exact ⟨_, hres, rfl, hcell.1, hcell.2⟩

end ArrayAggAggregateFunctionV2

/-! ## The ordered variant: `update`, `merge` and the intermediate format -/

/-- A loop that rewrites element `j` of a list with `f j`, for `j < n`, gives
the list whose elements before `n` are rewritten. -/
theorem getElem?_foldl_modify {α : Type} (f : Nat → α → α) (n : Nat) (l : List α) (i : Nat) :
    ((List.range n).foldl (fun acc j => acc.modify (f j) j) l)[i]? =
      if i < n then (l[i]?).map (f i) else l[i]? := by
  induction n with
  | zero => simp
  | succ n ih =>
    rw [List.range_succ, List.foldl_append]
    simp only [List.foldl_cons, List.foldl_nil]
    rw [List.getElem?_modify, ih]
    by_cases hin : n = i
    · subst hin
      simp
    · by_cases hlt : i < n
      · have : i < n + 1 := by omega
        simp [hin, hlt, this]
      · have : ¬ i < n + 1 := by omega
        simp [hin, hlt, this]

theorem zipWith_of_getElem? {α β : Type} (f : α → β → α) (old new : List α) (src : List β)
    (d : β) (hlen : src.length = old.length)
    (h : ∀ i, new[i]? = (old[i]?).map (fun a => f a (src.getD i d))) :
    new = List.zipWith f old src := by
  apply List.ext_getElem?
  intro i
  rw [h i, List.getElem?_zipWith']
  by_cases hi : i < old.length
  · have hi' : i < src.length := by omega
    simp [List.getElem?_eq_getElem hi, List.getElem?_eq_getElem hi', List.getD_eq_getElem?_getD]
  · have h1 : old[i]? = none := List.getElem?_eq_none (by omega)
    simp [h1]

theorem take_one_drop {α : Type} (l : List α) (n : Nat) (h : n < l.length) (d : α) :
    (l.drop n).take 1 = [l.getD n d] := by
  rw [List.drop_eq_getElem_cons h, List.take_succ_cons, List.take_zero,
    List.getD_eq_getElem?_getD, List.getElem?_eq_getElem h, Option.getD_some]

namespace ArrayAggAggregateFunctionV2

/-- The function that one round of the loop of `update` applies to internal
column `i`, for a source column that has the row. -/
theorem update_round {V : Type} [Inhabited V] (column : Column V) (row_num : Nat)
    (hrow : row_num < column.size) (c : NullableColumn V) :
    (if (column.is_nullable && column.is_null row_num) || column.only_null then
        c.append_nulls 1
      else if column.is_constant then Column.append_to c column.data_column 0 1
      else Column.append_to c column row_num 1) =
      c ++ [Row.of_datum (column.get row_num)] := by
  cases column with
  | data vs =>
    simp only [Column.size] at hrow
    simp only [Column.is_nullable, Column.only_null, Column.is_constant, Bool.false_and,
      Bool.or_false, Bool.false_eq_true, if_false, Column.append_to,
      NullableColumn.append_data, Column.get, Row.of_datum, take_one_drop vs row_num hrow default,
      List.map_cons, List.map_nil]
  | nullable rs =>
    simp only [Column.size] at hrow
    simp only [Column.is_nullable, Column.is_null, Column.only_null, Column.is_constant,
      Bool.true_and, Bool.or_false, Bool.false_eq_true, if_false, Column.get]
    by_cases hnull : (rs.getD row_num default).is_null = true
    · simp only [hnull, if_true, NullableColumn.append_nulls, Row.of_datum,
        List.replicate_one]
    · have hfalse : (rs.getD row_num default).is_null = false := by simpa using hnull
      simp only [hnull, if_false, Column.append_to, NullableColumn.append_rows,
        take_one_drop rs row_num hrow default, Row.of_datum]
      cases hr : rs.getD row_num default with
      | mk v n =>
        rw [hr] at hfalse
        simp only at hfalse
        subst hfalse
        simp only [Bool.false_eq_true, if_false]
  | const v n =>
    cases v with
    | none =>
      simp only [Column.only_null, Bool.or_true, if_true, NullableColumn.append_nulls,
        Column.get, Row.of_datum, List.replicate_one]
    | some v =>
      simp [Column.is_nullable, Column.only_null, Column.is_constant, Column.data_column,
        Column.append_to, NullableColumn.append_data, Column.get, Row.of_datum]

theorem update_from_content {V : Type} [Inhabited V] (columns : List (Column V))
    (row_num N : Nat) (old : List (NullableColumn V))
    (hcols : ∀ i, i < N → row_num < (columns.getD i (Column.data [])).size)
    (m : Nat) : ∀ (k : Nat) (ctx : FunctionContext) (state : ArrayAggAggregateStateV2 V),
      k + m = N →
      (∀ i, state.data_columns[i]? = if i < k then
        (old[i]?).map (fun c => c ++ [Row.of_datum ((columns.getD i (Column.data [])).get row_num)])
        else old[i]?) →
      (update_from columns row_num (List.range' k m) ctx state).1 = ctx ∧
      ∀ i, (update_from columns row_num (List.range' k m) ctx state).2.data_columns[i]? =
        if i < N then
          (old[i]?).map (fun c => c ++ [Row.of_datum ((columns.getD i (Column.data [])).get row_num)])
        else old[i]? := by
  induction m with
  | zero =>
    intro k ctx state hk h
    have : k = N := by omega
    subst this
    exact ⟨rfl, h⟩
  | succ m ih =>
    intro k ctx state hk h
    have hkN : k < N := by omega
    have hsz := hcols k hkN
    have hstep : ∀ (g : NullableColumn V → NullableColumn V),
        (∀ c, g c = c ++ [Row.of_datum ((columns.getD k (Column.data [])).get row_num)]) →
        ∀ i, (state.data_columns.modify g k)[i]? = if i < k + 1 then
          (old[i]?).map (fun c => c ++ [Row.of_datum ((columns.getD i (Column.data [])).get row_num)])
          else old[i]? := by
      intro g hg i
      rw [List.getElem?_modify, h i]
      by_cases hki : k = i
      · subst hki
        have hgf : (fun a => g a) = (fun c => c ++ [Row.of_datum
            ((columns.getD k (Column.data [])).get row_num)]) := funext hg
        simp [hgf]
      · by_cases hlt : i < k
        · have : i < k + 1 := by omega
          simp [hki, hlt, this]
        · have : ¬ i < k + 1 := by omega
          simp [hki, hlt, this]
    have hround := update_round (columns.getD k (Column.data [])) row_num hsz
    rw [List.range'_succ]
    unfold update_from
    simp only [Nat.not_le.mpr hsz, if_false]
    split_ifs with h1 h2
    · refine ih (k + 1) ctx _ (by omega) (hstep _ ?_)
      intro c
      have := hround c
      simp only [h1, if_true] at this
      exact this
    · refine ih (k + 1) ctx _ (by omega) (hstep _ ?_)
      intro c
      have := hround c
      simp only [h1, h2, if_true, if_false] at this
      exact this
    · refine ih (k + 1) ctx _ (by omega) (hstep _ ?_)
      intro c
      have := hround c
      simp only [h1, h2, if_false] at this
      exact this

/-- Claim C16.  `update(row)` when each of the `N` source columns has a row
`row`: no error is set and internal column `i` becomes its previous content
followed by one row, the datum of source `i` at `row`: a null marker when the
source is null there (a null row of a nullable column, or a constant null), the
constant for a constant column, the value at `row` otherwise. -/
theorem update_appends_one_row {V : Type} [Inhabited V] (ctx : FunctionContext)
    (columns : List (Column V)) (state : ArrayAggAggregateStateV2 V) (row_num : Nat)
    (hargs : columns.length = ctx.num_args) (hstate : state.data_columns.length = ctx.num_args)
    (hrows : ∀ c ∈ columns, row_num < c.size) :
    (update ctx columns state row_num).1 = ctx ∧
    (update ctx columns state row_num).2.data_columns =
      List.zipWith (fun c source => c ++ [Row.of_datum (source.get row_num)])
        state.data_columns columns := by
  have hcols : ∀ i, i < ctx.num_args → row_num < (columns.getD i (Column.data [])).size := by
    intro i hi
    have hi' : i < columns.length := by omega
    rw [List.getD_eq_getElem?_getD, List.getElem?_eq_getElem hi', Option.getD_some]
    exact hrows _ (List.getElem_mem hi')
  have h := update_from_content columns row_num ctx.num_args state.data_columns hcols
    ctx.num_args 0 ctx state (by omega) (by intro i; simp)
  unfold update
  rw [List.range_eq_range']
  refine ⟨h.1, ?_⟩
  apply zipWith_of_getElem? (fun c (source : Column V) => c ++ [Row.of_datum (source.get row_num)])
    _ _ _ (Column.data []) (by omega)
  intro i
  rw [h.2 i]
  by_cases hi : i < ctx.num_args
  · simp only [hi, if_true]
  · have : state.data_columns[i]? = none := List.getElem?_eq_none (by omega)
    simp [hi, this]

theorem merge_data_columns {V : Type} [Inhabited V] (input_columns : List (ArrayColumn V))
    (row_num : Nat) (is : List Nat) (state : ArrayAggAggregateStateV2 V) :
    (is.foldl (fun st i =>
        let array_column := input_columns.getD i ArrayColumn.empty
        let offsets := array_column.offsets
        st.update (Column.nullable array_column.elements) i (offsets.getD row_num 0)
          (offsets.getD (row_num + 1) 0 - offsets.getD row_num 0)) state).data_columns =
      is.foldl (fun acc i => acc.modify
        (fun c => c ++ (input_columns.getD i ArrayColumn.empty).cell row_num) i)
        state.data_columns := by
  induction is generalizing state with
  | nil => rfl
  | cons i rest ih =>
    simp only [List.foldl_cons]
    rw [ih]
    rfl

theorem merge_getElem? {V : Type} [Inhabited V] (input_columns : List (ArrayColumn V))
    (state : ArrayAggAggregateStateV2 V) (row_num i : Nat) :
    (merge input_columns state row_num).data_columns[i]? =
      if i < input_columns.length then
        (state.data_columns[i]?).map
          (fun c => c ++ (input_columns.getD i ArrayColumn.empty).cell row_num)
      else state.data_columns[i]? := by
  unfold merge
  rw [merge_data_columns]
  exact getElem?_foldl_modify
    (fun i c => c ++ (input_columns.getD i ArrayColumn.empty).cell row_num) _ _ i

/-- Claim C17.  `merge(record, row)` for a record of `N` arrays whose cells at
`row` lie inside their arrays: internal column `i` becomes its previous content
followed by the elements of array `i` in `[offsets_i[row], offsets_i[row+1])`,
in order, for every `i < N`. -/
theorem merge_appends_cells {V : Type} [Inhabited V] (input_columns : List (ArrayColumn V))
    (state : ArrayAggAggregateStateV2 V) (row_num : Nat)
    (hlen : input_columns.length = state.data_columns.length)
    (_hcell : ∀ a ∈ input_columns, a.has_cell row_num) :
    (merge input_columns state row_num).data_columns =
      List.zipWith (fun c (a : ArrayColumn V) => c ++ a.cell row_num)
        state.data_columns input_columns := by
  apply zipWith_of_getElem? (fun c (a : ArrayColumn V) => c ++ a.cell row_num) _ _ _
    ArrayColumn.empty hlen
  intro i
  rw [merge_getElem?]
  by_cases hi : i < input_columns.length
  · simp only [hi, if_true]
  · have : state.data_columns[i]? = none := List.getElem?_eq_none (by omega)
    simp [hi, this]

theorem serialize_field_empty_cell {V : Type} [Inhabited V] (data_column : NullableColumn V)
    (field : ArrayField V) (hempty : field.array = ArrayColumn.empty) :
    (serialize_field data_column field).array.cell 0 = data_column := by
  simp [serialize_field, hempty, ArrayColumn.empty, ArrayColumn.cell,
    ArrayColumn.get_element_offset_size, ArrayColumn.offsets_back, NullableColumn.only_null,
    NullableColumn.append_rows]

theorem serialize_to_column_getElem? {V : Type} [Inhabited V]
    (state : ArrayAggAggregateStateV2 V) (dst : StructColumn V) (i : Nat) :
    (serialize_to_column state dst).fields[i]? =
      if i < dst.fields.length then
        (dst.fields[i]?).map (serialize_field (state.data_columns.getD i []))
      else dst.fields[i]? := by
  unfold serialize_to_column
  exact getElem?_foldl_modify (fun i field => serialize_field (state.data_columns.getD i []) field)
    _ _ i

theorem length_foldl_modify {α : Type} (f : Nat → α → α) (is : List Nat) (l : List α) :
    (is.foldl (fun acc j => acc.modify (f j) j) l).length = l.length := by
  induction is generalizing l with
  | nil => rfl
  | cons j rest ih =>
    rw [List.foldl_cons, ih, List.length_modify]

theorem serialize_to_column_length {V : Type} [Inhabited V]
    (state : ArrayAggAggregateStateV2 V) (dst : StructColumn V) :
    (serialize_to_column state dst).arrays.length = dst.fields.length := by
  unfold StructColumn.arrays serialize_to_column
  rw [List.length_map]
  exact length_foldl_modify
    (fun i field => serialize_field (state.data_columns.getD i []) field) _ _

/-- Claim C18.  Round trip of the ordered variant: for every state of `N`
columns, `serialize_to_column` into an empty record of `N` arrays followed by
the `merge` of row `0` of that record into the state created for `N` arguments
gives back the state, row for row with the null markers. -/
theorem serialize_merge_round_trip_ordered {V : Type} [Inhabited V] (ctx : FunctionContext)
    (state : ArrayAggAggregateStateV2 V) (dst : StructColumn V)
    (hstate : state.data_columns.length = ctx.num_args)
    (hfields : dst.fields.length = ctx.num_args)
    (hempty : ∀ f ∈ dst.fields, f.array = ArrayColumn.empty) :
    merge (serialize_to_column state dst).arrays (create ctx) 0 = state := by
  have hlen : (serialize_to_column state dst).arrays.length = ctx.num_args := by
    rw [serialize_to_column_length, hfields]
  have hcols : (merge (serialize_to_column state dst).arrays (create ctx) 0).data_columns =
      state.data_columns := by
    apply List.ext_getElem?
    intro i
    rw [merge_getElem?, hlen]
    by_cases hi : i < ctx.num_args
    · have hi1 : i < dst.fields.length := by omega
      have hi2 : i < state.data_columns.length := by omega
      have hcreate : (create ctx : ArrayAggAggregateStateV2 V).data_columns[i]? = some [] := by
        simp [create, hi]
      have hfield : (serialize_to_column state dst).arrays.getD i ArrayColumn.empty =
          (serialize_field (state.data_columns.getD i []) dst.fields[i]).array := by
        rw [List.getD_eq_getElem?_getD]
        unfold StructColumn.arrays
        rw [List.getElem?_map, serialize_to_column_getElem?]
        simp only [hi1, if_true, List.getElem?_eq_getElem hi1, Option.map_some',
          Option.getD_some]
      rw [hfield, serialize_field_empty_cell _ _ (hempty _ (List.getElem_mem hi1)), hcreate]
      simp only [hi, if_true, Option.map_some', List.nil_append, List.getD_eq_getElem?_getD,
        List.getElem?_eq_getElem hi2, Option.getD_some]
    · have h1 : (create ctx : ArrayAggAggregateStateV2 V).data_columns[i]? = none := by
        apply List.getElem?_eq_none
        simp only [create, List.length_map, List.length_range]
        omega
      have h2 : state.data_columns[i]? = none := List.getElem?_eq_none (by omega)
      simp only [hi, if_false, h1, h2]
  cases hm : merge (serialize_to_column state dst).arrays (create ctx) 0 with
  | mk cols =>
    rw [hm] at hcols
    simp only at hcols
    rw [hcols]

end ArrayAggAggregateFunctionV2

/-! ## The ordered variant: `reset` -/

theorem set_error_num_args (ctx : FunctionContext) (msg : String) :
    (ctx.set_error msg).num_args = ctx.num_args := by
  unfold FunctionContext.set_error
  split <;> rfl

namespace ArrayAggAggregateFunctionV2

theorem reset_eq {V : Type} (state : ArrayAggAggregateStateV2 V) :
    reset state = ⟨List.replicate state.data_columns.length []⟩ := by
  unfold reset
  rw [List.map_const']

theorem create_eq {V : Type} (ctx : FunctionContext) :
    (create ctx : ArrayAggAggregateStateV2 V) = ⟨List.replicate ctx.num_args []⟩ := by
  unfold create
  rw [List.map_const', List.length_range]

theorem update_from_frame {V : Type} [Inhabited V] (columns : List (Column V)) (row_num : Nat)
    (is : List Nat) : ∀ (ctx : FunctionContext) (state : ArrayAggAggregateStateV2 V),
      (update_from columns row_num is ctx state).1.num_args = ctx.num_args ∧
      (update_from columns row_num is ctx state).2.data_columns.length =
        state.data_columns.length := by
  induction is with
  | nil => intro ctx state; exact ⟨rfl, rfl⟩
  | cons i rest ih =>
    intro ctx state
    unfold update_from
    dsimp only
    split_ifs
    · exact ⟨set_error_num_args _ _, rfl⟩
    · have := ih ctx (state.update_nulls i 1)
      simpa [ArrayAggAggregateStateV2.update_nulls] using this
    · have := ih ctx (state.update (columns.getD i (Column.data [])).data_column i 0 1)
      simpa [ArrayAggAggregateStateV2.update] using this
    · have := ih ctx (state.update (columns.getD i (Column.data [])) i row_num 1)
      simpa [ArrayAggAggregateStateV2.update] using this

theorem merge_length {V : Type} [Inhabited V] (input_columns : List (ArrayColumn V))
    (state : ArrayAggAggregateStateV2 V) (row_num : Nat) :
    (merge input_columns state row_num).data_columns.length = state.data_columns.length := by
  unfold merge
  rw [merge_data_columns]
  exact length_foldl_modify
    (fun i c => c ++ (input_columns.getD i ArrayColumn.empty).cell row_num) _ _

theorem order_values_num_args {V : Type} [Inhabited V] (sort : SortUtility V)
    (ctx : FunctionContext) (state : ArrayAggAggregateStateV2 V) :
    (order_values sort ctx state).1.num_args = ctx.num_args := by
  unfold order_values
  dsimp only
  split_ifs <;> first | rfl | exact set_error_num_args _ _

theorem finalize_to_column_num_args {V : Type} [Inhabited V]
    (sort : SortUtility V) (fnv_hash : Row V → Nat → Nat) (equals : Row V → Row V → Bool)
    (ctx : FunctionContext) (state : ArrayAggAggregateStateV2 V) (dst : OutColumn V) :
    (finalize_to_column sort fnv_hash equals ctx state dst).ctx.num_args = ctx.num_args := by
  have hov := order_values_num_args sort ctx state
  unfold finalize_to_column
  rw [defer_ctx]
  split
  · exact set_error_num_args _ _
  · rcases hcase : order_values sort ctx state with ⟨ctx1, state1, _ | res⟩
    · rw [hcase] at hov; exact hov
    · rw [hcase] at hov
      simp only
      split <;> exact hov

theorem finalize_to_column_keeps_columns {V : Type} [Inhabited V]
    (sort : SortUtility V) (fnv_hash : Row V → Nat → Nat) (equals : Row V → Row V → Bool)
    (ctx : FunctionContext) (state : ArrayAggAggregateStateV2 V) (dst : OutColumn V)
    (hkeep : state.data_columns.length ≤ 1 ∨ dst.is_array = false) :
    (finalize_to_column sort fnv_hash equals ctx state dst).state.data_columns.length =
      state.data_columns.length := by
  unfold finalize_to_column
  rw [defer_state]
  by_cases harr : dst.is_array = true
  · have hone : state.data_columns.length ≤ 1 := by
      rcases hkeep with h | h
      · exact h
      · rw [harr] at h; cases h
    have hgt : ¬ state.data_columns.length > 1 := by omega
    simp only [harr, Bool.not_true, Bool.false_eq_true, if_false,
      order_values_single sort ctx state hone, hgt]
    split
    · simp only [List.length_set]
    · rfl
  · have hfalse : dst.is_array = false := by simpa using harr
    simp only [hfalse, Bool.not_false, if_true]

end ArrayAggAggregateFunctionV2

theorem life_call_frame {V : Type} [Inhabited V] (sort : SortUtility V)
    (fnv_hash : Row V → Nat → Nat) (equals : Row V → Row V → Bool)
    (acc : FunctionContext × ArrayAggAggregateStateV2 V) (c : LifeCallV2 V)
    (hlen : acc.2.data_columns.length = acc.1.num_args) (hkeep : c.keeps_columns acc.1.num_args) :
    (LifeCallV2.apply sort fnv_hash equals acc c).1.num_args = acc.1.num_args ∧
    (LifeCallV2.apply sort fnv_hash equals acc c).2.data_columns.length = acc.1.num_args := by
  cases c with
  | update columns row_num =>
    have := ArrayAggAggregateFunctionV2.update_from_frame columns row_num
      (List.range acc.1.num_args) acc.1 acc.2
    exact ⟨this.1, by rw [← hlen]; exact this.2⟩
  | merge input_columns row_num =>
    exact ⟨rfl, by rw [← hlen]; exact ArrayAggAggregateFunctionV2.merge_length _ _ _⟩
  | serialize_to_column dst => exact ⟨rfl, hlen⟩
  | finalize_to_column dst =>
    refine ⟨ArrayAggAggregateFunctionV2.finalize_to_column_num_args _ _ _ _ _ _, ?_⟩
    simp only [LifeCallV2.apply]
    rw [ArrayAggAggregateFunctionV2.finalize_to_column_keeps_columns, hlen]
    rw [hlen]
    exact hkeep

/-- Claim C19, as amended.  From the state created for `N` arguments, after any
sequence of `update`, `merge` and `serialize_to_column` calls, and of
`finalize_to_column` calls that release no column (`N <= 1`, or a destination
that is not an array), `reset` gives the state that `create` produces: `N`
columns, all empty. -/
theorem reset_restores_created_state {V : Type} [Inhabited V] (sort : SortUtility V)
    (fnv_hash : Row V → Nat → Nat) (equals : Row V → Row V → Bool) (ctx : FunctionContext)
    (calls : List (LifeCallV2 V)) (hkeep : ∀ c ∈ calls, c.keeps_columns ctx.num_args) :
    ArrayAggAggregateFunctionV2.reset
      (LifeCallV2.run sort fnv_hash equals (ctx, ArrayAggAggregateFunctionV2.create ctx)
        calls).2 = ArrayAggAggregateFunctionV2.create ctx := by
  suffices hinv : ∀ (calls : List (LifeCallV2 V))
      (acc : FunctionContext × ArrayAggAggregateStateV2 V),
      acc.1.num_args = ctx.num_args → acc.2.data_columns.length = ctx.num_args →
      (∀ c ∈ calls, c.keeps_columns ctx.num_args) →
      (LifeCallV2.run sort fnv_hash equals acc calls).2.data_columns.length = ctx.num_args by
    have hlen := hinv calls (ctx, ArrayAggAggregateFunctionV2.create ctx) rfl
      (by simp [ArrayAggAggregateFunctionV2.create]) hkeep
    rw [ArrayAggAggregateFunctionV2.reset_eq, hlen, ArrayAggAggregateFunctionV2.create_eq]
  intro calls
  induction calls with
  | nil => intro acc _ h _; exact h
  | cons c rest ih =>
    intro acc hargs hlen hk
    unfold LifeCallV2.run
    rw [List.foldl_cons]
    have hc := hk c (List.mem_cons_self _ _)
    rw [← hargs] at hc hlen
    obtain ⟨h1, h2⟩ := life_call_frame sort fnv_hash equals acc c hlen hc
    exact ih _ (by rw [h1, hargs]) (by rw [h2, hargs])
      (fun c' hc' => hk c' (List.mem_cons_of_mem _ hc'))

/-! ## The simple variant: `convert_to_serialize_format` -/

theorem append_datum_eq {V : Type} [Inhabited V] (c : NullableColumn V) (datum : Option V) :
    c.append_datum datum = c ++ [Row.of_datum datum] := by
  cases datum <;> rfl

theorem offsets_after_back {V : Type} (a : ArrayColumn V) (k : Nat) :
    (offsets_after a k).getLastD 0 = a.offsets_back + k := by
  unfold offsets_after
  cases k with
  | zero => simp [ArrayColumn.offsets_back]
  | succ k =>
    rw [List.range_succ, List.map_append, ← List.append_assoc]
    simp only [List.map_cons, List.map_nil, List.getLastD_concat]
    omega

namespace ArrayAggAggregateFunction

theorem convert_to_serialize_format_fold {V : Type} [Inhabited V] (src : List (Column V))
    (column : ArrayColumn V) (k : Nat) :
    convert_to_serialize_format src k column =
      ⟨column.elements ++ (List.range k).map
        (fun i => Row.of_datum ((src.getD 0 (Column.data [])).get i)),
        offsets_after column k⟩ := by
  induction k with
  | zero => simp [convert_to_serialize_format, offsets_after]
  | succ k ih =>
    unfold convert_to_serialize_format at ih ⊢
    rw [List.range_succ, List.foldl_append, ih]
    simp only [List.foldl_cons, List.foldl_nil, append_datum_eq, ArrayColumn.offsets_back,
      offsets_after_back]
    simp only [offsets_after, List.range_succ, List.map_append, List.map_cons, List.map_nil,
      List.append_assoc, ArrayColumn.offsets_back]

theorem offsets_after_getD {V : Type} (a : ArrayColumn V) (k j : Nat) (hne : a.offsets ≠ [])
    (hj : j ≤ k) :
    (offsets_after a k).getD (a.offsets.length - 1 + j) 0 = a.offsets_back + j := by
  have hpos : 0 < a.offsets.length := List.length_pos.mpr hne
  unfold offsets_after
  rw [List.getD_eq_getElem?_getD]
  cases j with
  | zero =>
    rw [Nat.add_zero, List.getElem?_append_left (by omega)]
    unfold ArrayColumn.offsets_back
    rw [List.getLastD_eq_getLast?, List.getLast?_eq_getElem?, Nat.add_zero]
  | succ j =>
    have hidx : a.offsets.length - 1 + (j + 1) = a.offsets.length + j := by omega
    have hjk : j < k := hj
    rw [hidx, List.getElem?_append_right (by omega)]
    simp [hjk]
    omega

/-- Claim C20.  `ArrayAggAggregateFunction::convert_to_serialize_format` on a
well-formed array column, for `chunk_size` rows of the source column: the
column gains `chunk_size` cells, the offsets appended are the last offset plus
`1, 2, ...` (each the previous offset plus one), the elements appended are the
datums of the rows, and the new cell `i` is the one-element array holding the
datum of row `i` (a null element for a null row). -/
theorem convert_to_serialize_format_cells {V : Type} [Inhabited V] (src : List (Column V))
    (chunk_size : Nat) (column : ArrayColumn V) (hwf : column.well_formed)
    (_hsize : chunk_size ≤ (src.getD 0 (Column.data [])).size) :
    (convert_to_serialize_format src chunk_size column).size = column.size + chunk_size ∧
    (convert_to_serialize_format src chunk_size column).offsets =
      column.offsets ++ (List.range chunk_size).map (fun i => column.offsets_back + i + 1) ∧
    (convert_to_serialize_format src chunk_size column).elements =
      column.elements ++ (List.range chunk_size).map
        (fun i => Row.of_datum ((src.getD 0 (Column.data [])).get i)) ∧
    (∀ i, i < chunk_size →
      (convert_to_serialize_format src chunk_size column).cell (column.size + i) =
        [Row.of_datum ((src.getD 0 (Column.data [])).get i)]) := by
  obtain ⟨hhead, _, hback⟩ := hwf
  have hne : column.offsets ≠ [] := by
    intro h; rw [h] at hhead; simp at hhead
  have hpos : 0 < column.offsets.length := List.length_pos.mpr hne
  rw [convert_to_serialize_format_fold]
  refine ⟨?_, rfl, rfl, ?_⟩
  · simp only [ArrayColumn.size, offsets_after, List.length_append, List.length_map,
      List.length_range]
    omega
  · intro i hi
    have h1 := offsets_after_getD column chunk_size i hne (le_of_lt hi)
    have h2 := offsets_after_getD column chunk_size (i + 1) hne hi
    simp only [ArrayColumn.cell, ArrayColumn.get_element_offset_size, ArrayColumn.size]
    rw [show column.offsets.length - 1 + i + 1 = column.offsets.length - 1 + (i + 1) from rfl,
      h1, h2, hback]
    have hcnt : column.elements.length + (i + 1) - (column.elements.length + i) = 1 := by omega
    rw [hcnt, List.drop_append, take_one_drop _ i (by simp [hi]) default]
    simp [List.getD_eq_getElem?_getD, List.getElem?_range hi]

end ArrayAggAggregateFunction

/-! ## The simple variant: the two output functions and `get_data_column` -/

/-- Claim C21.  Simple variant: for every state and destination column,
`finalize_to_column` leaves the state and the destination exactly as
`serialize_to_column` does: the intermediate and the final representation
coincide. -/
theorem finalize_to_column_eq_serialize_to_column {PT : LogicalType} (is_distinct : Bool)
    (order : IterationOrder (KeyType PT)) (state : ArrayAggAggregateState PT)
    (column : ArrayColumn (RunTimeCppType PT)) :
    ArrayAggAggregateFunction.finalize_to_column is_distinct order state column =
      ArrayAggAggregateFunction.serialize_to_column is_distinct order state column := by
  rfl

/-- A second `get_data_column` returns the state the first one left. -/
theorem get_data_column_again {PT : LogicalType} (is_distinct : Bool)
    (order order' : IterationOrder (KeyType PT)) (s : ArrayAggAggregateState PT) :
    (s.get_data_column is_distinct order).get_data_column is_distinct order' =
      s.get_data_column is_distinct order := by
  by_cases hcond : (decide (s.data_column.length > 0) || s.set.size == 0) = true
  · have h1 : s.get_data_column is_distinct order = s := by
      unfold ArrayAggAggregateState.get_data_column
      simp only [hcond, if_true]
    have h2 : s.get_data_column is_distinct order' = s := by
      unfold ArrayAggAggregateState.get_data_column
      simp only [hcond, if_true]
    rw [h1, h2]
  · cases is_distinct with
    | false =>
      have h1 : s.get_data_column false order = s := by
        unfold ArrayAggAggregateState.get_data_column
        simp
      have h2 : s.get_data_column false order' = s := by
        unfold ArrayAggAggregateState.get_data_column
        simp
      rw [h1, h2]
    | true =>
      have hsize : s.set.keys ≠ [] := by
        intro h
        apply hcond
        simp [FlatHashSet.size, h]
      have h1 : s.get_data_column true order =
          { s with data_column := s.data_column ++
            ArrayAggAggregateState.set_values PT (order.iterate s.set.keys) } := by
        unfold ArrayAggAggregateState.get_data_column
        simp only [hcond, if_false, if_true]
        rfl
      have hlen : (ArrayAggAggregateState.set_values PT (order.iterate s.set.keys)).length > 0 := by
        rw [set_values_eq, List.length_map, (order.perm _).length_eq]
        exact List.length_pos.mpr hsize
      rw [h1]
      unfold ArrayAggAggregateState.get_data_column
      have : (decide ((s.data_column ++ ArrayAggAggregateState.set_values PT
          (order.iterate s.set.keys)).length > 0) || s.set.size == 0) = true := by
        simp only [List.length_append, Bool.or_eq_true, decide_eq_true_eq]
        left; omega
      simp only [this, if_true]

/-- Claim C30.  `ArrayAggAggregateState::get_data_column` is idempotent: with no
update in between, a second call leaves the state the first call left (whatever
the iteration order of the set at the second call), so it returns the same
sequence; in non-distinct mode the call changes nothing and returns
`data_column` as it is. -/
theorem get_data_column_idempotent {PT : LogicalType} (is_distinct : Bool)
    (order order' : IterationOrder (KeyType PT)) (s : ArrayAggAggregateState PT) :
    (s.get_data_column is_distinct order).get_data_column is_distinct order' =
      s.get_data_column is_distinct order ∧
    ((s.get_data_column is_distinct order).get_data_column is_distinct order').data_column =
      (s.get_data_column is_distinct order).data_column ∧
    s.get_data_column false order = s := by
  refine ⟨get_data_column_again is_distinct order order' s, ?_, ?_⟩
  · rw [get_data_column_again]
  · exact get_data_column_plain order s

theorem get_data_column_iterate {PT : LogicalType} (is_distinct : Bool)
    (order : IterationOrder (KeyType PT)) (s : ArrayAggAggregateState PT) (n : Nat) :
    Nat.iterate (ArrayAggAggregateState.get_data_column is_distinct order) (n + 1) s =
      s.get_data_column is_distinct order := by
  induction n with
  | zero => rfl
  | succ n ih =>
    rw [Function.iterate_succ_apply', ih, get_data_column_again]

theorem get_data_column_set {PT : LogicalType} (is_distinct : Bool)
    (order : IterationOrder (KeyType PT)) (s : ArrayAggAggregateState PT) :
    (s.get_data_column is_distinct order).set = s.set := by
  unfold ArrayAggAggregateState.get_data_column
  dsimp only
  split_ifs <;> rfl

/-- Claim C29, as amended.  Distinct simple state: after any sequence of `update`,
`append_null` and `merge` calls that read inside their columns, on a fresh
state, followed by one or more `get_data_column` calls with no update in
between, the sequence returned has no repeated value, holds exactly the values
updated so far and, as a set, equals the dedup set.  (An update that comes
after the first `get_data_column` is not reflected by a later call.) -/
theorem get_data_column_after_updates (slice_hash : Slice → Nat) (PT : LogicalType)
    (mem_pool : MemPool) (order : IterationOrder (KeyType PT)) (calls : List (StateCall PT))
    (n : Nat) (hcalls : ∀ c ∈ calls, c.in_range) :
    ((Nat.iterate (ArrayAggAggregateState.get_data_column true order) (n + 1)
        (StateCall.run slice_hash true (ArrayAggAggregateState.init PT, mem_pool)
          calls).1).data_column).Nodup ∧
    (∀ v, v ∈ (Nat.iterate (ArrayAggAggregateState.get_data_column true order) (n + 1)
        (StateCall.run slice_hash true (ArrayAggAggregateState.init PT, mem_pool)
          calls).1).data_column ↔
      v ∈ calls.flatMap StateCall.values_applied) ∧
    (∀ v, v ∈ (Nat.iterate (ArrayAggAggregateState.get_data_column true order) (n + 1)
        (StateCall.run slice_hash true (ArrayAggAggregateState.init PT, mem_pool)
          calls).1).data_column ↔
      v ∈ ((Nat.iterate (ArrayAggAggregateState.get_data_column true order) (n + 1)
        (StateCall.run slice_hash true (ArrayAggAggregateState.init PT, mem_pool)
          calls).1).set.keys).map (value_of PT)) := by
  obtain ⟨hmem, hnodup, hdata, hinv⟩ := run_distinct_from_init slice_hash PT mem_pool calls
  rw [get_data_column_iterate, get_data_column_set, get_data_column_distinct order _ hdata]
  generalize (StateCall.run slice_hash true (ArrayAggAggregateState.init PT, mem_pool)
    calls).1.set.keys = keys at hmem hnodup hinv
  have hperm := order.perm keys
  have hmem' : ∀ k, k ∈ order.iterate keys ↔
      k ∈ (calls.flatMap StateCall.values_applied).map (key_of slice_hash PT) := by
    intro k
    rw [hperm.mem_iff, hmem k]
    simp only [List.mem_map, List.mem_flatMap]
    constructor
    · rintro ⟨c, hc, v, hv, rfl⟩
      exact ⟨v, ⟨c, hc, by rw [← values_read_eq c (hcalls c hc)]; exact hv⟩, rfl⟩
    · rintro ⟨v, ⟨c, hc, hv⟩, rfl⟩
      exact ⟨c, hc, v, by rw [values_read_eq c (hcalls c hc)]; exact hv, rfl⟩
  refine ⟨nodup_values_of_keys slice_hash PT _ (hperm.nodup_iff.mpr hnodup)
      (fun k hk => hinv k (hperm.mem_iff.mp hk)),
    mem_values_of_keys slice_hash PT _ _ hmem', ?_⟩
  intro v
  exact (hperm.map (value_of PT)).mem_iff

theorem apply_plain_state (slice_hash : Slice → Nat) (PT : LogicalType)
    (acc : ArrayAggAggregateState PT × MemPool) (c : StateCall PT) :
    (StateCall.apply slice_hash false acc c).1.data_column =
      acc.1.data_column ++ c.values_applied ∧
    (StateCall.apply slice_hash false acc c).1.null_count =
      acc.1.null_count + c.nulls_applied := by
  cases c with
  | update column offset count =>
    simp only [StateCall.apply, update_plain_eq, StateCall.values_applied,
      StateCall.nulls_applied, Nat.add_zero, and_self]
  | append_null =>
    simp only [StateCall.apply, ArrayAggAggregateState.append_null, Bool.false_eq_true,
      if_false, StateCall.values_applied, StateCall.nulls_applied, List.append_nil, and_self]
  | append_null_count count =>
    simp only [StateCall.apply, ArrayAggAggregateState.append_null_count, Bool.false_eq_true,
      if_false, StateCall.values_applied, StateCall.nulls_applied, List.append_nil, and_self]
  | merge column row_num =>
    simp only [StateCall.apply, ArrayAggAggregateFunction.merge, update_plain_eq,
      ArrayAggAggregateState.append_null_count, Bool.false_eq_true, if_false,
      StateCall.values_applied, StateCall.nulls_applied, and_self]

theorem run_plain_state (slice_hash : Slice → Nat) (PT : LogicalType)
    (calls : List (StateCall PT)) (acc : ArrayAggAggregateState PT × MemPool) :
    (StateCall.run slice_hash false acc calls).1.data_column =
      acc.1.data_column ++ calls.flatMap StateCall.values_applied ∧
    (StateCall.run slice_hash false acc calls).1.null_count =
      acc.1.null_count + (calls.map StateCall.nulls_applied).sum := by
  induction calls generalizing acc with
  | nil => simp [StateCall.run]
  | cons c rest ih =>
    obtain ⟨h1, h2⟩ := ih (StateCall.apply slice_hash false acc c)
    obtain ⟨h3, h4⟩ := apply_plain_state slice_hash PT acc c
    unfold StateCall.run at h1 h2 ⊢
    rw [List.foldl_cons, h1, h2, h3, h4]
    simp only [List.flatMap_cons, List.append_assoc, List.map_cons, List.sum_cons, Nat.add_assoc,
      and_self]

theorem rows_applied_eq {PT : LogicalType} (c : StateCall PT) (hc : c.in_range) :
    c.rows_applied = c.values_applied.length + c.nulls_applied := by
  cases c with
  | update column offset count =>
    simp only [StateCall.in_range] at hc
    simp only [StateCall.rows_applied, StateCall.values_applied, StateCall.nulls_applied,
      List.length_take, List.length_drop]
    omega
  | append_null => rfl
  | append_null_count count => simp [StateCall.rows_applied, StateCall.values_applied,
      StateCall.nulls_applied]
  | merge column row_num =>
    obtain ⟨_, h2, h3⟩ := hc
    have hn := null_count_le column.elements (column.get_element_offset_size row_num).1
      (column.get_element_offset_size row_num).2
    simp only [StateCall.rows_applied, StateCall.values_applied, StateCall.nulls_applied,
      List.length_take, List.length_drop, NullableColumn.get_data_column, List.length_map]
    simp only [ArrayColumn.get_element_offset_size] at hn ⊢
    omega

theorem sum_rows_applied {PT : LogicalType} (calls : List (StateCall PT))
    (hcalls : ∀ c ∈ calls, c.in_range) :
    (calls.map StateCall.rows_applied).sum =
      (calls.flatMap StateCall.values_applied).length +
        (calls.map StateCall.nulls_applied).sum := by
  induction calls with
  | nil => rfl
  | cons c rest ih =>
    have h1 := rows_applied_eq c (hcalls c (List.mem_cons_self _ _))
    have h2 := ih (fun c' hc' => hcalls c' (List.mem_cons_of_mem _ hc'))
    simp only [List.map_cons, List.sum_cons, List.flatMap_cons, List.length_append, h1, h2]
    omega

theorem append_array_element_eq {V : Type} [Inhabited V] (a : ArrayColumn V) (elem : List V)
    (null_elem : Nat) :
    a.append_array_element elem null_elem =
      ({ elements := a.elements ++ (elem.map (fun v => (⟨v, false⟩ : Row V)) ++
          List.replicate null_elem (⟨default, true⟩ : Row V))
         offsets := a.offsets ++ [a.offsets_back + (elem.map (fun v => (⟨v, false⟩ : Row V)) ++
          List.replicate null_elem (⟨default, true⟩ : Row V)).length] ++ [] } :
        ArrayColumn V) := by
  have h := append_array_element_elements a elem null_elem
  cases hc : a.append_array_element elem null_elem with
  | mk elements offsets =>
    rw [hc] at h
    simp only at h
    have ho : offsets = a.offsets ++ [a.offsets_back + elem.length + null_elem] := by
      have := congrArg ArrayColumn.offsets hc
      simp only [ArrayColumn.append_array_element] at this
      exact this.symm
    rw [h, ho]
    simp only [List.length_append, List.length_map, List.length_replicate, List.append_nil,
      Nat.add_assoc]

/-! ## The simple variant: the cell written for a non-distinct state -/

/-- Claim C22.  Non-distinct simple state, built from a fresh state by calls
that read inside their columns: `serialize_to_column` appends, to a well-formed
destination, one cell that holds the values handed to `update` (directly, or by
`merge` from the run of the data column it reads) in insertion order, followed
by `null_count` null elements, where `null_count` is the number of nulls
applied; the length of the cell is the total number of rows applied. -/
theorem serialize_to_column_plain_cell (slice_hash : Slice → Nat) (PT : LogicalType)
    (mem_pool : MemPool) (order : IterationOrder (KeyType PT)) (calls : List (StateCall PT))
    (column : ArrayColumn (RunTimeCppType PT)) (hcalls : ∀ c ∈ calls, c.in_range)
    (hwf : column.well_formed) :
    (ArrayAggAggregateFunction.serialize_to_column false order
        (StateCall.run slice_hash false (ArrayAggAggregateState.init PT, mem_pool) calls).1
        column).2.cell column.size =
      (calls.flatMap StateCall.values_applied).map (fun v => (⟨v, false⟩ : Row _)) ++
        List.replicate (calls.map StateCall.nulls_applied).sum ⟨default, true⟩ ∧
    ((ArrayAggAggregateFunction.serialize_to_column false order
        (StateCall.run slice_hash false (ArrayAggAggregateState.init PT, mem_pool) calls).1
        column).2.cell column.size).length = (calls.map StateCall.rows_applied).sum ∧
    (StateCall.run slice_hash false (ArrayAggAggregateState.init PT, mem_pool)
      calls).1.null_count = (calls.map StateCall.nulls_applied).sum := by
  obtain ⟨hd, hn⟩ := run_plain_state slice_hash PT calls
    (ArrayAggAggregateState.init PT, mem_pool)
  simp only [ArrayAggAggregateState.init, List.nil_append, Nat.zero_add] at hd hn
  have hcell : (ArrayAggAggregateFunction.serialize_to_column false order
      (StateCall.run slice_hash false (ArrayAggAggregateState.init PT, mem_pool) calls).1
      column).2.cell column.size =
      (calls.flatMap StateCall.values_applied).map (fun v => (⟨v, false⟩ : Row _)) ++
        List.replicate (calls.map StateCall.nulls_applied).sum ⟨default, true⟩ := by
    simp only [ArrayAggAggregateFunction.serialize_to_column, get_data_column_plain]
    rw [append_array_element_eq, (cell_of_appended column _ [] hwf).1]
    simp only [ArrayAggAggregateState.init] at hd hn ⊢
    rw [hd, hn]
  refine ⟨hcell, ?_, ?_⟩
  · rw [hcell, sum_rows_applied calls hcalls]
    simp only [List.length_append, List.length_map, List.length_replicate]
  · simp only [ArrayAggAggregateState.init] at hn ⊢
    exact hn

theorem rows_kept_sublist {R : Type} [Inhabited R] (keep : Nat → Bool) (rows : List R) :
    (rows_kept keep rows).Sublist rows := by
  have h := (List.filter_sublist (p := keep) (List.range rows.length)).map
    (fun i => rows.getD i default)
  rw [map_getD_range] at h
  exact h

theorem rows_kept_head {R : Type} [Inhabited R] (keep : Nat → Bool) (rows : List R)
    (h0 : keep 0 = true) : (rows_kept keep rows).head? = rows.head? := by
  cases rows with
  | nil => rfl
  | cons a l =>
    unfold rows_kept
    rw [List.length_cons, List.range_succ_eq_map, List.filter_cons_of_pos h0]
    rfl

theorem rows_kept_cover {R : Type} [Inhabited R] (equals : R → R → Bool) (keep : Nat → Bool)
    (rows : List R)
    (hkeep : ∀ i, i < rows.length → keep i = false →
      ∃ j, j < i ∧ equals (rows.getD j default) (rows.getD i default) = true)
    (hrefl : ∀ a, equals a a = true)
    (htrans : ∀ a b c, equals a b = true → equals b c = true → equals a c = true)
    (i : Nat) (hi : i < rows.length) :
    ∃ e ∈ rows_kept keep rows, equals e (rows.getD i default) = true := by
  induction i using Nat.strong_induction_on with
  | _ i ih =>
    by_cases hk : keep i = true
    · exact ⟨_, List.mem_map.mpr ⟨i, List.mem_filter.mpr ⟨List.mem_range.mpr hi, hk⟩, rfl⟩,
        hrefl _⟩
    · obtain ⟨j, hj, hje⟩ := hkeep i hi (by simpa using hk)
      obtain ⟨e, he, hee⟩ := ih j hj (lt_trans hj hi)
      exact ⟨e, he, htrans _ _ _ hee hje⟩

theorem rows_kept_mem_of_eq {R : Type} [Inhabited R] (keep : Nat → Bool) (rows : List R)
    (hkeep : ∀ i, i < rows.length → keep i = false →
      ∃ j, j < i ∧ rows.getD j default = rows.getD i default)
    (i : Nat) (hi : i < rows.length) : rows.getD i default ∈ rows_kept keep rows := by
  induction i using Nat.strong_induction_on with
  | _ i ih =>
    by_cases hk : keep i = true
    · exact List.mem_map.mpr ⟨i, List.mem_filter.mpr ⟨List.mem_range.mpr hi, hk⟩, rfl⟩
    · obtain ⟨j, hj, hje⟩ := hkeep i hi (by simpa using hk)
      rw [← hje]
      exact ih j hj (lt_trans hj hi)

namespace ArrayAggAggregateFunctionV2

theorem remove_duplicated_kept {V : Type} [Inhabited V] (fnv_hash : Row V → Nat → Nat)
    (equals : Row V → Row V → Bool) (res : NullableColumn V) :
    remove_duplicated fnv_hash equals res res.length =
      (rows_kept (fun i => !duplicated_at
          ((List.range res.length).map (fun i => fnv_hash (res.getD i default) 0)) res equals i)
          res,
        (rows_kept (fun i => !duplicated_at
          ((List.range res.length).map (fun i => fnv_hash (res.getD i default) 0)) res equals i)
          res).length) := by
  obtain ⟨_, hb, hc⟩ := mark_duplicated_fold
    ((List.range res.length).map (fun i => fnv_hash (res.getD i default) 0)) res equals
    res.length res.length (le_refl _)
  have hfilter : ((List.range res.length).foldl
      (mark_duplicated ((List.range res.length).map (fun i => fnv_hash (res.getD i default) 0))
        res equals) (FlatHashSet.empty, List.replicate res.length true, false)).2.1 =
      (List.range res.length).map (fun i => !duplicated_at
          ((List.range res.length).map (fun i => fnv_hash (res.getD i default) 0)) res
          equals i) := by
    rw [hb]
    apply List.map_congr_left
    intro i hi
    have hi' := List.mem_range.mp hi
    simp [hi']
  unfold remove_duplicated
  simp only [hfilter]
  rw [filter_by_map_range]
  split
  · rfl
  · rename_i hnd
    rw [hc] at hnd
    have hall : ∀ i ∈ List.range res.length, (fun i => !duplicated_at
          ((List.range res.length).map (fun i => fnv_hash (res.getD i default) 0)) res
          equals i) i = true := by
      intro i hi
      by_contra hcon
      apply hnd
      rw [List.any_eq_true]
      exact ⟨i, hi, by simpa using hcon⟩
    unfold rows_kept
    rw [List.filter_eq_self.mpr hall, map_getD_range]

theorem order_values_sorted {V : Type} [Inhabited V] (sort : SortUtility V)
    (ctx : FunctionContext) (state : ArrayAggAggregateStateV2 V)
    (hN : 2 ≤ state.data_columns.length) (hcancel : ctx.cancelled = false)
    (hok : (sort ctx.cancelled (state.data_columns.drop 1)
      ⟨ctx.is_asc_order, ctx.nulls_first⟩).1.ok = true) :
    order_values sort ctx state = (ctx, state.release_order_by_columns,
      some ((sort ctx.cancelled (state.data_columns.drop 1)
        ⟨ctx.is_asc_order, ctx.nulls_first⟩).2.map
          (fun i => (state.data_columns.getD 0 []).getD i default))) := by
  have hgt : state.data_columns.length > 1 := hN
  have hcol : (state.release_order_by_columns.data_columns.getD 0 []) =
      state.data_columns.getD 0 [] := by
    unfold ArrayAggAggregateStateV2.release_order_by_columns
    cases state.data_columns <;> rfl
  unfold order_values
  simp only [hgt, hok, hcol, if_true, Bool.not_true, Bool.false_eq_true, if_false]
  simp only [hcancel, Bool.false_eq_true, if_false, materialize_column_by_permutation,
    List.nil_append]

theorem update_from_ctx {V : Type} [Inhabited V] (columns : List (Column V)) (row_num : Nat)
    (indices : List Nat) (ctx : FunctionContext) (state : ArrayAggAggregateStateV2 V) :
    (update_from columns row_num indices ctx state).1 =
      if indices.any (fun i => decide ((columns.getD i (Column.data [])).size ≤ row_num)) then
        ctx.set_error (get_name ++ "'s update row number overflow")
      else ctx := by
  induction indices generalizing state with
  | nil => rfl
  | cons i rest ih =>
    unfold update_from
    dsimp only
    by_cases hshort : (columns.getD i (Column.data [])).size ≤ row_num
    · simp only [hshort, if_true, List.any_cons, decide_True, Bool.true_or]
    · simp only [hshort, if_false, List.any_cons, decide_False, Bool.false_or]
      split_ifs <;> simp_all

/-- Claim C24.  The distinct filter of `finalize_to_column`, for every hash
function (no relation between `fnv_hash` and `equals` is assumed): the rows
emitted are the rows of `res` kept by an index test `keep`, where a row is
dropped only if an earlier row `equals` it; the first row is always kept and
the emitted rows are a sublist of `res`.  When `equals` holds only between
identical rows the emitted rows and `res` have the same members; when `equals`
is reflexive and transitive every row of `res` equals an emitted row. -/
theorem finalize_to_column_distinct_sound {V : Type} [Inhabited V]
    (sort : SortUtility V) (fnv_hash : Row V → Nat → Nat) (equals : Row V → Row V → Bool)
    (ctx ctx1 : FunctionContext) (state state1 : ArrayAggAggregateStateV2 V) (dst : OutColumn V)
    (res : NullableColumn V)
    (harr : dst.is_array = true) (hdistinct : ctx.is_distinct = true)
    (hord : order_values sort ctx state = (ctx1, state1, some res))
    (hlen : res.length = (state.data_columns.getD 0 []).length) :
    ∃ keep : Nat → Bool,
      (finalize_to_column sort fnv_hash equals ctx state dst).dst.array_col.map
          ArrayColumn.elements =
        dst.array_col.map (fun col => col.elements ++ rows_kept keep res) ∧
      (∀ i, i < res.length → keep i = false →
        ∃ j, j < i ∧ equals (res.getD j default) (res.getD i default) = true) ∧
      keep 0 = true ∧
      (rows_kept keep res).head? = res.head? ∧
      (rows_kept keep res).Sublist res ∧
      ((∀ a b, equals a b = true → a = b) → ∀ r, r ∈ rows_kept keep res ↔ r ∈ res) ∧
      ((∀ a, equals a a = true) →
        (∀ a b c, equals a b = true → equals b c = true → equals a c = true) →
        ∀ r ∈ res, ∃ e ∈ rows_kept keep res, equals e r = true) := by
  have hkeep : ∀ i, i < res.length → (fun i => !duplicated_at
      ((List.range res.length).map (fun i => fnv_hash (res.getD i default) 0)) res equals i) i
        = false →
      ∃ j, j < i ∧ equals (res.getD j default) (res.getD i default) = true := by
    intro i _ hk
    simp only [Bool.not_eq_false'] at hk
    unfold duplicated_at at hk
    rw [List.any_eq_true] at hk
    obtain ⟨j, hj, hje⟩ := hk
    rw [Bool.and_eq_true] at hje
    exact ⟨j, List.mem_range.mp hj, hje.2⟩
  have h0 : (fun i => !duplicated_at
      ((List.range res.length).map (fun i => fnv_hash (res.getD i default) 0)) res equals i) 0
        = true := by
    simp [duplicated_at]
  refine ⟨fun i => !duplicated_at
      ((List.range res.length).map (fun i => fnv_hash (res.getD i default) 0)) res equals i,
    ?_, hkeep, h0, rows_kept_head _ res h0, rows_kept_sublist _ res, ?_, ?_⟩
  · have hctx := order_values_some_ctx sort ctx ctx1 state state1 res hord
    subst hctx
    unfold finalize_to_column
    rw [defer_elements]
    simp only [harr, hord, hdistinct, Bool.not_true, if_true, ← hlen]
    rw [remove_duplicated_kept fnv_hash equals res]
    exact append_result_elements dst _
  · intro hsound r
    constructor
    · exact fun hr => (rows_kept_sublist _ res).subset hr
    · intro hr
      obtain ⟨i, hi, rfl⟩ := List.getElem_of_mem hr
      have := rows_kept_mem_of_eq _ res
        (fun i hi hk => by
          obtain ⟨j, hj, hje⟩ := hkeep i hi hk
          exact ⟨j, hj, hsound _ _ hje⟩) i hi
      simpa [List.getD_eq_getElem?_getD, List.getElem?_eq_getElem hi] using this
  · intro hrefl htrans r hr
    obtain ⟨i, hi, rfl⟩ := List.getElem_of_mem hr
    have := rows_kept_cover equals _ res hkeep hrefl htrans i hi
    simpa [List.getD_eq_getElem?_getD, List.getElem?_eq_getElem hi] using this

/-- Claim C25.  `finalize_to_column`, not distinct, `N >= 2` columns, no
cancellation, a sort that succeeds and returns a permutation of `0 .. n-1`
(`n` the size of `columns[0]`): the rows emitted are a rearrangement of
`columns[0]` (the same rows with the same multiplicities, null markers
included, hence the same length `n`), and no error is set. -/
theorem finalize_to_column_sorted_rearranges {V : Type} [Inhabited V]
    (sort : SortUtility V) (fnv_hash : Row V → Nat → Nat) (equals : Row V → Row V → Bool)
    (ctx : FunctionContext) (state : ArrayAggAggregateStateV2 V) (dst : OutColumn V)
    (harr : dst.is_array = true) (hdistinct : ctx.is_distinct = false)
    (hN : 2 ≤ state.data_columns.length) (hcancel : ctx.cancelled = false)
    (hok : (sort ctx.cancelled (state.data_columns.drop 1)
      ⟨ctx.is_asc_order, ctx.nulls_first⟩).1.ok = true)
    (hperm : (sort ctx.cancelled (state.data_columns.drop 1)
      ⟨ctx.is_asc_order, ctx.nulls_first⟩).2.Perm
        (List.range (state.data_columns.getD 0 []).length)) :
    ∃ emitted : NullableColumn V,
      (finalize_to_column sort fnv_hash equals ctx state dst).dst.array_col.map
          ArrayColumn.elements =
        dst.array_col.map (fun col => col.elements ++ emitted) ∧
      emitted.Perm (state.data_columns.getD 0 []) ∧
      emitted.length = (state.data_columns.getD 0 []).length ∧
      (finalize_to_column sort fnv_hash equals ctx state dst).ctx = ctx := by
  have hord := order_values_sorted sort ctx state hN hcancel hok
  have hp : ((sort ctx.cancelled (state.data_columns.drop 1)
      ⟨ctx.is_asc_order, ctx.nulls_first⟩).2.map
        (fun i => (state.data_columns.getD 0 []).getD i default)).Perm
      (state.data_columns.getD 0 []) := by
    have := hperm.map (fun i => (state.data_columns.getD 0 []).getD i default)
    rwa [map_getD_range] at this
  refine ⟨_, ?_, hp, hp.length_eq, ?_⟩
  · unfold finalize_to_column
    rw [defer_elements]
    simp only [harr, hord, hdistinct, Bool.not_true, if_false, Bool.false_eq_true]
    rw [append_result_elements_take]
    congr 1
    funext col
    congr 1
    apply List.take_of_length_le
    rw [hp.length_eq]
  · unfold finalize_to_column
    rw [defer_ctx]
    simp only [harr, hord, hdistinct, Bool.not_true, if_false, Bool.false_eq_true]

/-- Claim C26.  `ArrayAggAggregateFunctionV2::update(row)` with `N` source
columns: when some column `i < N` has `size <= row` the overflow error is
reported; when no column is short the context is unchanged, whatever the kind
of the columns (plain, nullable, constant); so on a context without an error,
an error is held after the call exactly when some column is short. -/
theorem update_error_iff_short_column {V : Type} [Inhabited V] (ctx : FunctionContext)
    (columns : List (Column V)) (state : ArrayAggAggregateStateV2 V) (row_num : Nat)
    (_hcols : ctx.num_args ≤ columns.length) :
    ((∃ i, i < ctx.num_args ∧ (columns.getD i (Column.data [])).size ≤ row_num) →
      (update ctx columns state row_num).1 =
        ctx.set_error "array_agg2's update row number overflow" ∧
      (update ctx columns state row_num).1.has_error = true) ∧
    ((∀ i, i < ctx.num_args → row_num < (columns.getD i (Column.data [])).size) →
      (update ctx columns state row_num).1 = ctx) ∧
    (ctx.has_error = false →
      ((update ctx columns state row_num).1.has_error = true ↔
        ∃ i, i < ctx.num_args ∧ (columns.getD i (Column.data [])).size ≤ row_num)) := by
  have h := update_from_ctx columns row_num (List.range ctx.num_args) ctx state
  have hany : (List.range ctx.num_args).any
      (fun i => decide ((columns.getD i (Column.data [])).size ≤ row_num)) = true ↔
      ∃ i, i < ctx.num_args ∧ (columns.getD i (Column.data [])).size ≤ row_num := by
    simp only [List.any_eq_true, List.mem_range, decide_eq_true_eq]
  have hname : (get_name ++ "'s update row number overflow") =
      "array_agg2's update row number overflow" := by decide
  rw [hname] at h
  unfold update
  refine ⟨?_, ?_, ?_⟩
  · intro hex
    rw [h, if_pos (hany.mpr hex)]
    exact ⟨rfl, set_error_has_error _ _⟩
  · intro hall
    rw [h, if_neg]
    rw [hany]
    rintro ⟨i, hi, hs⟩
    exact absurd (hall i hi) (by omega)
  · intro hno
    rw [h]
    constructor
    · intro he
      by_contra hcon
      rw [if_neg (fun hx => hcon (hany.mp hx))] at he
      rw [hno] at he
      exact Bool.false_ne_true he
    · intro hex
      rw [if_pos (hany.mpr hex)]
      exact set_error_has_error _ _

end ArrayAggAggregateFunctionV2

theorem update_one_congr (slice_hash : Slice → Nat) (PT : LogicalType) (is_distinct : Bool)
    (mem_pool : MemPool) (s : ArrayAggAggregateState PT)
    (c1 c2 : List (RunTimeCppType PT)) (o1 o2 : Nat) (h1 : o1 < c1.length)
    (h2 : o2 < c2.length) (h : c1.getD o1 default = c2.getD o2 default) :
    ArrayAggAggregateState.update slice_hash PT is_distinct mem_pool s c1 o1 1 =
      ArrayAggAggregateState.update slice_hash PT is_distinct mem_pool s c2 o2 1 := by
  cases is_distinct with
  | false =>
    cases PT <;>
      simp only [ArrayAggAggregateState.update, take_one_drop _ _ h1 default,
        take_one_drop _ _ h2 default, h]
  | true =>
    cases PT with
    | fixed V eq dflt =>
      have h' : c1.getD o1 dflt.default = c2.getD o2 dflt.default := h
      have hr1 : List.range 1 = [0] := rfl
      simp only [ArrayAggAggregateState.update, hr1, List.foldl_cons, List.foldl_nil,
        Nat.add_zero, h']
    | string =>
      have h' : List.getD c1 o1 ([] : List Nat) = List.getD c2 o2 ([] : List Nat) := h
      have hr1 : List.range 1 = [0] := rfl
      simp only [ArrayAggAggregateState.update, hr1, List.foldl_cons, List.foldl_nil,
        ArrayAggAggregateState.update_string_step, Nat.add_zero, h']

theorem update_zero (slice_hash : Slice → Nat) (PT : LogicalType) (is_distinct : Bool)
    (mem_pool : MemPool) (s : ArrayAggAggregateState PT)
    (column : List (RunTimeCppType PT)) (offset : Nat) :
    ArrayAggAggregateState.update slice_hash PT is_distinct mem_pool s column offset 0 =
      (s, mem_pool) := by
  cases is_distinct <;> cases PT <;>
    simp [ArrayAggAggregateState.update]

theorem append_null_count_zero {PT : LogicalType} (is_distinct : Bool)
    (s : ArrayAggAggregateState PT) : s.append_null_count is_distinct 0 = s := by
  cases is_distinct <;> simp [ArrayAggAggregateState.append_null_count]

theorem append_null_count_one {PT : LogicalType} (is_distinct : Bool)
    (s : ArrayAggAggregateState PT) :
    s.append_null_count is_distinct 1 = s.append_null is_distinct := by
  cases is_distinct <;>
    simp [ArrayAggAggregateState.append_null_count, ArrayAggAggregateState.append_null]

theorem values_of_datum {V : Type} [Inhabited V] (src : Column V) (r : Nat) (v : V)
    (hr : r < src.size) (hget : src.get r = some v) :
    r < src.values.length ∧ src.values.getD r default = v := by
  cases src with
  | data vs =>
    simp only [Column.get, Option.some.injEq] at hget
    exact ⟨hr, hget⟩
  | nullable rs =>
    simp only [Column.size] at hr
    simp only [Column.get] at hget
    split_ifs at hget
    simp only [Option.some.injEq] at hget
    refine ⟨by simpa [Column.values] using hr, ?_⟩
    rw [← hget]
    simp [Column.values, List.getD_eq_getElem?_getD, List.getElem?_eq_getElem hr]
  | const c n =>
    simp only [Column.size] at hr
    cases c with
    | none => simp [Column.get] at hget
    | some w =>
      simp only [Column.get, Option.some.injEq] at hget
      subst hget
      refine ⟨by simpa [Column.values] using hr, ?_⟩
      simp [Column.values, List.getD_eq_getElem?_getD, hr]

/-- The cell that `k` appended one-element cells give at row `size + r`. -/
theorem converted_cell_read {V : Type} [Inhabited V] (column : ArrayColumn V)
    (f : Nat → Row V) (k r : Nat) (hwf : column.well_formed) (hr : r < k) :
    (offsets_after column k).getD (column.size + r) 0 = column.elements.length + r ∧
    (offsets_after column k).getD (column.size + r + 1) 0 = column.elements.length + r + 1 ∧
    ((column.elements ++ (List.range k).map f).drop (column.elements.length + r)).take 1 =
      [f r] := by
  obtain ⟨hhead, _, hback⟩ := hwf
  have hne : column.offsets ≠ [] := by
    intro h; rw [h] at hhead; simp at hhead
  have h1 := ArrayAggAggregateFunction.offsets_after_getD column k r hne (le_of_lt hr)
  have h2 := ArrayAggAggregateFunction.offsets_after_getD column k (r + 1) hne hr
  rw [hback] at h1 h2
  refine ⟨h1, h2, ?_⟩
  rw [List.drop_append, take_one_drop _ r (by simp [hr]) default]
  simp [List.getD_eq_getElem?_getD, List.getElem?_range hr]

/-! ## Conversion of source rows followed by `merge` -/

/-- Claim C27.  Simple variant, distinct or not, fixed-width or string: for a
row `r` of the chunk, merging the cell that `convert_to_serialize_format`
appended for `r` (cell `dst.size + r` of the well-formed destination) gives the
state and the pool that processing the row directly gives: `process_null` for a
null row, `update` at row `r` of the data column otherwise. -/
theorem merge_converted_cell_eq_direct (slice_hash : Slice → Nat) (PT : LogicalType)
    (is_distinct : Bool) (mem_pool : MemPool) (src : Column (RunTimeCppType PT))
    (chunk_size : Nat) (dst : ArrayColumn (RunTimeCppType PT))
    (state : ArrayAggAggregateState PT) (r : Nat)
    (hwf : dst.well_formed) (hr : r < chunk_size) (hsize : chunk_size ≤ src.size) :
    ArrayAggAggregateFunction.merge slice_hash PT is_distinct mem_pool
        (ArrayAggAggregateFunction.convert_to_serialize_format [src] chunk_size dst) state
        (dst.size + r) =
      match src.get r with
      | none => (ArrayAggAggregateFunction.process_null is_distinct state, mem_pool)
      | some _ =>
        ArrayAggAggregateFunction.update slice_hash PT is_distinct mem_pool src.values state r := by
  obtain ⟨h1, h2, h3⟩ := converted_cell_read dst
    (fun i => Row.of_datum (src.get i)) chunk_size r hwf hr
  have hsrc : ([src] : List (Column (RunTimeCppType PT))).getD 0 (Column.data []) = src := rfl
  rw [ArrayAggAggregateFunction.convert_to_serialize_format_fold, hsrc]
  unfold ArrayAggAggregateFunction.merge
  simp only [ArrayColumn.get_element_offset_size, NullableColumn.null_count]
  have hone : dst.elements.length + r + 1 - (dst.elements.length + r) = 1 := by omega
  rw [h1, h2, hone, h3]
  cases hget : src.get r with
  | none =>
    simp only [Row.of_datum, List.filter_cons_of_pos, List.filter_nil, List.length_singleton,
      Nat.sub_self, update_zero, append_null_count_one,
      ArrayAggAggregateFunction.process_null]
  | some v =>
    obtain ⟨hlen, hval⟩ := values_of_datum src r v (lt_of_lt_of_le hr hsize) hget
    have hfil : (List.filter Row.is_null [Row.of_datum (some v)]).length = 0 := by
      simp [Row.of_datum]
    rw [hfil, Nat.sub_zero, append_null_count_zero]
    unfold ArrayAggAggregateFunction.update
    apply update_one_congr
    · simp only [NullableColumn.get_data_column, List.length_map, List.length_append,
        List.length_range]
      omega
    · exact hlen
    · rw [hval]
      have : ((dst.elements ++ (List.range chunk_size).map
          (fun i => Row.of_datum (src.get i)))[dst.elements.length + r]?) =
          some (Row.of_datum (src.get r)) := by
        rw [List.getElem?_append_right (by omega)]
        simp [List.getElem?_range hr]
      simp only [NullableColumn.get_data_column, List.getD_eq_getElem?_getD, List.getElem?_map,
        this, Option.map_some', Option.getD_some, hget]
      rfl

theorem converted_cell {V : Type} [Inhabited V] (source : Column V) (k r : Nat)
    (a : ArrayColumn V) (hwf : a.well_formed) (hr : r < k) :
    (ArrayAggAggregateFunction.convert_to_serialize_format [source] k a).cell (a.size + r) =
      [Row.of_datum (source.get r)] := by
  obtain ⟨h1, h2, h3⟩ := converted_cell_read a (fun i => Row.of_datum (source.get i)) k r hwf hr
  have hsrc : ([source] : List (Column V)).getD 0 (Column.data []) = source := rfl
  rw [ArrayAggAggregateFunction.convert_to_serialize_format_fold, hsrc]
  simp only [ArrayColumn.cell, ArrayColumn.get_element_offset_size]
  have hone : a.elements.length + r + 1 - (a.elements.length + r) = 1 := by omega
  rw [h1, h2, hone, h3]

namespace ArrayAggAggregateFunctionV2

theorem convert_field_array {V : Type} [Inhabited V] (source : Column V) (chunk_size : Nat)
    (field : ArrayField V) :
    (convert_field source chunk_size field).array =
      ArrayAggAggregateFunction.convert_to_serialize_format [source] chunk_size field.array :=
  rfl

theorem convert_to_serialize_format_arrays {V : Type} [Inhabited V] (src : List (Column V))
    (chunk_size : Nat) (dst : StructColumn V) :
    (convert_to_serialize_format src chunk_size dst).arrays.length = dst.fields.length ∧
    ∀ i, (convert_to_serialize_format src chunk_size dst).arrays[i]? =
      (dst.fields[i]?).map (fun field =>
        ArrayAggAggregateFunction.convert_to_serialize_format [src.getD i (Column.data [])]
          chunk_size field.array) := by
  unfold convert_to_serialize_format StructColumn.arrays
  constructor
  · rw [List.length_map]
    exact length_foldl_modify (fun j => convert_field (src.getD j (Column.data [])) chunk_size)
      _ _
  · intro i
    rw [List.getElem?_map]
    have h := getElem?_foldl_modify
      (fun j => convert_field (src.getD j (Column.data [])) chunk_size) dst.fields.length
      dst.fields i
    simp only at h ⊢
    rw [h]
    by_cases hi : i < dst.fields.length
    · simp only [hi, if_true, Option.map_map]
      rfl
    · have : dst.fields[i]? = none := List.getElem?_eq_none (by omega)
      simp [hi, this]

/-- Claim C28.  Ordered variant: for `N` source columns with at least
`chunk_size` rows, a record of `N` well-formed fields with `base` rows each and
a row `r < chunk_size`, merging row `base + r` of the record that
`convert_to_serialize_format` produces gives the state that `update(r)` on the
source columns gives, without an error: every internal column receives one
row, the datum of its source at `r` (a null marker for a null row or a constant
null, the constant for a constant column). -/
theorem merge_converted_record_eq_update {V : Type} [Inhabited V] (ctx : FunctionContext)
    (columns : List (Column V)) (chunk_size : Nat) (dst : StructColumn V)
    (state : ArrayAggAggregateStateV2 V) (r base : Nat)
    (hargs : columns.length = ctx.num_args) (hfields : dst.fields.length = ctx.num_args)
    (hstate : state.data_columns.length = ctx.num_args)
    (hwf : ∀ field ∈ dst.fields, field.array.well_formed ∧ field.array.size = base)
    (hrows : ∀ c ∈ columns, chunk_size ≤ c.size) (hr : r < chunk_size) :
    merge (convert_to_serialize_format columns chunk_size dst).arrays state (base + r) =
      (update ctx columns state r).2 ∧
    (update ctx columns state r).1 = ctx ∧
    (update ctx columns state r).2.data_columns =
      List.zipWith (fun c source => c ++ [Row.of_datum (source.get r)])
        state.data_columns columns := by
  have hcols : ∀ i, i < ctx.num_args → r < (columns.getD i (Column.data [])).size := by
    intro i hi
    have hi' : i < columns.length := by omega
    rw [List.getD_eq_getElem?_getD, List.getElem?_eq_getElem hi', Option.getD_some]
    exact lt_of_lt_of_le hr (hrows _ (List.getElem_mem hi'))
  have h := update_from_content columns r ctx.num_args state.data_columns hcols
    ctx.num_args 0 ctx state (by omega) (by intro i; simp)
  obtain ⟨hlen, harr⟩ := convert_to_serialize_format_arrays columns chunk_size dst
  have hupd : ∀ i, (update ctx columns state r).2.data_columns[i]? =
      if i < ctx.num_args then
        (state.data_columns[i]?).map
          (fun c => c ++ [Row.of_datum ((columns.getD i (Column.data [])).get r)])
      else state.data_columns[i]? := by
    intro i
    unfold update
    rw [List.range_eq_range']
    exact h.2 i
  refine ⟨?_, ?_, ?_⟩
  · have hdc : (merge (convert_to_serialize_format columns chunk_size dst).arrays state
        (base + r)).data_columns = (update ctx columns state r).2.data_columns := by
      apply List.ext_getElem?
      intro i
      rw [merge_getElem?, hupd i, hlen, hfields]
      by_cases hi : i < ctx.num_args
      · simp only [hi, if_true]
        have hi' : i < dst.fields.length := by omega
        have hcell : ((convert_to_serialize_format columns chunk_size dst).arrays.getD i
            ArrayColumn.empty).cell (base + r) =
            [Row.of_datum ((columns.getD i (Column.data [])).get r)] := by
          rw [List.getD_eq_getElem?_getD, harr i, List.getElem?_eq_getElem hi', Option.map_some',
            Option.getD_some]
          obtain ⟨hw, hs⟩ := hwf _ (List.getElem_mem hi')
          rw [← hs]
          exact converted_cell _ chunk_size r _ hw hr
        rw [hcell]
      · simp only [hi, if_false]
    cases hm : merge (convert_to_serialize_format columns chunk_size dst).arrays state (base + r)
    cases hu : (update ctx columns state r).2
    rw [hm, hu] at hdc
    simp only at hdc
    rw [hdc]
  · unfold update
    rw [List.range_eq_range']
    exact h.1
  · apply zipWith_of_getElem? (fun c (source : Column V) => c ++ [Row.of_datum (source.get r)])
      _ _ _ (Column.data []) (by omega)
    intro i
    rw [hupd i]
    by_cases hi : i < ctx.num_args
    · simp only [hi, if_true]
    · have : state.data_columns[i]? = none := List.getElem?_eq_none (by omega)
      simp [hi, this]

end ArrayAggAggregateFunctionV2

theorem insert_keys_of_subset {K : Type} [DecidableEq K] (new keys : List K)
    (h : ∀ k ∈ new, k ∈ keys) : insert_keys keys new = keys := by
  induction new with
  | nil => rfl
  | cons k rest ih =>
    unfold insert_keys at ih ⊢
    rw [List.foldl_cons, if_pos (h k (List.mem_cons_self _ _))]
    exact ih (fun k' hk' => h k' (List.mem_cons_of_mem _ hk'))

theorem insert_keys_twice {K : Type} [DecidableEq K] (new keys : List K) :
    insert_keys (insert_keys keys new) new = insert_keys keys new :=
  insert_keys_of_subset new _ (fun k hk => (mem_insert_keys new keys k).mpr (Or.inr hk))

/-- The state that a distinct `merge` leaves, by components. -/
theorem merge_distinct_eq (slice_hash : Slice → Nat) (PT : LogicalType) (mem_pool : MemPool)
    (column : ArrayColumn (RunTimeCppType PT)) (s : ArrayAggAggregateState PT) (row_num : Nat) :
    (ArrayAggAggregateFunction.merge slice_hash PT true mem_pool column s row_num).1.set.keys =
      insert_keys s.set.keys
        ((StateCall.merge column row_num).values_read.map (key_of slice_hash PT)) ∧
    (ArrayAggAggregateFunction.merge slice_hash PT true mem_pool column s row_num).1.data_column =
      s.data_column ∧
    (ArrayAggAggregateFunction.merge slice_hash PT true mem_pool column s row_num).1.null_count =
      if 0 < (StateCall.merge column row_num).nulls_applied then 1 else s.null_count := by
  have h1 := apply_distinct_keys slice_hash PT (s, mem_pool) (StateCall.merge column row_num)
  have h2 := apply_distinct_null_count slice_hash PT (s, mem_pool)
    (StateCall.merge column row_num)
  exact ⟨h1.1, h1.2, h2⟩

theorem state_ext {PT : LogicalType} (s t : ArrayAggAggregateState PT)
    (h1 : s.set.keys = t.set.keys) (h2 : s.data_column = t.data_column)
    (h3 : s.null_count = t.null_count) : s = t := by
  cases s with
  | mk d n set =>
    cases t with
    | mk d' n' set' =>
      cases set; cases set'
      simp only at h1 h2 h3
      subst h1 h2 h3
      rfl

/-! ## The simple variant: `merge` in distinct mode -/

/-- Claim C31.  Distinct simple state whose set holds no key twice: merging a
cell a second time leaves the state the first merge left (the same dedup set,
`null_count` and elements); merging cell `A` then cell `B` gives a dedup set
with the same keys as merging `B` then `A` (the key lists are rearrangements of
each other), the same `null_count` and the same elements. -/
theorem distinct_merge_idempotent_commutative (slice_hash : Slice → Nat) (PT : LogicalType)
    (pool1 pool2 pool3 pool4 : MemPool) (A B : ArrayColumn (RunTimeCppType PT)) (a b : Nat)
    (s : ArrayAggAggregateState PT) (hset : s.set.keys.Nodup) :
    (ArrayAggAggregateFunction.merge slice_hash PT true pool2 A
        (ArrayAggAggregateFunction.merge slice_hash PT true pool1 A s a).1 a).1 =
      (ArrayAggAggregateFunction.merge slice_hash PT true pool1 A s a).1 ∧
    (∀ k, k ∈ (ArrayAggAggregateFunction.merge slice_hash PT true pool2 B
        (ArrayAggAggregateFunction.merge slice_hash PT true pool1 A s a).1 b).1.set.keys ↔
      k ∈ (ArrayAggAggregateFunction.merge slice_hash PT true pool4 A
        (ArrayAggAggregateFunction.merge slice_hash PT true pool3 B s b).1 a).1.set.keys) ∧
    ((ArrayAggAggregateFunction.merge slice_hash PT true pool2 B
        (ArrayAggAggregateFunction.merge slice_hash PT true pool1 A s a).1 b).1.set.keys).Perm
      ((ArrayAggAggregateFunction.merge slice_hash PT true pool4 A
        (ArrayAggAggregateFunction.merge slice_hash PT true pool3 B s b).1 a).1.set.keys) ∧
    (ArrayAggAggregateFunction.merge slice_hash PT true pool2 B
        (ArrayAggAggregateFunction.merge slice_hash PT true pool1 A s a).1 b).1.null_count =
      (ArrayAggAggregateFunction.merge slice_hash PT true pool4 A
        (ArrayAggAggregateFunction.merge slice_hash PT true pool3 B s b).1 a).1.null_count ∧
    (ArrayAggAggregateFunction.merge slice_hash PT true pool2 B
        (ArrayAggAggregateFunction.merge slice_hash PT true pool1 A s a).1 b).1.data_column =
      (ArrayAggAggregateFunction.merge slice_hash PT true pool4 A
        (ArrayAggAggregateFunction.merge slice_hash PT true pool3 B s b).1 a).1.data_column := by
  obtain ⟨ka, da, na⟩ := merge_distinct_eq slice_hash PT pool1 A s a
  obtain ⟨kb, db, nb⟩ := merge_distinct_eq slice_hash PT pool3 B s b
  obtain ⟨kaa, daa, naa⟩ := merge_distinct_eq slice_hash PT pool2 A
    (ArrayAggAggregateFunction.merge slice_hash PT true pool1 A s a).1 a
  obtain ⟨kab, dab, nab⟩ := merge_distinct_eq slice_hash PT pool2 B
    (ArrayAggAggregateFunction.merge slice_hash PT true pool1 A s a).1 b
  obtain ⟨kba, dba, nba⟩ := merge_distinct_eq slice_hash PT pool4 A
    (ArrayAggAggregateFunction.merge slice_hash PT true pool3 B s b).1 a
  have hmem : ∀ k, k ∈ (ArrayAggAggregateFunction.merge slice_hash PT true pool2 B
        (ArrayAggAggregateFunction.merge slice_hash PT true pool1 A s a).1 b).1.set.keys ↔
      k ∈ (ArrayAggAggregateFunction.merge slice_hash PT true pool4 A
        (ArrayAggAggregateFunction.merge slice_hash PT true pool3 B s b).1 a).1.set.keys := by
    intro k
    rw [kab, kba, ka, kb]
    simp only [mem_insert_keys]
    tauto
  refine ⟨?_, hmem, ?_, ?_, ?_⟩
  · apply state_ext
    · rw [kaa, ka, insert_keys_twice]
    · rw [daa]
    · rw [naa, na]
      split_ifs <;> rfl
  · apply (List.perm_ext_iff_of_nodup ?_ ?_).mpr hmem
    · rw [kab, ka]
      exact nodup_insert_keys _ _ (nodup_insert_keys _ _ hset)
    · rw [kba, kb]
      exact nodup_insert_keys _ _ (nodup_insert_keys _ _ hset)
  · rw [nab, nba, na, nb]
    split_ifs <;> rfl
  · rw [dab, dba, da, db]

namespace ArrayAggAggregateFunctionV2

theorem release_order_by_columns_value_column {V : Type} (state : ArrayAggAggregateStateV2 V) :
    state.release_order_by_columns.data_columns.getD 0 [] = state.data_columns.getD 0 [] := by
  unfold ArrayAggAggregateStateV2.release_order_by_columns
  cases state.data_columns <;> rfl

/-- The state and the destination that `finalize_to_column` leaves for a single
column, distinct requested and an array destination. -/
theorem finalize_to_column_single_distinct {V : Type} [Inhabited V]
    (sort : SortUtility V) (fnv_hash : Row V → Nat → Nat) (equals : Row V → Row V → Bool)
    (ctx : FunctionContext) (state : ArrayAggAggregateStateV2 V) (dst : OutColumn V)
    (hone : state.data_columns.length = 1) (hdistinct : ctx.is_distinct = true)
    (harr : dst.is_array = true) :
    (finalize_to_column sort fnv_hash equals ctx state dst).state.data_columns =
      [(remove_duplicated fnv_hash equals (state.data_columns.getD 0 [])
        (state.data_columns.getD 0 []).length).1] ∧
    (finalize_to_column sort fnv_hash equals ctx state dst).dst.array_col.map
        ArrayColumn.elements =
      dst.array_col.map (fun col => col.elements ++
        (remove_duplicated fnv_hash equals (state.data_columns.getD 0 [])
          (state.data_columns.getD 0 []).length).1) := by
  have hgt : ¬ state.data_columns.length > 1 := by omega
  have hord := order_values_single sort ctx state (le_of_eq hone)
  constructor
  · unfold finalize_to_column
    rw [defer_state]
    simp only [harr, hord, hdistinct, Bool.not_true, if_true, Bool.false_eq_true, if_false, hgt]
    cases hc : state.data_columns with
    | nil => rw [hc] at hone; simp at hone
    | cons c rest =>
      rw [hc] at hone
      have : rest = [] := List.length_eq_zero.mp (by simpa using hone)
      subst this
      rfl
  · unfold finalize_to_column
    rw [defer_elements]
    simp only [harr, hord, hdistinct, Bool.not_true, if_true, Bool.false_eq_true, if_false]
    rw [remove_duplicated_kept]
    exact append_result_elements dst _

/-! ## The ordered variant: the value column after `finalize_to_column` -/

/-- Claim C32, as amended.  `finalize_to_column` leaves the content of the
value column `columns[0]` of the state unchanged when the state has `N >= 2`
columns (distinct or not), when distinct is not requested, and when the
destination is not an array.  With a single column, distinct requested and an
array destination the filter acts on the state column itself: after the call
`columns[0]` holds the rows emitted, a sublist of its previous content. -/
theorem finalize_to_column_value_column {V : Type} [Inhabited V]
    (sort : SortUtility V) (fnv_hash : Row V → Nat → Nat) (equals : Row V → Row V → Bool)
    (ctx : FunctionContext) (state : ArrayAggAggregateStateV2 V) (dst : OutColumn V) :
    ((2 ≤ state.data_columns.length ∨ ctx.is_distinct = false ∨ dst.is_array = false) →
      (finalize_to_column sort fnv_hash equals ctx state dst).state.data_columns.getD 0 [] =
        state.data_columns.getD 0 []) ∧
    (state.data_columns.length = 1 → ctx.is_distinct = true → dst.is_array = true →
      (finalize_to_column sort fnv_hash equals ctx state dst).dst.array_col.map
          ArrayColumn.elements =
        dst.array_col.map (fun col => col.elements ++
          (finalize_to_column sort fnv_hash equals ctx state dst).state.data_columns.getD 0 []) ∧
      ((finalize_to_column sort fnv_hash equals ctx state dst).state.data_columns.getD 0
        []).Sublist (state.data_columns.getD 0 [])) := by
  constructor
  · intro hcase
    by_cases harr : dst.is_array = true
    · by_cases hN : 2 ≤ state.data_columns.length
      · have hgt : state.data_columns.length > 1 := hN
        have hst := order_values_state sort ctx state hN
        have hrel := release_order_by_columns_value_column state
        unfold finalize_to_column
        rw [defer_state]
        simp only [harr, Bool.not_true, Bool.false_eq_true, if_false, hgt, if_true]
        rcases hov : order_values sort ctx state with ⟨ctx1, state1, _ | res⟩
        · rw [hov] at hst
          simp only at hst ⊢
          rw [hst, hrel]
        · rw [hov] at hst
          simp only at hst ⊢
          split <;> simp only <;> rw [hst, hrel]
      · have hdistinct : ctx.is_distinct = false := by
          rcases hcase with h | h | h
          · exact absurd h hN
          · exact h
          · rw [harr] at h; cases h
        have hord := order_values_single sort ctx state (by omega)
        unfold finalize_to_column
        rw [defer_state]
        simp only [harr, hord, hdistinct, Bool.not_true, Bool.false_eq_true, if_false]
    · have hfalse : dst.is_array = false := by simpa using harr
      unfold finalize_to_column
      rw [defer_state]
      simp only [hfalse, Bool.not_false, if_true]
  · intro hone hdistinct harr
    obtain ⟨hs, hd⟩ := finalize_to_column_single_distinct sort fnv_hash equals ctx state dst
      hone hdistinct harr
    rw [hd, hs]
    refine ⟨rfl, ?_⟩
    rw [remove_duplicated_kept]
    exact rows_kept_sublist _ _

end ArrayAggAggregateFunctionV2

/-! ## The simple variant: `merge` of a cell of an intermediate result -/

theorem le_offsets_back {V : Type} (a : ArrayColumn V) (h : a.offsets.Pairwise (· ≤ ·))
    (o : Nat) (ho : o ∈ a.offsets) : o ≤ a.offsets_back := by
  unfold ArrayColumn.offsets_back
  generalize a.offsets = l at h ho
  induction l using List.reverseRecOn with
  | nil => cases ho
  | append_singleton init last _ =>
    rw [List.getLastD_concat]
    rw [List.pairwise_append] at h
    rcases List.mem_append.mp ho with hin | hlast
    · exact h.2.2 o hin last (List.mem_singleton_self _)
    · rw [List.mem_singleton.mp hlast]

/-- One more cell at the end of a column keeps the cells before it. -/
theorem cell_before_appended {V : Type} (a : ArrayColumn V) (rows : NullableColumn V)
    (hwf : a.well_formed) (r : Nat) (hr : r < a.size) :
    (⟨a.elements ++ rows, a.offsets ++ [a.offsets_back + rows.length]⟩ :
      ArrayColumn V).cell r = a.cell r := by
  obtain ⟨_, hpair, hback⟩ := hwf
  unfold ArrayColumn.size at hr
  have h1 : r < a.offsets.length := by omega
  have h2 : r + 1 < a.offsets.length := by omega
  have ho1 : a.offsets.getD r 0 ≤ a.elements.length := by
    rw [← hback]
    apply le_offsets_back a hpair
    rw [List.getD_eq_getElem?_getD, List.getElem?_eq_getElem h1, Option.getD_some]
    exact List.getElem_mem h1
  have ho2 : a.offsets.getD (r + 1) 0 ≤ a.elements.length := by
    rw [← hback]
    apply le_offsets_back a hpair
    rw [List.getD_eq_getElem?_getD, List.getElem?_eq_getElem h2, Option.getD_some]
    exact List.getElem_mem h2
  have e1 : (a.offsets ++ [a.offsets_back + rows.length]).getD r 0 = a.offsets.getD r 0 := by
    rw [List.getD_eq_getElem?_getD, List.getElem?_append_left h1, ← List.getD_eq_getElem?_getD]
  have e2 : (a.offsets ++ [a.offsets_back + rows.length]).getD (r + 1) 0 =
      a.offsets.getD (r + 1) 0 := by
    rw [List.getD_eq_getElem?_getD, List.getElem?_append_left h2, ← List.getD_eq_getElem?_getD]
  simp only [ArrayColumn.cell, ArrayColumn.get_element_offset_size]
  rw [e1, e2, List.drop_append_of_le_length ho1,
    List.take_append_of_le_length (by rw [List.length_drop]; omega)]

theorem nulls_last_values_then_nulls {V : Type} [Inhabited V] (elem : List V) (n : Nat) :
    nulls_last (elem.map (fun v => (⟨v, false⟩ : Row V)) ++
      List.replicate n (⟨default, true⟩ : Row V)) := by
  unfold nulls_last
  rw [List.pairwise_append]
  refine ⟨?_, ?_, ?_⟩
  · rw [List.pairwise_map]
    exact List.pairwise_of_forall (fun _ _ h => by cases h)
  · apply List.pairwise_of_forall_mem_list
    intro x hx y hy _
    exact (List.eq_of_mem_replicate hy) ▸ rfl
  · intro x _ y hy _
    exact (List.eq_of_mem_replicate hy) ▸ rfl

theorem nulls_last_singleton {V : Type} (r : Row V) : nulls_last [r] := by
  unfold nulls_last
  exact List.pairwise_singleton _ _

/-- One more cell whose nulls come last keeps the invariant. -/
theorem cells_nulls_last_append {V : Type} (a : ArrayColumn V) (rows : NullableColumn V)
    (h : cells_nulls_last a) (hrows : nulls_last rows) :
    cells_nulls_last (⟨a.elements ++ rows, a.offsets ++ [a.offsets_back + rows.length]⟩ :
      ArrayColumn V) := by
  obtain ⟨hwf, hcells⟩ := h
  obtain ⟨hhead, hpair, hback⟩ := hwf
  have hne : a.offsets ≠ [] := by
    intro h; rw [h] at hhead; simp at hhead
  have hpos : 0 < a.offsets.length := List.length_pos.mpr hne
  refine ⟨⟨?_, ?_, ?_⟩, ?_⟩
  · simp only
    rw [List.head?_append_of_ne_nil _ hne]
    exact hhead
  · simp only
    rw [List.pairwise_append]
    refine ⟨hpair, List.pairwise_singleton _ _, ?_⟩
    intro o ho x hx
    rw [List.mem_singleton.mp hx]
    exact le_trans (le_offsets_back a hpair o ho) (Nat.le_add_right _ _)
  · simp only [ArrayColumn.offsets_back, List.getLastD_concat, List.length_append]
    rw [← hback]
    rfl
  · intro r hr
    simp only [ArrayColumn.size, List.length_append, List.length_singleton] at hr
    by_cases hlt : r < a.size
    · rw [cell_before_appended a rows ⟨hhead, hpair, hback⟩ r hlt]
      exact hcells r hlt
    · have hreq : r = a.size := by
        unfold ArrayColumn.size at hlt ⊢
        omega
      have hc := (cell_of_appended a rows [] ⟨hhead, hpair, hback⟩).1
      rw [List.append_nil] at hc
      rw [hreq, hc]
      exact hrows

theorem cells_nulls_last_empty {V : Type} : cells_nulls_last (ArrayColumn.empty : ArrayColumn V) := by
  refine ⟨⟨rfl, List.pairwise_singleton _ _, rfl⟩, ?_⟩
  intro r hr
  simp [ArrayColumn.size, ArrayColumn.empty] at hr

theorem cells_nulls_last_convert {V : Type} [Inhabited V] (src : List (Column V)) (k : Nat)
    (a : ArrayColumn V) (h : cells_nulls_last a) :
    cells_nulls_last (ArrayAggAggregateFunction.convert_to_serialize_format src k a) := by
  induction k with
  | zero => exact h
  | succ k ih =>
    unfold ArrayAggAggregateFunction.convert_to_serialize_format at ih ⊢
    rw [List.range_succ, List.foldl_append]
    simp only [List.foldl_cons, List.foldl_nil]
    rw [append_datum_eq]
    exact cells_nulls_last_append _ _ ih (nulls_last_singleton _)

theorem cells_nulls_last_run {PT : LogicalType} (calls : List (WriteCall PT)) :
    cells_nulls_last (WriteCall.run calls) := by
  induction calls using List.reverseRecOn with
  | nil => exact cells_nulls_last_empty
  | append_singleton calls c ih =>
    unfold WriteCall.run at ih ⊢
    rw [List.foldl_append, List.foldl_cons, List.foldl_nil]
    cases c with
    | serialize_to_column is_distinct order state =>
      simp only [WriteCall.apply, ArrayAggAggregateFunction.serialize_to_column]
      rw [append_array_element_eq, List.append_nil]
      exact cells_nulls_last_append _ _ ih (nulls_last_values_then_nulls _ _)
    | convert_to_serialize_format src chunk_size =>
      exact cells_nulls_last_convert src chunk_size _ ih

/-- Claim C7.  Non-distinct `merge` of a cell of an intermediate result, that is
a cell that lies inside its column and holds the rows of a cell written by
`serialize_to_column` or `convert_to_serialize_format` (the two functions that
write what `merge` reads): the non-null elements of the cell are appended to the
elements of the state, in their order, and the number of null elements of the
cell is added to `null_count`. -/
theorem merge_appends_non_null_elements (slice_hash : Slice → Nat) (PT : LogicalType)
    (mem_pool : MemPool) (input_column : ArrayColumn (RunTimeCppType PT))
    (state : ArrayAggAggregateState PT) (row_num : Nat)
    (hcell : input_column.written_cell row_num) :
    (ArrayAggAggregateFunction.merge slice_hash PT false mem_pool input_column state
        row_num).1.data_column =
      state.data_column ++
        ((input_column.cell row_num).filter (fun r => !r.is_null)).map Row.value ∧
    (ArrayAggAggregateFunction.merge slice_hash PT false mem_pool input_column state
        row_num).1.null_count =
      state.null_count + ((input_column.cell row_num).filter Row.is_null).length := by
  obtain ⟨hin, calls, r, hr, heq⟩ := hcell
  have hlast : nulls_last (input_column.cell row_num) := by
    rw [heq]
    exact (cells_nulls_last_run calls).2 r hr
  exact merge_nulls_last_cell slice_hash PT mem_pool input_column state row_num hin hlast

end starrocks

/-! ## Witnesses and counterexamples -/

namespace starrocks

open Example

/-- Claim C1, witness: value `[1,1,2]` with the same order-by key for the two
`1`s, a hash with collisions: the theorem applies and the rows emitted are
`[1,2]`. -/
theorem finalize_to_column_distinct_first_occurrences_witness :
    (ArrayAggAggregateFunctionV2.finalize_to_column stable_ascending_sort parity_hash row_equals
        (ctx_order_by true) state_1_1_2 (OutColumn.array ArrayColumn.empty)).dst.array_col.map
        ArrayColumn.elements = some [row 1, row 2] :=
  (ArrayAggAggregateFunctionV2.finalize_to_column_distinct_first_occurrences
    stable_ascending_sort parity_hash row_equals (ctx_order_by true) (ctx_order_by true)
    state_1_1_2 ⟨[[row 1, row 1, row 2]]⟩ (OutColumn.array ArrayColumn.empty)
    [row 1, row 1, row 2] (by decide) (by decide) (by decide) (by decide)
    (by
      intro ⟨av, an⟩ ⟨bv, bn⟩
      cases an <;> cases bn <;> simp [row_equals, parity_hash]
      intro h; rw [h])
    (by
      intro ⟨av, an⟩
      cases an <;> simp [row_equals])
    (by
      intro ⟨av, an⟩ ⟨bv, bn⟩
      cases an <;> cases bn <;> simp [row_equals]
      intro h; rw [h])
    (by
      intro ⟨av, an⟩ ⟨bv, bn⟩ ⟨cv, cn⟩
      cases an <;> cases bn <;> cases cn <;> simp [row_equals]
      intro h1 h2; rw [h1, h2])).1.trans (by decide)

/-- Claim C2, witness: value `[3,1,2]`, key `[30,10,20]`, one ascending key and a
stable sort: the theorem applies and the rows emitted are `[1,2,3]`. -/
theorem finalize_to_column_sorted_by_permutation_witness :
    (ArrayAggAggregateFunctionV2.finalize_to_column stable_ascending_sort parity_hash row_equals
        (ctx_order_by false) state_3_1_2 (OutColumn.array ArrayColumn.empty)).dst.array_col.map
        ArrayColumn.elements = some [row 1, row 2, row 3] :=
  (ArrayAggAggregateFunctionV2.finalize_to_column_sorted_by_permutation
    stable_ascending_sort parity_hash row_equals (ctx_order_by false) state_3_1_2
    (OutColumn.array ArrayColumn.empty) (by decide) (by decide) (by decide) (by decide)
    (by decide) (by decide) (by decide)).trans (by decide)

/-- Claim C3, counterexample: the claim as stated fails.  After one `merge` of
row `0` of a record whose two arrays have cells of lengths `1` and `0`, the
two internal columns are `[1]` and `[]`: their lengths differ. -/
theorem ordered_state_equal_lengths_counterexample :
    (StateCallV2.run (ctx_order_by false, ArrayAggAggregateFunctionV2.create (ctx_order_by false))
        [StateCallV2.merge [⟨[row 1], [0, 1]⟩, ⟨[], [0, 0]⟩] 0]).2 = ⟨[[row 1], []]⟩ ∧
    ¬ (StateCallV2.run (ctx_order_by false, ArrayAggAggregateFunctionV2.create (ctx_order_by false))
        [StateCallV2.merge [⟨[row 1], [0, 1]⟩, ⟨[], [0, 0]⟩] 0]).2.equal_lengths := by
  decide

/-- Claim C3, witness of the amended claim: three aligned calls on a state of
two columns. -/
theorem ordered_state_equal_lengths_witness :
    (StateCallV2.run (ctx_order_by false, ArrayAggAggregateFunctionV2.create (ctx_order_by false))
      aligned_calls).2.equal_lengths ∧
    (StateCallV2.run (ctx_order_by false, ArrayAggAggregateFunctionV2.create (ctx_order_by false))
      aligned_calls).2.data_columns.length = 2 :=
  ordered_state_equal_lengths (ctx_order_by false) aligned_calls (by decide)

/-- Claim C4, the code at the failing input: `update` of row `0` from two source
columns of sizes `1` and `0`, on the empty state of two columns.  The error is
reported, but the first internal column has already received the row: the
state is not the one before the call. -/
theorem update_row_overflow_leaves_partial_row :
    ArrayAggAggregateFunctionV2.update (ctx_order_by false) [Column.data [7], Column.data []]
        (ArrayAggAggregateFunctionV2.create (ctx_order_by false)) 0 =
      ((ctx_order_by false).set_error "array_agg2's update row number overflow",
        ⟨[[row 7], []]⟩) ∧
    (ArrayAggAggregateFunctionV2.update (ctx_order_by false) [Column.data [7], Column.data []]
        (ArrayAggAggregateFunctionV2.create (ctx_order_by false)) 0).2 ≠
      ArrayAggAggregateFunctionV2.create (ctx_order_by false) := by
  decide

/-- Claim C5, witness: updates, nulls and a merge on a state of integers. -/
theorem plain_state_counts_rows_witness :
    (StateCall.run sum_hash false (ArrayAggAggregateState.init TYPE_BIGINT, ⟨[]⟩)
        plain_calls).1.data_column.length +
      (StateCall.run sum_hash false (ArrayAggAggregateState.init TYPE_BIGINT, ⟨[]⟩)
        plain_calls).1.null_count =
      (plain_calls.map StateCall.rows_applied).sum :=
  plain_state_counts_rows sum_hash TYPE_BIGINT ⟨[]⟩ plain_calls (by decide)

/-- Claim C7, witness: the column written by a serialization and a conversion;
cell `0` holds `1, 2` and three nulls, cell `2` is the converted null row. -/
theorem merge_appends_non_null_elements_witness :
    (ArrayAggAggregateFunction.merge sum_hash TYPE_BIGINT false ⟨[]⟩ (WriteCall.run written_calls)
        plain_state 0).1.data_column = ([1, 2, 1, 2] : List Int) ∧
    (ArrayAggAggregateFunction.merge sum_hash TYPE_BIGINT false ⟨[]⟩ (WriteCall.run written_calls)
        plain_state 0).1.null_count = 6 ∧
    (ArrayAggAggregateFunction.merge sum_hash TYPE_BIGINT false ⟨[]⟩ (WriteCall.run written_calls)
        plain_state 2).1.data_column = ([1, 2] : List Int) ∧
    (ArrayAggAggregateFunction.merge sum_hash TYPE_BIGINT false ⟨[]⟩ (WriteCall.run written_calls)
        plain_state 2).1.null_count = 4 :=
  have h0 := merge_appends_non_null_elements sum_hash TYPE_BIGINT ⟨[]⟩
    (WriteCall.run written_calls) plain_state 0
    ⟨by decide, written_calls, 0, by decide, rfl⟩
  have h2 := merge_appends_non_null_elements sum_hash TYPE_BIGINT ⟨[]⟩
    (WriteCall.run written_calls) plain_state 2
    ⟨by decide, written_calls, 2, by decide, rfl⟩
  ⟨h0.1.trans (by decide), h0.2.trans (by decide), h2.1.trans (by decide),
    h2.2.trans (by decide)⟩

/-- Claim C8, witness: a state with two elements and three nulls, serialized
after an existing cell. -/
theorem serialize_merge_round_trip_witness :
    (ArrayAggAggregateFunction.merge sum_hash TYPE_BIGINT false ⟨[]⟩
        (ArrayAggAggregateFunction.serialize_to_column false (IterationOrder.insertion _)
          plain_state cell_5_null).2
        (ArrayAggAggregateState.init TYPE_BIGINT) cell_5_null.size).1.data_column =
      plain_state.data_column ∧
    (ArrayAggAggregateFunction.merge sum_hash TYPE_BIGINT false ⟨[]⟩
        (ArrayAggAggregateFunction.serialize_to_column false (IterationOrder.insertion _)
          plain_state cell_5_null).2
        (ArrayAggAggregateState.init TYPE_BIGINT) cell_5_null.size).1.null_count =
      plain_state.null_count :=
  serialize_merge_round_trip sum_hash TYPE_BIGINT ⟨[]⟩ (IterationOrder.insertion _) plain_state
    cell_5_null (by decide)

/-- Claim C9, witness: the cells `[5, null]`, `[null, 5]` and `[5, null]`, the
partial state serialized in reversed iteration order. -/
theorem distinct_merge_associative_witness :
    let L := (StateCall.run sum_hash true (ArrayAggAggregateState.init TYPE_BIGINT, ⟨[]⟩)
      [StateCall.merge cell_5_null 0, StateCall.merge cell_null_5 0,
        StateCall.merge cell_5_null 0]).1
    let T := (StateCall.run sum_hash true (ArrayAggAggregateState.init TYPE_BIGINT, ⟨[]⟩)
      [StateCall.merge cell_5_null 0, StateCall.merge cell_null_5 0]).1
    let AB := (ArrayAggAggregateFunction.serialize_to_column true (IterationOrder.reversed _) T
      cell_5_null).2
    let R := (StateCall.run sum_hash true (ArrayAggAggregateState.init TYPE_BIGINT, ⟨[]⟩)
      [StateCall.merge AB cell_5_null.size, StateCall.merge cell_5_null 0]).1
    L.set.keys.Perm R.set.keys ∧ L.null_count = R.null_count ∧
      (L.get_data_column true (IterationOrder.insertion _)).data_column.Perm
        (R.get_data_column true (IterationOrder.reversed _)).data_column :=
  distinct_merge_associative sum_hash TYPE_BIGINT ⟨[]⟩ ⟨[]⟩ ⟨[]⟩ (IterationOrder.reversed _)
    (IterationOrder.insertion _) (IterationOrder.reversed _) cell_5_null cell_null_5 cell_5_null
    0 0 0 cell_5_null (by decide)

/-- Claim C10, witness: updates of strings with repeated values, read in
reversed iteration order. -/
theorem distinct_state_first_get_data_column_witness :
    (((StateCall.run sum_hash true (ArrayAggAggregateState.init LogicalType.string, ⟨[]⟩)
        string_calls).1.get_data_column true (IterationOrder.reversed _)).data_column).Nodup ∧
    (∀ v, v ∈ ((StateCall.run sum_hash true (ArrayAggAggregateState.init LogicalType.string, ⟨[]⟩)
        string_calls).1.get_data_column true (IterationOrder.reversed _)).data_column ↔
      v ∈ string_calls.flatMap StateCall.values_applied) ∧
    (((StateCall.run sum_hash true (ArrayAggAggregateState.init LogicalType.string, ⟨[]⟩)
        string_calls).1.get_data_column true (IterationOrder.reversed _)).data_column).length =
      (string_calls.flatMap StateCall.values_applied).dedup.length :=
  distinct_state_first_get_data_column sum_hash LogicalType.string ⟨[]⟩
    (IterationOrder.reversed _) string_calls (by decide)

/-- Claim C11, witness: a destination column of integers; the error is
recorded, one default row is appended and the state is as before. -/
theorem finalize_to_column_not_array_witness :
    (ArrayAggAggregateFunctionV2.finalize_to_column stable_ascending_sort parity_hash row_equals
        (ctx_order_by false) state_3_1_2 int_destination).ctx.error_msg =
      some "The output column of array_agg2 finalize_to_column() is not array, but is int" ∧
    (ArrayAggAggregateFunctionV2.finalize_to_column stable_ascending_sort parity_hash row_equals
        (ctx_order_by false) state_3_1_2 int_destination).dst = OutColumn.other "int" 4 ∧
    (ArrayAggAggregateFunctionV2.finalize_to_column stable_ascending_sort parity_hash row_equals
        (ctx_order_by false) state_3_1_2 int_destination).state = state_3_1_2 :=
  have h := ArrayAggAggregateFunctionV2.finalize_to_column_not_array stable_ascending_sort
    parity_hash row_equals (ctx_order_by false) state_3_1_2 int_destination (by decide)
  ⟨by rw [h.1]; decide, h.2.2.1, h.2.2.2.2⟩

/-- Claim C12, witness: a cancelled query; the destination receives the
placeholder only. -/
theorem finalize_to_column_cancelled_witness :
    (ArrayAggAggregateFunctionV2.finalize_to_column stable_ascending_sort parity_hash row_equals
        ctx_cancelled state_3_1_2 (OutColumn.array ArrayColumn.empty)).ctx.error_msg =
      some "array_agg detects cancelled." ∧
    (ArrayAggAggregateFunctionV2.finalize_to_column stable_ascending_sort parity_hash row_equals
        ctx_cancelled state_3_1_2 (OutColumn.array ArrayColumn.empty)).dst =
      OutColumn.array ⟨[], [0, 0]⟩ :=
  have h := ArrayAggAggregateFunctionV2.finalize_to_column_cancelled stable_ascending_sort
    parity_hash row_equals ctx_cancelled state_3_1_2 (OutColumn.array ArrayColumn.empty)
    (by decide) (by decide) (by decide)
  ⟨by rw [h.1]; decide, h.2.2.1⟩

/-- Claim C13, witness: a sort utility that fails; its status is the error and
the destination receives the placeholder only. -/
theorem finalize_to_column_sort_failed_witness :
    (ArrayAggAggregateFunctionV2.finalize_to_column failing_sort parity_hash row_equals
        (ctx_order_by false) state_3_1_2 (OutColumn.array ArrayColumn.empty)).ctx.error_msg =
      some "Internal error: sort failed" ∧
    (ArrayAggAggregateFunctionV2.finalize_to_column failing_sort parity_hash row_equals
        (ctx_order_by false) state_3_1_2 (OutColumn.array ArrayColumn.empty)).dst =
      OutColumn.array ⟨[], [0, 0]⟩ :=
  have h := ArrayAggAggregateFunctionV2.finalize_to_column_sort_failed failing_sort
    parity_hash row_equals (ctx_order_by false) state_3_1_2 (OutColumn.array ArrayColumn.empty)
    (by decide) (by decide) (by decide) (by decide)
  ⟨by rw [h.1]; decide, h.2.2.1⟩

/-- Claim C14, witness: after the finalize of value `[3,1,2]` with one key the
state holds the value column only. -/
theorem finalize_to_column_releases_order_by_witness :
    (ArrayAggAggregateFunctionV2.finalize_to_column stable_ascending_sort parity_hash row_equals
        (ctx_order_by true) state_3_1_2 (OutColumn.array ArrayColumn.empty)).state.data_columns =
      [state_3_1_2.data_columns.getD 0 []] :=
  ArrayAggAggregateFunctionV2.finalize_to_column_releases_order_by stable_ascending_sort
    parity_hash row_equals (ctx_order_by true) state_3_1_2 (OutColumn.array ArrayColumn.empty)
    (by decide) (by decide)

/-- Claim C15, witness: a single column `[3,1,2]` finalized after the cell
`[1]`, with a cancelled flag set: the new cell is `[3,1,2]`. -/
theorem finalize_to_column_single_column_witness :
    ∃ col', (ArrayAggAggregateFunctionV2.finalize_to_column failing_sort parity_hash row_equals
        { ctx_single false with cancelled := true } state_single
        (OutColumn.array one_cell)).dst.array_col = some col' ∧
      col'.elements = one_cell.elements ++ state_single.data_columns.getD 0 [] ∧
      col'.cell one_cell.size = state_single.data_columns.getD 0 [] ∧
      (col'.get_element_offset_size one_cell.size).2 =
        (state_single.data_columns.getD 0 []).length :=
  ArrayAggAggregateFunctionV2.finalize_to_column_single_column failing_sort parity_hash
    row_equals { ctx_single false with cancelled := true } state_single
    (OutColumn.array one_cell) one_cell rfl (by decide) (by decide) (by decide)

/-- Claim C16, witness: row `1` of a plain column and of a nullable column
whose row `1` is null. -/
theorem update_appends_one_row_witness :
    (ArrayAggAggregateFunctionV2.update (ctx_order_by false) source_columns state_3_1_2 1).1 =
      ctx_order_by false ∧
    (ArrayAggAggregateFunctionV2.update (ctx_order_by false) source_columns state_3_1_2
        1).2.data_columns =
      List.zipWith (fun c source => c ++ [Row.of_datum (source.get 1)])
        state_3_1_2.data_columns source_columns :=
  ArrayAggAggregateFunctionV2.update_appends_one_row (ctx_order_by false) source_columns
    state_3_1_2 1 (by decide) (by decide) (by decide)

/-- Claim C17, witness: a record of two arrays merged into a state of two
columns. -/
theorem merge_appends_cells_witness :
    (ArrayAggAggregateFunctionV2.merge record_columns state_3_1_2 0).data_columns =
      List.zipWith (fun c (a : ArrayColumn Int) => c ++ a.cell 0)
        state_3_1_2.data_columns record_columns :=
  ArrayAggAggregateFunctionV2.merge_appends_cells record_columns state_3_1_2 0 (by decide)
    (by decide)

/-- Claim C18, witness: the state with value `[3,1,2]` and key `[30,10,20]`. -/
theorem serialize_merge_round_trip_ordered_witness :
    ArrayAggAggregateFunctionV2.merge
      (ArrayAggAggregateFunctionV2.serialize_to_column state_3_1_2 empty_record).arrays
      (ArrayAggAggregateFunctionV2.create (ctx_order_by false)) 0 = state_3_1_2 :=
  ArrayAggAggregateFunctionV2.serialize_merge_round_trip_ordered (ctx_order_by false)
    state_3_1_2 empty_record (by decide) (by decide) (by decide)

/-- Claim C19, counterexample: the claim as stated fails.  With two arguments,
after one `update` and a `finalize_to_column` into an array, `reset` leaves a
single empty column, not the two that `create` produces. -/
theorem reset_restores_created_state_counterexample :
    ArrayAggAggregateFunctionV2.reset
      (LifeCallV2.run stable_ascending_sort parity_hash row_equals
        (ctx_order_by false, ArrayAggAggregateFunctionV2.create (ctx_order_by false))
        finalized_calls).2 = ⟨[[]]⟩ ∧
    ArrayAggAggregateFunctionV2.reset
      (LifeCallV2.run stable_ascending_sort parity_hash row_equals
        (ctx_order_by false, ArrayAggAggregateFunctionV2.create (ctx_order_by false))
        finalized_calls).2 ≠ ArrayAggAggregateFunctionV2.create (ctx_order_by false) := by
  decide

/-- Claim C19, witness of the amended claim: a life whose only finalize has a
destination that is not an array. -/
theorem reset_restores_created_state_witness :
    ArrayAggAggregateFunctionV2.reset
      (LifeCallV2.run stable_ascending_sort parity_hash row_equals
        (ctx_order_by false, ArrayAggAggregateFunctionV2.create (ctx_order_by false))
        life_calls).2 = ArrayAggAggregateFunctionV2.create (ctx_order_by false) :=
  reset_restores_created_state stable_ascending_sort parity_hash row_equals (ctx_order_by false)
    life_calls (by decide)

/-- Claim C20, witness: the three rows `[5, null, 7]` converted after the cell
`[1]`: the cells `[5]`, `[null]` and `[7]` are appended. -/
theorem convert_to_serialize_format_cells_witness :
    (ArrayAggAggregateFunction.convert_to_serialize_format nullable_source 3 one_cell).size =
      one_cell.size + 3 ∧
    (ArrayAggAggregateFunction.convert_to_serialize_format nullable_source 3 one_cell).offsets =
      one_cell.offsets ++ (List.range 3).map (fun i => one_cell.offsets_back + i + 1) ∧
    (ArrayAggAggregateFunction.convert_to_serialize_format nullable_source 3 one_cell).elements =
      one_cell.elements ++ (List.range 3).map
        (fun i => Row.of_datum ((nullable_source.getD 0 (Column.data [])).get i)) ∧
    (∀ i, i < 3 →
      (ArrayAggAggregateFunction.convert_to_serialize_format nullable_source 3 one_cell).cell
          (one_cell.size + i) =
        [Row.of_datum ((nullable_source.getD 0 (Column.data [])).get i)]) :=
  ArrayAggAggregateFunction.convert_to_serialize_format_cells nullable_source 3 one_cell
    (by decide) (by decide)

/-- Claim C22, witness: updates, nulls and a merge on a state of integers,
serialized after an existing cell: the cell holds `2, 3, 5, 2, 2` and four
nulls. -/
theorem serialize_to_column_plain_cell_witness :
    (ArrayAggAggregateFunction.serialize_to_column false (IterationOrder.insertion _)
        (StateCall.run sum_hash false (ArrayAggAggregateState.init TYPE_BIGINT, ⟨[]⟩)
          plain_calls).1 cell_5_null).2.cell cell_5_null.size =
      ([⟨2, false⟩, ⟨3, false⟩, ⟨5, false⟩, ⟨2, false⟩, ⟨2, false⟩, ⟨0, true⟩, ⟨0, true⟩,
        ⟨0, true⟩, ⟨0, true⟩] : List (Row Int)) ∧
    ((ArrayAggAggregateFunction.serialize_to_column false (IterationOrder.insertion _)
        (StateCall.run sum_hash false (ArrayAggAggregateState.init TYPE_BIGINT, ⟨[]⟩)
          plain_calls).1 cell_5_null).2.cell cell_5_null.size).length =
      (plain_calls.map StateCall.rows_applied).sum :=
  have h := serialize_to_column_plain_cell sum_hash TYPE_BIGINT ⟨[]⟩ (IterationOrder.insertion _)
    plain_calls cell_5_null (by decide) (by decide)
  ⟨h.1.trans (by decide), h.2.1⟩

/-- Claim C23, the code at the failing input: `finalize_to_column` of the state
`[3,1,2]` into an empty array column, with a context that holds the error of
an earlier call.  The call succeeds and appends the cell; the deferred block
then sees `has_error()` and appends a default row as well: the destination
has two rows more, not one. -/
theorem finalize_to_column_appends_two_rows :
    (OutColumn.array (ArrayColumn.empty : ArrayColumn Int)).size = 0 ∧
    (ArrayAggAggregateFunctionV2.finalize_to_column stable_ascending_sort parity_hash row_equals
        ctx_with_error state_single (OutColumn.array ArrayColumn.empty)).dst =
      OutColumn.array ⟨[row 3, row 1, row 2], [0, 3, 3]⟩ ∧
    (ArrayAggAggregateFunctionV2.finalize_to_column stable_ascending_sort parity_hash row_equals
        ctx_with_error state_single (OutColumn.array ArrayColumn.empty)).dst.size = 2 ∧
    (ArrayAggAggregateFunctionV2.finalize_to_column stable_ascending_sort parity_hash row_equals
        ctx_with_error state_single (OutColumn.array ArrayColumn.empty)).ctx = ctx_with_error := by
  decide

/-- Claim C24, witness: the column `[1, null, 1, null]` with a hash that gives
the two null rows different hashes. -/
theorem finalize_to_column_distinct_sound_witness :
    ∃ keep : Nat → Bool,
      (ArrayAggAggregateFunctionV2.finalize_to_column stable_ascending_sort stored_value_hash
          row_equals (ctx_single true) state_with_nulls
          (OutColumn.array ArrayColumn.empty)).dst.array_col.map ArrayColumn.elements =
        some (rows_kept keep [row 1, ⟨7, true⟩, row 1, ⟨8, true⟩]) ∧
      keep 0 = true ∧
      (rows_kept keep [row 1, ⟨7, true⟩, row 1, ⟨8, true⟩]).Sublist
        [row 1, ⟨7, true⟩, row 1, ⟨8, true⟩] :=
  (ArrayAggAggregateFunctionV2.finalize_to_column_distinct_sound stable_ascending_sort
    stored_value_hash row_equals (ctx_single true) (ctx_single true) state_with_nulls
    state_with_nulls (OutColumn.array ArrayColumn.empty) [row 1, ⟨7, true⟩, row 1, ⟨8, true⟩]
    (by decide) (by decide) (by decide) (by decide)).imp
    (fun _ h => ⟨h.1, h.2.2.1, h.2.2.2.2.1⟩)

/-- Claim C25, witness: value `[3,1,2]`, key `[30,10,20]` and a stable
ascending sort. -/
theorem finalize_to_column_sorted_rearranges_witness :
    ∃ emitted : NullableColumn Int,
      (ArrayAggAggregateFunctionV2.finalize_to_column stable_ascending_sort parity_hash row_equals
          (ctx_order_by false) state_3_1_2
          (OutColumn.array ArrayColumn.empty)).dst.array_col.map ArrayColumn.elements =
        some emitted ∧
      emitted.Perm [row 3, row 1, row 2] ∧ emitted.length = 3 :=
  (ArrayAggAggregateFunctionV2.finalize_to_column_sorted_rearranges stable_ascending_sort
    parity_hash row_equals (ctx_order_by false) state_3_1_2 (OutColumn.array ArrayColumn.empty)
    (by decide) (by decide) (by decide) (by decide) (by decide) (by decide)).imp
    (fun _ h => ⟨h.1, h.2.1, h.2.2.1⟩)

/-- Claim C26, witness: row `0` with an empty second column reports the error;
row `1` of two columns of two rows, one of them null there, sets none. -/
theorem update_error_iff_short_column_witness :
    (ArrayAggAggregateFunctionV2.update (ctx_order_by false) [Column.data [7], Column.data []]
        (ArrayAggAggregateFunctionV2.create (ctx_order_by false)) 0).1 =
      (ctx_order_by false).set_error "array_agg2's update row number overflow" ∧
    (ArrayAggAggregateFunctionV2.update (ctx_order_by false) [Column.data [7], Column.data []]
        (ArrayAggAggregateFunctionV2.create (ctx_order_by false)) 0).1.has_error = true ∧
    (ArrayAggAggregateFunctionV2.update (ctx_order_by false) source_columns state_3_1_2 1).1 =
      ctx_order_by false :=
  ⟨((ArrayAggAggregateFunctionV2.update_error_iff_short_column (ctx_order_by false)
      [Column.data [7], Column.data []]
      (ArrayAggAggregateFunctionV2.create (ctx_order_by false)) 0 (by decide)).1
      ⟨1, by decide, by decide⟩).1,
    ((ArrayAggAggregateFunctionV2.update_error_iff_short_column (ctx_order_by false)
      [Column.data [7], Column.data []]
      (ArrayAggAggregateFunctionV2.create (ctx_order_by false)) 0 (by decide)).1
      ⟨1, by decide, by decide⟩).2,
    (ArrayAggAggregateFunctionV2.update_error_iff_short_column (ctx_order_by false)
      source_columns state_3_1_2 1 (by decide)).2.1 (by decide)⟩

/-- Claim C27, witness: the source `[5, null, 7]` converted after an existing
cell, distinct mode: the null row `1` and the row `2`. -/
theorem merge_converted_cell_eq_direct_witness :
    ArrayAggAggregateFunction.merge sum_hash TYPE_BIGINT true ⟨[]⟩
        (ArrayAggAggregateFunction.convert_to_serialize_format [bigint_source] 3 cell_5_null)
        plain_state (cell_5_null.size + 1) =
      (ArrayAggAggregateFunction.process_null true plain_state, ⟨[]⟩) ∧
    ArrayAggAggregateFunction.merge sum_hash TYPE_BIGINT true ⟨[]⟩
        (ArrayAggAggregateFunction.convert_to_serialize_format [bigint_source] 3 cell_5_null)
        plain_state (cell_5_null.size + 2) =
      ArrayAggAggregateFunction.update sum_hash TYPE_BIGINT true ⟨[]⟩ bigint_source.values
        plain_state 2 :=
  ⟨merge_converted_cell_eq_direct sum_hash TYPE_BIGINT true ⟨[]⟩ bigint_source 3 cell_5_null
      plain_state 1 (by decide) (by decide) (by decide),
    merge_converted_cell_eq_direct sum_hash TYPE_BIGINT true ⟨[]⟩ bigint_source 3 cell_5_null
      plain_state 2 (by decide) (by decide) (by decide)⟩

/-- Claim C28, witness: two source columns of two rows converted into an empty
record; row `1`, where the second source is null. -/
theorem merge_converted_record_eq_update_witness :
    ArrayAggAggregateFunctionV2.merge
        (ArrayAggAggregateFunctionV2.convert_to_serialize_format source_columns 2
          empty_record).arrays state_3_1_2 (0 + 1) =
      (ArrayAggAggregateFunctionV2.update (ctx_order_by false) source_columns state_3_1_2 1).2 ∧
    (ArrayAggAggregateFunctionV2.update (ctx_order_by false) source_columns state_3_1_2
        1).2.data_columns =
      [[row 3, row 1, row 2, row 1], [row 30, row 10, row 20, ⟨0, true⟩]] :=
  have h := ArrayAggAggregateFunctionV2.merge_converted_record_eq_update (ctx_order_by false)
    source_columns 2 empty_record state_3_1_2 1 0 (by decide) (by decide) (by decide)
    (by decide) (by decide) (by decide)
  ⟨h.1, h.2.2.trans (by decide)⟩

/-- Claim C29, witness of the amended claim: updates of strings with repeated values, read three
times in reversed iteration order. -/
theorem get_data_column_after_updates_witness :
    ((Nat.iterate (ArrayAggAggregateState.get_data_column true (IterationOrder.reversed _)) (2 + 1)
        (StateCall.run sum_hash true (ArrayAggAggregateState.init LogicalType.string, ⟨[]⟩)
          string_calls).1).data_column).Nodup ∧
    (∀ v, v ∈ (Nat.iterate (ArrayAggAggregateState.get_data_column true
        (IterationOrder.reversed _)) (2 + 1)
        (StateCall.run sum_hash true (ArrayAggAggregateState.init LogicalType.string, ⟨[]⟩)
          string_calls).1).data_column ↔
      v ∈ string_calls.flatMap StateCall.values_applied) :=
  have h := get_data_column_after_updates sum_hash LogicalType.string ⟨[]⟩
    (IterationOrder.reversed _) string_calls 2 (by decide)
  ⟨h.1, h.2.1⟩

/-- Claim C29, counterexample: the claim as stated fails when an update follows
a `get_data_column`.  After `update` of `1`, `get_data_column`, `update` of `2`
and `get_data_column` again, the sequence returned is `[1]` while the dedup set
holds `1` and `2`. -/
theorem get_data_column_after_updates_counterexample :
    state_read_twice.data_column = ([1] : List Int) ∧
    state_read_twice.set.keys = ([1, 2] : List Int) ∧
    (2 : Int) ∈ state_read_twice.set.keys ∧
    (2 : Int) ∉ state_read_twice.data_column := by
  decide

/-- Claim C31, witness: the cells `[5, null]` and `[null, 5]` merged into the
fresh state of integers. -/
theorem distinct_merge_idempotent_commutative_witness :
    (ArrayAggAggregateFunction.merge sum_hash TYPE_BIGINT true ⟨[]⟩ cell_5_null
        (ArrayAggAggregateFunction.merge sum_hash TYPE_BIGINT true ⟨[]⟩ cell_5_null
          (ArrayAggAggregateState.init TYPE_BIGINT) 0).1 0).1 =
      (ArrayAggAggregateFunction.merge sum_hash TYPE_BIGINT true ⟨[]⟩ cell_5_null
        (ArrayAggAggregateState.init TYPE_BIGINT) 0).1 ∧
    ((ArrayAggAggregateFunction.merge sum_hash TYPE_BIGINT true ⟨[]⟩ cell_null_5
        (ArrayAggAggregateFunction.merge sum_hash TYPE_BIGINT true ⟨[]⟩ cell_5_null
          (ArrayAggAggregateState.init TYPE_BIGINT) 0).1 0).1.set.keys).Perm
      ((ArrayAggAggregateFunction.merge sum_hash TYPE_BIGINT true ⟨[]⟩ cell_5_null
        (ArrayAggAggregateFunction.merge sum_hash TYPE_BIGINT true ⟨[]⟩ cell_null_5
          (ArrayAggAggregateState.init TYPE_BIGINT) 0).1 0).1.set.keys) ∧
    (ArrayAggAggregateFunction.merge sum_hash TYPE_BIGINT true ⟨[]⟩ cell_null_5
        (ArrayAggAggregateFunction.merge sum_hash TYPE_BIGINT true ⟨[]⟩ cell_5_null
          (ArrayAggAggregateState.init TYPE_BIGINT) 0).1 0).1.null_count =
      (ArrayAggAggregateFunction.merge sum_hash TYPE_BIGINT true ⟨[]⟩ cell_5_null
        (ArrayAggAggregateFunction.merge sum_hash TYPE_BIGINT true ⟨[]⟩ cell_null_5
          (ArrayAggAggregateState.init TYPE_BIGINT) 0).1 0).1.null_count :=
  have h := distinct_merge_idempotent_commutative sum_hash TYPE_BIGINT ⟨[]⟩ ⟨[]⟩ ⟨[]⟩ ⟨[]⟩
    cell_5_null cell_null_5 0 0 (ArrayAggAggregateState.init TYPE_BIGINT) List.nodup_nil
  ⟨h.1, h.2.2.1, h.2.2.2.1⟩

/-- Claim C32, counterexample: the claim as stated fails for a single column
with distinct requested.  The state column `[1,1,2]` is filtered in place: after
the call it is `[1,2]`. -/
theorem finalize_to_column_value_column_counterexample :
    state_single_repeated.data_columns.getD 0 [] = [row 1, row 1, row 2] ∧
    (ArrayAggAggregateFunctionV2.finalize_to_column stable_ascending_sort parity_hash row_equals
        (ctx_single true) state_single_repeated
        (OutColumn.array ArrayColumn.empty)).state.data_columns.getD 0 [] = [row 1, row 2] ∧
    (ArrayAggAggregateFunctionV2.finalize_to_column stable_ascending_sort parity_hash row_equals
        (ctx_single true) state_single_repeated
        (OutColumn.array ArrayColumn.empty)).state.data_columns.getD 0 [] ≠
      state_single_repeated.data_columns.getD 0 [] := by
  decide

/-- Claim C32, witness of the amended claim: two columns with distinct
requested keep the value column `[1,1,2]`; the single column `[1,1,2]` is left
holding the emitted rows. -/
theorem finalize_to_column_value_column_witness :
    (ArrayAggAggregateFunctionV2.finalize_to_column stable_ascending_sort parity_hash row_equals
        (ctx_order_by true) state_1_1_2
        (OutColumn.array ArrayColumn.empty)).state.data_columns.getD 0 [] =
      state_1_1_2.data_columns.getD 0 [] ∧
    ((ArrayAggAggregateFunctionV2.finalize_to_column stable_ascending_sort parity_hash row_equals
        (ctx_single true) state_single_repeated
        (OutColumn.array ArrayColumn.empty)).state.data_columns.getD 0 []).Sublist
      (state_single_repeated.data_columns.getD 0 []) :=
  ⟨(ArrayAggAggregateFunctionV2.finalize_to_column_value_column stable_ascending_sort
      parity_hash row_equals (ctx_order_by true) state_1_1_2
      (OutColumn.array ArrayColumn.empty)).1 (Or.inl (by decide)),
    ((ArrayAggAggregateFunctionV2.finalize_to_column_value_column stable_ascending_sort
      parity_hash row_equals (ctx_single true) state_single_repeated
      (OutColumn.array ArrayColumn.empty)).2 (by decide) (by decide) (by decide)).2⟩

end starrocks
